import Mathlib

/-! Red-black tree map of `datastructures/maps/rbt`

A shallow embedding of `tree.go`.  A Go `*Node` is a cell with a colour, a key, a value and the
three links `parent`, `leftChild`, `rightChild`.  Here a tree is the inductive type `Node`
(`Node.nil` is the Go `nil`), and a pointer to a cell inside a tree is a `NodeRef`: the fields of
the cell together with its chain of `parent` links (`Path`), each link remembering the parent's
own fields and its other child.  Assigning through a pointer is rebuilding the tree around the
changed cell (`Path.fill`).

`tree.go` is the only file of the package among the sources.  `Node.Min`, `Node.Next`,
`Node.Clone`, the iterator, `fixInsert`, `fixRemove`, the rotations and `maps.PanicOnMissingKey`
live in files that are not available; they are modelled from the specification and marked as
such.  The deque `Clone` uses is not available either; what it does when popped empty is a
parameter.

Go panics are the `Failure` values of `Except`; loops whose termination is not structural carry a
fuel argument and answer `Failure.outOfFuel` when it runs out.
-/

namespace rbt

/-! ## Data model -/

/-- The three answers of a `comparison.Comparator`. -/
inductive Result where
  | FirstSmaller
  | Equal
  | FirstBigger
deriving DecidableEq

/-- A `comparison.Comparator[K]`. -/
abbrev Comparator (K : Type) := K → K → Result

/-- The colour bit of a node. -/
inductive Color where
  | red
  | black
deriving DecidableEq

/-- A (possibly nil) subtree: `nil` is the Go `nil` pointer, `node` a cell with its two owned
children. -/
inductive Node (K V : Type) where
  | nil : Node K V
  | node (color : Color) (leftChild : Node K V) (key : K) (Value : V) (rightChild : Node K V) :
      Node K V

/-- Which child of its parent a node is. -/
inductive Dir where
  | L
  | R
deriving DecidableEq

/-- The chain of `parent` links above a node.  `left c up k v r`: the node is the `leftChild` of a
cell with colour `c`, key `k`, value `v` and right child `r`, whose own chain is `up`; `right`
symmetrically; `root`: the node has no parent. -/
inductive Path (K V : Type) where
  | root : Path K V
  | left (color : Color) (parent : Path K V) (key : K) (Value : V) (rightChild : Node K V) :
      Path K V
  | right (color : Color) (leftChild : Node K V) (key : K) (Value : V) (parent : Path K V) :
      Path K V

/-- A non-nil `*Node` pointing into a tree: the fields of the cell and its parent chain. -/
structure NodeRef (K V : Type) where
  color : Color
  leftChild : Node K V
  key : K
  Value : V
  rightChild : Node K V
  path : Path K V

/-- What a Go panic, an exhausted fuel bound or a step outside the model leaves instead of a
result. -/
inductive Failure where
  | nilDereference
  | indexOutOfRange
  | makeSliceLen
  | missingKey
  | indexOutOfBounds
  | invalidPointer
  | notModelled
  | outOfFuel
deriving DecidableEq

/-- The `Tree` struct: `root`, the counter `nodes`, and the comparator, which is `none` in the
zero value of the struct. -/
structure Tree (K V : Type) where
  root : Node K V
  nodes : Int
  comparator : Option (Comparator K)

variable {K V : Type}

/-- `node == nil`. -/
def Node.isNil : Node K V → Bool
  | .nil => true
  | .node _ _ _ _ _ => false

/-- The node is a red cell (a nil pointer counts as black). -/
def Node.isRed : Node K V → Bool
  | .node .red _ _ _ _ => true
  | _ => false

/-- The node is black or absent. -/
def Node.isBlack (t : Node K V) : Bool := !t.isRed

/-- `node.color = black` (nothing to do on nil). -/
def Node.setBlack : Node K V → Node K V
  | .nil => .nil
  | .node _ l k v r => .node .black l k v r

/-- Number of cells reachable from a node through child links. -/
def Node.size : Node K V → Nat
  | .nil => 0
  | .node _ l _ _ r => l.size + 1 + r.size

/-- Number of nodes on the longest path down to a nil link. -/
def Node.height : Node K V → Nat
  | .nil => 0
  | .node _ l _ _ r => max l.height r.height + 1

/-- In-order sequence of the entries. -/
def Node.toList : Node K V → List (K × V)
  | .nil => []
  | .node _ l k v r => l.toList ++ (k, v) :: r.toList

/-- In-order sequence of the keys. -/
def Node.keys (t : Node K V) : List K := t.toList.map Prod.fst

/-- The tree obtained by putting `t` where the chain `p` starts and rebuilding every ancestor. -/
def Path.fill : Path K V → Node K V → Node K V
  | .root, t => t
  | .left c up k v r, t => up.fill (.node c t k v r)
  | .right c l k v up, t => up.fill (.node c l k v t)

/-- Number of ancestors. -/
def Path.depth : Path K V → Nat
  | .root => 0
  | .left _ up _ _ _ => up.depth + 1
  | .right _ _ _ _ up => up.depth + 1

/-- The child steps leading from the root down to the position of the chain. -/
def Path.dirs : Path K V → List Dir
  | .root => []
  | .left _ up _ _ _ => up.dirs ++ [Dir.L]
  | .right _ _ _ _ up => up.dirs ++ [Dir.R]

/-- The cell a pointer points to, as a subtree. -/
def NodeRef.node (n : NodeRef K V) : Node K V :=
  .node n.color n.leftChild n.key n.Value n.rightChild

/-- The whole tree a pointer points into. -/
def NodeRef.tree (n : NodeRef K V) : Node K V := n.path.fill n.node

/-! ## Parts of the package that are not among the sources -/

/-- Modelled from the spec: rotation (glossary: "a local restructuring that exchanges a node with
one of its children, preserving in-order sequence"); the node goes down to the left and its right
child takes its place. -/
def rotateLeft : Node K V → Node K V
  | .node c a k v (.node c2 b k2 v2 d) => .node c2 (.node c a k v b) k2 v2 d
  | t => t

/-- Modelled from the spec: rotation; the node goes down to the right and its left child takes its
place. -/
def rotateRight : Node K V → Node K V
  | .node c (.node c2 a k2 v2 b) k v d => .node c2 a k2 v2 (.node c b k v d)
  | t => t

/-- Modelled from the spec: `Node.Min` (4.1, "descend left ... to the subtree extreme"), for the
subtree `t` hanging at `p`; nil for a nil receiver. -/
def Node.Min : Node K V → Path K V → Option (NodeRef K V)
  | .nil, _ => none
  | .node c .nil k v r, p => some ⟨c, .nil, k, v, r, p⟩
  | .node c (.node lc ll lk lv lr) k v r, p => Node.Min (.node lc ll lk lv lr) (.left c p k v r)

/-- Modelled from the spec: the upward part of `Node.Next` (4.1): "walk up through parent links
until reaching a node that is its parent's left child (or until no parent remains)"; the answer
is that parent.  `t` is the subtree of the node the walk stands on. -/
def Path.firstLeftAncestor : Node K V → Path K V → Option (NodeRef K V)
  | _, .root => none
  | t, .left c up k v r => some ⟨c, t, k, v, r, up⟩
  | t, .right c l k v up => Path.firstLeftAncestor (.node c l k v t) up

/-- Modelled from the spec: `Node.Next` (4.1): "if a right child exists, return its `Min()`;
otherwise walk up". -/
def NodeRef.Next (n : NodeRef K V) : Option (NodeRef K V) :=
  if n.rightChild.isNil then Path.firstLeftAncestor n.node n.path
  else Node.Min n.rightChild (.right n.color n.leftChild n.key n.Value n.path)

/-- Modelled from the spec: the loop of insertion fixup (4.2), for the node `n` at `path`; the
answer is the whole tree when the loop stops.  While `n` has a red parent under a grandparent:
uncle red: parent and uncle black, grandparent red, go on at the grandparent; otherwise, in the
triangle shape the parent is first rotated so that `n` comes above it and the old parent is the
new `n`, and then (line shape) the parent becomes black, the grandparent red and the grandparent
is rotated away from `n`, which ends the loop.  The spec says nothing of a red parent without a
grandparent; the loop stops there. -/
def fixInsertLoop : Node K V → Path K V → Node K V
  | n, .left .red (.left _ gp gk gv uncle) pk pv pr =>
    if uncle.isRed then
      fixInsertLoop (.node .red (.node .black n pk pv pr) gk gv uncle.setBlack) gp
    else
      gp.fill (rotateRight (.node .red (Node.node .red n pk pv pr).setBlack gk gv uncle))
  | n, .right .red pl pk pv (.left _ gp gk gv uncle) =>
    if uncle.isRed then
      fixInsertLoop (.node .red (.node .black pl pk pv n) gk gv uncle.setBlack) gp
    else
      gp.fill (rotateRight (.node .red (rotateLeft (.node .red pl pk pv n)).setBlack gk gv uncle))
  | n, .right .red pl pk pv (.right _ uncle gk gv gp) =>
    if uncle.isRed then
      fixInsertLoop (.node .red uncle.setBlack gk gv (.node .black pl pk pv n)) gp
    else
      gp.fill (rotateLeft (.node .red uncle gk gv (Node.node .red pl pk pv n).setBlack))
  | n, .left .red (.right _ uncle gk gv gp) pk pv pr =>
    if uncle.isRed then
      fixInsertLoop (.node .red uncle.setBlack gk gv (.node .black n pk pv pr)) gp
    else
      gp.fill (rotateLeft (.node .red uncle gk gv (rotateRight (.node .red n pk pv pr)).setBlack))
  | n, p => p.fill n

/-- Modelled from the spec: `fixInsert` (4.2): the loop, then "unconditionally recolor the root
black". -/
def fixInsert (n : Node K V) (path : Path K V) : Node K V :=
  (fixInsertLoop n path).setBlack

/-- Modelled from the spec: where the loop of deletion fixup (4.2) stands: the subtree `x`, its
parent chain, and the child steps `rel` leading from `x` down to the node `fixRemove` was called
on (that node keeps its identity while the rotations move it). -/
structure FixState (K V : Type) where
  x : Node K V
  path : Path K V
  rel : List Dir

/-- Modelled from the spec: deletion fixup (4.2) at a left child `x` whose sibling `w` is black;
`pc`, `pk`, `pv` are the parent's fields and `pp` its chain.  Both children of the sibling black
or absent: sibling red, `x` moves to the parent.  Otherwise, when the far child is not red, the
sibling is first rotated away from `x` (near child black, sibling red), and then the sibling takes
the parent's colour, parent and far child become black, the parent is rotated toward `x` and `x`
is the root.  The guard of the third bullet is read as "far child black": the fourth bullet
claims every state with a red far child. -/
def fixRemoveBlackSiblingL (x : Node K V) (pc : Color) (pp : Path K V) (pk : K) (pv : V)
    (w : Node K V) (rel : List Dir) : Except Failure (FixState K V) :=
  match w with
  | .nil => .error .nilDereference
  | .node wc wl wk wv wr =>
    if wl.isBlack && wr.isBlack then
      .ok ⟨.node pc x pk pv (.node .red wl wk wv wr), pp, Dir.L :: rel⟩
    else
      match (if wr.isBlack then rotateRight (.node .red wl.setBlack wk wv wr)
             else Node.node wc wl wk wv wr) with
      | .nil => .error .nilDereference
      | .node _ sl sk sv sr =>
        .ok ⟨pp.fill (rotateLeft (.node .black x pk pv (.node pc sl sk sv sr.setBlack))), .root,
          pp.dirs ++ Dir.L :: Dir.L :: rel⟩

/-- Modelled from the spec: the mirror image of `fixRemoveBlackSiblingL`, for a right child. -/
def fixRemoveBlackSiblingR (x : Node K V) (pc : Color) (pp : Path K V) (pk : K) (pv : V)
    (w : Node K V) (rel : List Dir) : Except Failure (FixState K V) :=
  match w with
  | .nil => .error .nilDereference
  | .node wc wl wk wv wr =>
    if wl.isBlack && wr.isBlack then
      .ok ⟨.node pc (.node .red wl wk wv wr) pk pv x, pp, Dir.R :: rel⟩
    else
      match (if wl.isBlack then rotateLeft (.node .red wl wk wv wr.setBlack)
             else Node.node wc wl wk wv wr) with
      | .nil => .error .nilDereference
      | .node _ sl sk sv sr =>
        .ok ⟨pp.fill (rotateRight (.node .black (.node pc sl.setBlack sk sv sr) pk pv x)), .root,
          pp.dirs ++ Dir.R :: Dir.R :: rel⟩

/-- Modelled from the spec: one round of the loop of deletion fixup (4.2) at a black `x` that is
not the root.  Sibling red: sibling black, parent red, parent rotated toward `x`, sibling
recomputed; then the cases of a black sibling. -/
def fixRemoveStep (x : Node K V) (rel : List Dir) : Path K V → Except Failure (FixState K V)
  | .root => .ok ⟨x, .root, rel⟩
  | .left pc pp pk pv w =>
    match w with
    | .node .red wl wk wv wr =>
      fixRemoveBlackSiblingL x .red (.left .black pp wk wv wr) pk pv wl rel
    | _ => fixRemoveBlackSiblingL x pc pp pk pv w rel
  | .right pc w pk pv pp =>
    match w with
    | .node .red wl wk wv wr =>
      fixRemoveBlackSiblingR x .red (.right .black wl wk wv pp) pk pv wr rel
    | _ => fixRemoveBlackSiblingR x pc pp pk pv w rel

/-- Modelled from the spec: the loop of deletion fixup (4.2): it runs "until `x` is the root or is
colored red". -/
def fixRemoveLoop : Nat → FixState K V → Except Failure (FixState K V)
  | 0, _ => .error .outOfFuel
  | fuel + 1, s =>
    match s.path with
    | .root => .ok s
    | _ =>
      if s.x.isRed then .ok s
      else
        match fixRemoveStep s.x s.rel s.path with
        | .error e => .error e
        | .ok s2 => fixRemoveLoop fuel s2

/-- Modelled from the spec: `fixRemove` (4.2), called on the subtree `x` at `path`: the loop, then
"recolor it black and stop".  The answer is the whole tree and the child steps from its root to
the node the call was made on. -/
def fixRemove (x : Node K V) (path : Path K V) : Except Failure (Node K V × List Dir) :=
  match fixRemoveLoop (2 * path.depth + 2) ⟨x, path, []⟩ with
  | .error e => .error e
  | .ok s => .ok (s.path.fill s.x.setBlack, s.path.dirs ++ s.rel)

/-- Modelled from the spec: the iterator (2, 4.3): "a cursor bound to a tree at creation", with a
`current` node reference that "may be null = exhausted". -/
structure Iterator (K V : Type) where
  tree : Tree K V
  current : Option (NodeRef K V)

/-- Modelled from the spec: `Valid` (4.3): "current non-null". -/
def Iterator.Valid (it : Iterator K V) : Bool := it.current.isSome

/-- Modelled from the spec: `Move` (4.3) "applies `Node.Next()`". -/
def Iterator.Move (it : Iterator K V) : Iterator K V :=
  { it with current := it.current.bind NodeRef.Next }

/-! ## `tree.go` -/

/-- The zero value of the `Tree` struct: no root, no nodes, no comparator. -/
def ZeroValue : Tree K V := { root := .nil, nodes := 0, comparator := none }

/-- `NewWithComparator`. -/
def NewWithComparator (comparator : Comparator K) : Tree K V :=
  { root := .nil, nodes := 0, comparator := some comparator }

/-- `cmp.Compare` on integers, the comparator `New` supplies. -/
def Compare (a b : Int) : Result :=
  if a < b then .FirstSmaller else if a = b then .Equal else .FirstBigger

/-- `New`, for integer keys. -/
def New : Tree Int V := NewWithComparator Compare

/-- `Tree.Size`. -/
def Tree.Size (tree : Tree K V) : Int := tree.nodes

/-- The loop of `Tree.GetNode`, standing on `curr` whose parent chain is `path`. -/
def GetNode.loop (comparator : Comparator K) (key : K) :
    Node K V → Path K V → Option (NodeRef K V)
  | .nil, _ => none
  | .node c l k v r, path =>
    match comparator key k with
    | .FirstSmaller => GetNode.loop comparator key l (.left c path k v r)
    | .FirstBigger => GetNode.loop comparator key r (.right c l k v path)
    | .Equal => some ⟨c, l, k, v, r, path⟩

/-- `Tree.GetNode`: `none` is the nil result.  The comparator is called only on a non-nil node;
calling the nil comparator of a zero-value tree panics. -/
def Tree.GetNode (tree : Tree K V) (key : K) : Except Failure (Option (NodeRef K V)) :=
  match tree.root with
  | .nil => .ok none
  | .node c l k v r =>
    match tree.comparator with
    | none => .error .nilDereference
    | some comparator => .ok (GetNode.loop comparator key (.node c l k v r) .root)

/-- `Tree.Contains`. -/
def Tree.Contains (tree : Tree K V) (key : K) : Except Failure Bool :=
  match tree.GetNode key with
  | .error e => .error e
  | .ok node => .ok node.isSome

/-- `Tree.TryGet`; the zero value of `V` is `default`. -/
def Tree.TryGet [Inhabited V] (tree : Tree K V) (key : K) : Except Failure (V × Bool) :=
  match tree.GetNode key with
  | .error e => .error e
  | .ok none => .ok (default, false)
  | .ok (some node) => .ok (node.Value, true)

/-- Modelled from the spec: `maps.PanicOnMissingKey`, which is not among the sources: it raises
the `KeyNotFound` failure of section 7, here `Failure.missingKey`. -/
def PanicOnMissingKey (_key : K) : Except Failure Unit := .error .missingKey

/-- `Tree.GetRef`.  The pointer to the `Value` field of a node is the pointer to the node; taking
it on a nil node is a nil dereference. -/
def Tree.GetRef (tree : Tree K V) (key : K) : Except Failure (NodeRef K V) :=
  match tree.GetNode key with
  | .error e => .error e
  | .ok none =>
    match PanicOnMissingKey key with
    | .error e => .error e
    | .ok _ => .error .nilDereference
  | .ok (some node) => .ok node

/-- `Tree.Get`: `*tree.GetRef(key)`. -/
def Tree.Get (tree : Tree K V) (key : K) : Except Failure V :=
  match tree.GetRef key with
  | .error e => .error e
  | .ok ref => .ok ref.Value

/-- How the descent loop of `Tree.Set` ends: it returned after overwriting a value (the new whole
tree), or it ran off the tree with `prev` the last node visited. -/
inductive SetLoopResult (K V : Type) where
  | overwritten (root : Node K V)
  | fellOff (prev : Option (NodeRef K V))

/-- The descent loop of `Tree.Set`. -/
def Set.loop (comparator : Comparator K) (key : K) (value : V) :
    Node K V → Path K V → Option (NodeRef K V) → SetLoopResult K V
  | .nil, _, prev => .fellOff prev
  | .node c l k v r, path, _ =>
    match comparator key k with
    | .FirstSmaller =>
      Set.loop comparator key value l (.left c path k v r) (some ⟨c, l, k, v, r, path⟩)
    | .FirstBigger =>
      Set.loop comparator key value r (.right c l k v path) (some ⟨c, l, k, v, r, path⟩)
    | .Equal => .overwritten (path.fill (.node c l k value r))

/-- `Tree.Set`. -/
def Tree.Set (tree : Tree K V) (key : K) (value : V) : Except Failure (Tree K V) :=
  match tree.root with
  | .nil => .ok { tree with root := .node .black .nil key value .nil, nodes := tree.nodes + 1 }
  | .node c l k v r =>
    match tree.comparator with
    | none => .error .nilDereference
    | some comparator =>
      match Set.loop comparator key value (.node c l k v r) .root none with
      | .overwritten root => .ok { tree with root := root }
      | .fellOff none => .error .nilDereference
      | .fellOff (some prev) =>
        let node : Node K V := .node .red .nil key value .nil
        let path : Path K V :=
          if comparator key prev.key = .FirstSmaller then
            .left prev.color prev.path prev.key prev.Value prev.rightChild
          else
            .right prev.color prev.leftChild prev.key prev.Value prev.path
        .ok { tree with root := fixInsert node path, nodes := tree.nodes + 1 }

/-- The last statements of `Tree.removeNode`: the cell reached from the root of `t` by the child
steps `dirs` is unlinked from its parent; nothing happens when it has no parent. -/
def detach : Node K V → List Dir → Node K V
  | t, [] => t
  | .nil, _ :: _ => .nil
  | .node c _ k v r, [Dir.L] => .node c .nil k v r
  | .node c l k v _, [Dir.R] => .node c l k v .nil
  | .node c l k v r, Dir.L :: d :: ds => .node c (detach l (d :: ds)) k v r
  | .node c l k v r, Dir.R :: d :: ds => .node c l k v (detach r (d :: ds))

/-- `Tree.removeNode`.  The fuel bounds the depth of the recursion on the successor. -/
def Tree.removeNode : Nat → Tree K V → NodeRef K V → Except Failure (Tree K V)
  | fuel, tree, node =>
    if !node.leftChild.isNil && !node.rightChild.isNil then
      match fuel with
      | 0 => .error .outOfFuel
      | fuel + 1 =>
        match node.Next with
        | none => .error .nilDereference
        | some next => Tree.removeNode fuel tree { next with key := node.key, Value := node.Value }
    else
      let nodes := tree.nodes - 1
      let child := if !node.leftChild.isNil then node.leftChild else node.rightChild
      match child, node.path with
      | .node cc cl ck cv cr, path =>
        if node.color = .black then
          match fixRemove (.node cc cl ck cv cr) path with
          | .error e => .error e
          | .ok (root, _) => .ok { tree with root := root, nodes := nodes }
        else .ok { tree with root := path.fill (.node cc cl ck cv cr), nodes := nodes }
      | .nil, .root => .ok { tree with root := .nil, nodes := nodes }
      | .nil, path =>
        if node.color = .black then
          match fixRemove node.node path with
          | .error e => .error e
          | .ok (root, dirs) => .ok { tree with root := detach root dirs, nodes := nodes }
        else .ok { tree with root := detach (path.fill node.node) path.dirs, nodes := nodes }

/-- `Tree.Remove`. -/
def Tree.Remove (tree : Tree K V) (key : K) : Except Failure (Tree K V) :=
  match tree.GetNode key with
  | .error e => .error e
  | .ok none => .ok tree
  | .ok (some node) => Tree.removeNode tree.root.size tree node

/-- `Tree.MapIterator`. -/
def Tree.MapIterator (tree : Tree K V) : Iterator K V :=
  { tree := tree, current := Node.Min tree.root .root }

/-- The loop of `Tree.Keys`: `keys[i] = it.Get().First; i++` while the iterator is valid. -/
def Keys.loop : Nat → Iterator K V → List K → Nat → Except Failure (List K)
  | 0, _, _, _ => .error .outOfFuel
  | fuel + 1, it, keys, i =>
    match it.current with
    | none => .ok keys
    | some node =>
      if i < keys.length then Keys.loop fuel it.Move (keys.set i node.key) (i + 1)
      else .error .indexOutOfRange

/-- `Tree.Keys`; the zero value of `K` is `default`. -/
def Tree.Keys [Inhabited K] (tree : Tree K V) : Except Failure (List K) :=
  if tree.nodes < 0 then .error .makeSliceLen
  else Keys.loop (tree.root.size + 1) tree.MapIterator (List.replicate tree.nodes.toNat default) 0

/-- `Tree.Clear`. -/
def Tree.Clear (tree : Tree K V) : Tree K V := { tree with root := .nil }

/-- `Tree.Root`. -/
def Tree.Root (tree : Tree K V) : Node K V := tree.root

/-- A call of the map interface that changes the tree. -/
inductive Op (K V : Type) where
  | Set (key : K) (value : V)
  | Remove (key : K)

/-- One call applied to a tree. -/
def Tree.apply (tree : Tree K V) : Op K V → Except Failure (Tree K V)
  | .Set key value => tree.Set key value
  | .Remove key => tree.Remove key

/-- A sequence of calls applied in order; a failing call ends the run. -/
def Tree.run (tree : Tree K V) : List (Op K V) → Except Failure (Tree K V)
  | [] => .ok tree
  | op :: ops =>
    match tree.apply op with
    | .error e => .error e
    | .ok tree2 => Tree.run tree2 ops

/-! ## The invariants of the specification (section 3) -/

/-- The comparator contract (4.2): a strict, total, transitive three-way ordering.  Swapping the
arguments swaps smaller and bigger, smaller is transitive, and keys that compare equal compare
alike with every other key. -/
structure StrictTotalOrder (comparator : Comparator K) : Prop where
  swap : ∀ a b, comparator a b = .FirstSmaller ↔ comparator b a = .FirstBigger
  trans : ∀ a b c, comparator a b = .FirstSmaller → comparator b c = .FirstSmaller →
    comparator a c = .FirstSmaller
  equal : ∀ a b c, comparator a b = .Equal → comparator a c = comparator b c

/-- Invariant 1: "for every node, all keys in the left subtree compare less, all in the right
subtree compare greater". -/
def BST (comparator : Comparator K) : Node K V → Prop
  | .nil => True
  | .node _ l k _ r =>
    (∀ x ∈ l.keys, comparator x k = .FirstSmaller) ∧
    (∀ x ∈ r.keys, comparator x k = .FirstBigger) ∧ BST comparator l ∧ BST comparator r

/-- Invariant 2: "the root, if present, is black". -/
def RootBlack : Node K V → Prop
  | .nil => True
  | .node c _ _ _ _ => c = .black

/-- Invariant 3: "no red node has a red child". -/
def NoRedRed : Node K V → Prop
  | .nil => True
  | .node c l _ _ r =>
    (c = .red → l.isRed = false ∧ r.isRed = false) ∧ NoRedRed l ∧ NoRedRed r

/-- The number of black nodes on each path from a node down to a nil link, path by path. -/
def blackCounts : Node K V → List Nat
  | .nil => [0]
  | .node c l _ _ r =>
    (blackCounts l ++ blackCounts r).map fun n => if c = .black then n + 1 else n

/-- Invariant 4 at the root: every root-to-nil path has the same number of black nodes. -/
def EqualBlackCount (t : Node K V) : Prop :=
  ∀ a ∈ blackCounts t, ∀ b ∈ blackCounts t, a = b

/-- Invariants 2 to 4 together. -/
def ColourInvariants (t : Node K V) : Prop :=
  RootBlack t ∧ NoRedRed t ∧ EqualBlackCount t

/-- The keys of a list are strictly ascending under the comparator. -/
def StrictlyAscending (comparator : Comparator K) (keys : List K) : Prop :=
  keys.Pairwise fun a b => comparator a b = .FirstSmaller

/-- Deciding `BST` on a given tree. -/
def BST.decide (comparator : Comparator K) : (t : Node K V) → Decidable (BST comparator t)
  | .nil => isTrue True.intro
  | .node _ l k _ r =>
    letI := BST.decide comparator l
    letI := BST.decide comparator r
    inferInstanceAs (Decidable ((∀ x ∈ l.keys, comparator x k = .FirstSmaller) ∧
      (∀ x ∈ r.keys, comparator x k = .FirstBigger) ∧ BST comparator l ∧ BST comparator r))

instance (comparator : Comparator K) (t : Node K V) : Decidable (BST comparator t) :=
  BST.decide comparator t

instance (t : Node K V) : Decidable (RootBlack t) :=
  match t with
  | .nil => isTrue True.intro
  | .node c _ _ _ _ => inferInstanceAs (Decidable (c = .black))

/-- Deciding `NoRedRed` on a given tree. -/
def NoRedRed.decide : (t : Node K V) → Decidable (NoRedRed t)
  | .nil => isTrue True.intro
  | .node c l _ _ r =>
    letI := NoRedRed.decide l
    letI := NoRedRed.decide r
    inferInstanceAs (Decidable ((c = .red → l.isRed = false ∧ r.isRed = false) ∧
      NoRedRed l ∧ NoRedRed r))

instance (t : Node K V) : Decidable (NoRedRed t) := NoRedRed.decide t

instance (t : Node K V) : Decidable (EqualBlackCount t) :=
  inferInstanceAs (Decidable (∀ a ∈ blackCounts t, ∀ b ∈ blackCounts t, a = b))

instance (t : Node K V) : Decidable (ColourInvariants t) :=
  inferInstanceAs (Decidable (RootBlack t ∧ NoRedRed t ∧ EqualBlackCount t))

instance (comparator : Comparator K) (keys : List K) : Decidable (StrictlyAscending comparator keys) :=
  inferInstanceAs (Decidable (keys.Pairwise fun a b => comparator a b = .FirstSmaller))

/-! ## Auxiliary predicates for the proofs -/

/-- The subtree is a red-black tree below its root: no red node has a red child, every path to a
nil link holds `n` black nodes, and the root has colour `c` (nil counts as black). -/
inductive Bal : Node K V → Color → Nat → Prop where
  | leaf : Bal .nil .black 0
  | redNode {l r : Node K V} {k : K} {v : V} {n : Nat} :
      Bal l .black n → Bal r .black n → Bal (.node .red l k v r) .red n
  | blackNode {l r : Node K V} {k : K} {v : V} {cl cr : Color} {n : Nat} :
      Bal l cl n → Bal r cr n → Bal (.node .black l k v r) .black (n + 1)

/-- The tree around the hole of a chain is a red-black tree with a black root as soon as the hole
holds a subtree `Bal _ c n`. -/
inductive PBal : Path K V → Color → Nat → Prop where
  | top {n : Nat} : PBal .root .black n
  | underRedL {up : Path K V} {k : K} {v : V} {r : Node K V} {n : Nat} :
      Bal r .black n → PBal up .red n → PBal (.left .red up k v r) .black n
  | underRedR {up : Path K V} {k : K} {v : V} {l : Node K V} {n : Nat} :
      Bal l .black n → PBal up .red n → PBal (.right .red l k v up) .black n
  | underBlackL {up : Path K V} {k : K} {v : V} {r : Node K V} {c cr : Color} {n : Nat} :
      Bal r cr n → PBal up .black (n + 1) → PBal (.left .black up k v r) c n
  | underBlackR {up : Path K V} {k : K} {v : V} {l : Node K V} {c cl : Color} {n : Nat} :
      Bal l cl n → PBal up .black (n + 1) → PBal (.right .black l k v up) c n

/-- Entries of the ancestors and their other subtrees that come before the hole, in order. -/
def Path.before : Path K V → List (K × V)
  | .root => []
  | .left _ up _ _ _ => up.before
  | .right _ l k v up => up.before ++ l.toList ++ [(k, v)]

/-- Entries of the ancestors and their other subtrees that come after the hole, in order. -/
def Path.after : Path K V → List (K × V)
  | .root => []
  | .left _ up k v r => (k, v) :: r.toList ++ up.after
  | .right _ _ _ _ up => up.after

/-- The first value stored under a key comparing equal to `key` in a list of entries. -/
def lookup (comparator : Comparator K) (key : K) : List (K × V) → Option V
  | [] => none
  | (k, v) :: rest => if comparator key k = .Equal then some v else lookup comparator key rest

/-- Where the descent for `key` from the subtree `t` hanging at `p` ends: at the cell whose key
compares equal, or at a nil link; the answer is what hangs there and its parent chain. -/
def descend (comparator : Comparator K) (key : K) : Node K V → Path K V → Node K V × Path K V
  | .nil, p => (.nil, p)
  | .node c l k v r, p =>
    match comparator key k with
    | .FirstSmaller => descend comparator key l (.left c p k v r)
    | .FirstBigger => descend comparator key r (.right c l k v p)
    | .Equal => (.node c l k v r, p)

/-- The answer `r` of the fixup loop is a state from which recolouring `x` black leaves the tree
in which the subtree the loop started on, `x0`, hangs at the chain `q`, and the child steps the
loop reports lead to the position `rel` below `x0`. -/
def FixEnds (r : Except Failure (FixState K V)) (x0 : Node K V) (q : Path K V)
    (rel : List Dir) : Prop :=
  ∃ s, r = .ok s ∧ s.path.fill s.x.setBlack = q.fill x0 ∧ s.path.dirs ++ s.rel = q.dirs ++ rel

/-- The keys of a list of entries are strictly ascending under the comparator. -/
def EntriesAscending (comparator : Comparator K) (entries : List (K × V)) : Prop :=
  entries.Pairwise fun a b => comparator a.1 b.1 = .FirstSmaller

/-- Every ancestor in the chain was passed on the side the comparator chose for `key`. -/
def Path.Zoomed (comparator : Comparator K) (key : K) : Path K V → Prop
  | .root => True
  | .left _ up k _ _ => comparator key k = .FirstSmaller ∧ Path.Zoomed comparator key up
  | .right _ _ k _ up => comparator key k = .FirstBigger ∧ Path.Zoomed comparator key up

/-- The entries an iterator standing on `current` still has to visit, in order. -/
def remaining : Option (NodeRef K V) → List (K × V)
  | none => []
  | some m => (m.key, m.Value) :: m.rightChild.toList ++ m.path.after

/-- The invariants that hold of every tree built from an empty tree of `NewWithComparator`: the
comparator is the one supplied, the colour invariants hold, and the counter is the number of
reachable nodes. -/
def Reached (comparator : Comparator K) (tree : Tree K V) : Prop :=
  tree.comparator = some comparator ∧ (∃ n, Bal tree.root .black n) ∧
    tree.nodes = tree.root.size

/-- The entries that come before a node in the in-order sequence of its tree. -/
def NodeRef.passed (m : NodeRef K V) : List (K × V) := m.path.before ++ m.leftChild.toList

/-- Modelled from the spec: `Node.Clone` (4.1): "a new node carrying the same key, value, and
color, with parent/child links left unset". -/
def Node.Clone : Node K V → Node K V
  | .nil => .nil
  | .node c _ k v _ => .node c .nil k v .nil

/-- What `PopFront` does on an empty deque of node pointers.  The deque of
`colseq.NewArrayDeque` is not among the sources and the spec does not say; it is a parameter of
`Tree.Clone`: the call panics, or it answers the zero value, a nil pointer. -/
inductive EmptyPop where
  | panics (e : Failure)
  | answersNil

/-- `cell.leftChild = child` for the cell of the tree under construction that the child steps
`dirs` lead to from its root. -/
def setLeftChildAt : Node K V → List Dir → Node K V → Except Failure (Node K V)
  | .nil, _, _ => .error .nilDereference
  | .node c _ k v r, [], child => .ok (.node c child k v r)
  | .node c l k v r, Dir.L :: ds, child =>
    match setLeftChildAt l ds child with
    | .error e => .error e
    | .ok l2 => .ok (.node c l2 k v r)
  | .node c l k v r, Dir.R :: ds, child =>
    match setLeftChildAt r ds child with
    | .error e => .error e
    | .ok r2 => .ok (.node c l k v r2)

/-- `cell.rightChild = child` for the cell the child steps `dirs` lead to. -/
def setRightChildAt : Node K V → List Dir → Node K V → Except Failure (Node K V)
  | .nil, _, _ => .error .nilDereference
  | .node c l k v _, [], child => .ok (.node c l k v child)
  | .node c l k v r, Dir.L :: ds, child =>
    match setRightChildAt l ds child with
    | .error e => .error e
    | .ok l2 => .ok (.node c l2 k v r)
  | .node c l k v r, Dir.R :: ds, child =>
    match setRightChildAt r ds child with
    | .error e => .error e
    | .ok r2 => .ok (.node c l k v r2)

/-- The state of the loop of `Tree.Clone`: the root of the new tree, the deque of nodes of the
original, and the deque of pointers into the new tree (`none` is a nil pointer, `some dirs` the
cell the child steps `dirs` lead to from the new root). -/
structure CloneState (K V : Type) where
  root : Node K V
  nodesInOriginal : List (Node K V)
  nodesInCloned : List (Option (List Dir))

/-- The loop of `Tree.Clone`.  Both fronts are popped; for each child of the node of the original
the child is pushed on the deque of the original and its `Clone()` is linked under the popped
node of the new tree.  Nothing is pushed on the deque of the new tree. -/
def Clone.loop (emptyPop : EmptyPop) : Nat → CloneState K V → Except Failure (Node K V)
  | 0, _ => .error .outOfFuel
  | fuel + 1, s =>
    match s.nodesInOriginal with
    | [] => .ok s.root
    | nodeInOriginal :: restOriginal =>
      match (match s.nodesInCloned, emptyPop with
          | p :: rest, _ => Except.ok (p, rest)
          | [], .panics e => Except.error e
          | [], .answersNil => Except.ok (none, [])) with
      | .error e => .error e
      | .ok (nodeInCloned, restCloned) =>
        match nodeInOriginal with
        | .nil => .error .nilDereference
        | .node _ leftNode _ _ rightNode =>
          match (match leftNode with
              | .nil => Except.ok (restOriginal, s.root)
              | .node lc ll lk lv lr =>
                match nodeInCloned with
                | none => Except.error Failure.nilDereference
                | some dirs =>
                  match setLeftChildAt s.root dirs (Node.node lc ll lk lv lr).Clone with
                  | .error e => Except.error e
                  | .ok root2 => Except.ok (restOriginal ++ [Node.node lc ll lk lv lr], root2)) with
          | .error e => .error e
          | .ok (original2, root2) =>
            match (match rightNode with
                | .nil => Except.ok (original2, root2)
                | .node rc rl rk rv rr =>
                  match nodeInCloned with
                  | none => Except.error Failure.nilDereference
                  | some dirs =>
                    match setRightChildAt root2 dirs (Node.node rc rl rk rv rr).Clone with
                    | .error e => Except.error e
                    | .ok root3 =>
                      Except.ok (original2 ++ [Node.node rc rl rk rv rr], root3)) with
            | .error e => .error e
            | .ok (original3, root3) =>
              Clone.loop emptyPop fuel
                { root := root3, nodesInOriginal := original3, nodesInCloned := restCloned }

/-- `Tree.Clone`.  The fuel is one round for each node of the original and one for the test that
ends the loop. -/
def Tree.Clone (emptyPop : EmptyPop) (tree : Tree K V) : Except Failure (Tree K V) :=
  match tree.root with
  | .nil => .ok { root := .nil, nodes := tree.nodes, comparator := tree.comparator }
  | .node c l k v r =>
    match Clone.loop emptyPop (tree.root.size + 1)
        { root := (Node.node c l k v r).Clone, nodesInOriginal := [.node c l k v r],
          nodesInCloned := [some []] } with
    | .error e => .error e
    | .ok root => .ok { root := root, nodes := tree.nodes, comparator := tree.comparator }

end rbt

/-! ## Doubly linked list of `datastructures/collections/linkedlist`

`list.go` is embedded over an explicit heap: the cells allocated so far are a list, a non-nil
`*Node[T]` is the index of its cell and `none` is nil.  Both lists of a `Join` live in one
heap. -/

namespace linkedlist

open rbt (Failure)

/-- The `Node[T]` struct.  Its declaration is not among the sources; the fields are the ones
`list.go` uses, in the order of its composite literals. -/
structure Node (T : Type) where
  Value : T
  prev : Option Nat
  next : Option Nat
deriving DecidableEq

/-- The cells allocated so far. -/
abbrev Heap (T : Type) := List (Node T)

/-- The `List[T]` struct. -/
structure LinkedList where
  head : Option Nat
  tail : Option Nat
  size : Int
deriving DecidableEq

variable {T : Type}

/-- Reading the cell behind a pointer: a nil pointer is a nil dereference; an index that is no
cell of the heap cannot come up in Go and is a failure of its own. -/
def Heap.read (heap : Heap T) : Option Nat → Except Failure (Node T)
  | none => .error .nilDereference
  | some a =>
    match heap[a]? with
    | none => .error .invalidPointer
    | some node => .ok node

/-- Modelled from the spec: `collections.PanicOnIndexOutOfBounds`, which is not among the
sources and of which the spec says nothing; as its name says, it panics with the
index-out-of-bounds error. -/
def PanicOnIndexOutOfBounds (_index _size : Int) : Except Failure Unit :=
  .error .indexOutOfBounds

/-- `List.Size`. -/
def LinkedList.Size (list : LinkedList) : Int := list.size

/-- `curr = curr.next`, `count` times. -/
def walkNext (heap : Heap T) : Nat → Option Nat → Except Failure (Option Nat)
  | 0, curr => .ok curr
  | count + 1, curr =>
    match Heap.read heap curr with
    | .error e => .error e
    | .ok node => walkNext heap count node.next

/-- `curr = curr.prev`, `count` times. -/
def walkPrev (heap : Heap T) : Nat → Option Nat → Except Failure (Option Nat)
  | 0, curr => .ok curr
  | count + 1, curr =>
    match Heap.read heap curr with
    | .error e => .error e
    | .ok node => walkPrev heap count node.prev

/-- `List.GetNode`.  The loop from the head runs `index` times, the loop from the tail
`-1 - index` times. -/
def LinkedList.GetNode (heap : Heap T) (list : LinkedList) (index : Int) :
    Except Failure (Option Nat) :=
  match (if index ≥ list.size ∨ index < -list.size then
      PanicOnIndexOutOfBounds index list.size else .ok ()) with
  | .error e => .error e
  | .ok _ =>
    if index = 0 then .ok list.head
    else if index > 0 then walkNext heap index.toNat list.head
    else walkPrev heap (-1 - index).toNat list.tail

/-- `List.Clear`. -/
def LinkedList.Clear (_list : LinkedList) : LinkedList :=
  { head := none, tail := none, size := 0 }

/-- The loop of `List.Reverse`: `curr.prev, curr.next = curr.next, curr.prev`, then
`curr = curr.prev`, while `curr != nil`. -/
def Reverse.loop : Nat → Heap T → Option Nat → Except Failure (Heap T)
  | 0, _, _ => .error .outOfFuel
  | _ + 1, heap, none => .ok heap
  | fuel + 1, heap, some a =>
    match Heap.read heap (some a) with
    | .error e => .error e
    | .ok node =>
      let heap2 : Heap T := heap.set a { node with prev := node.next, next := node.prev }
      match Heap.read heap2 (some a) with
      | .error e => .error e
      | .ok node2 => Reverse.loop fuel heap2 node2.prev

/-- `List.Reverse`.  The fuel is one round for each cell of the heap and one for the test that
ends the loop. -/
def LinkedList.Reverse (heap : Heap T) (list : LinkedList) :
    Except Failure (Heap T × LinkedList) :=
  match Reverse.loop (heap.length + 1) heap list.head with
  | .error e => .error e
  | .ok heap2 => .ok (heap2, { list with head := list.tail, tail := list.head })

/-- `List.Join`, the case `*List[T]` of the type switch; the answer is the heap, the receiver and
the other list after the call. -/
def LinkedList.Join (heap : Heap T) (list second : LinkedList) :
    Except Failure (Heap T × LinkedList × LinkedList) :=
  match list.tail with
  | none => .error .nilDereference
  | some t =>
    match Heap.read heap (some t) with
    | .error e => .error e
    | .ok tailNode =>
      let heap1 : Heap T := heap.set t { tailNode with next := second.head }
      match second.head with
      | none => .error .nilDereference
      | some h =>
        match Heap.read heap1 (some h) with
        | .error e => .error e
        | .ok headNode =>
          let heap2 : Heap T := heap1.set h { headNode with prev := list.tail }
          .ok (heap2, { list with tail := second.tail, size := list.size + second.size },
            second.Clear)

/-- Following `link` from `curr` visits exactly the cells `addrs`, which hold the values
`values`, and then reaches nil. -/
def Chain (link : Node T → Option Nat) (heap : Heap T) :
    Option Nat → List Nat → List T → Prop
  | curr, [], [] => curr = none
  | curr, a :: addrs, x :: values =>
    curr = some a ∧
      match heap[a]? with
      | none => False
      | some node => node.Value = x ∧ Chain link heap (link node) addrs values
  | _, [], _ :: _ => False
  | _, _ :: _, [] => False

/-- A well-formed list: the distinct cells `addrs` hold `values`; the `next` links lead from the
head through them in order, the `prev` links lead from the tail through them in reverse order,
and `size` is their number. -/
def Represents (heap : Heap T) (list : LinkedList) (addrs : List Nat) (values : List T) : Prop :=
  list.size = values.length ∧ addrs.Nodup ∧
    Chain Node.next heap list.head addrs values ∧
    Chain Node.prev heap list.tail addrs.reverse values.reverse

/-- Deciding `Chain` on a given heap. -/
def Chain.decide [DecidableEq T] (link : Node T → Option Nat) (heap : Heap T) :
    (curr : Option Nat) → (addrs : List Nat) → (values : List T) →
      Decidable (Chain link heap curr addrs values)
  | curr, [], [] => inferInstanceAs (Decidable (curr = none))
  | curr, a :: addrs, x :: values =>
    match h : heap[a]? with
    | none => isFalse (by simp [Chain, h])
    | some node =>
      letI := Chain.decide link heap (link node) addrs values
      decidable_of_iff (curr = some a ∧ node.Value = x ∧
        Chain link heap (link node) addrs values) (by simp [Chain, h])
  | _, [], _ :: _ => isFalse (by simp [Chain])
  | _, _ :: _, [] => isFalse (by simp [Chain])

instance [DecidableEq T] (link : Node T → Option Nat) (heap : Heap T) (curr : Option Nat)
    (addrs : List Nat) (values : List T) : Decidable (Chain link heap curr addrs values) :=
  Chain.decide link heap curr addrs values

instance [DecidableEq T] (heap : Heap T) (list : LinkedList) (addrs : List Nat)
    (values : List T) : Decidable (Represents heap list addrs values) :=
  inferInstanceAs (Decidable (list.size = values.length ∧ addrs.Nodup ∧
    Chain Node.next heap list.head addrs values ∧
    Chain Node.prev heap list.tail addrs.reverse values.reverse))

end linkedlist

/-! ## The sorting step of `mapreduce`

`process.go` keeps the mapped pairs in two slices, the keys and the values, and `sortData` sorts
each with `sort.SliceStable` of the Go standard library.  The library sorts through two
callbacks, `less(i, j)` and `swap(i, j)`, both on indices; here they act on the state the
closures of `sortData` capture, the process. -/

namespace mapreduce

open rbt (Failure Comparator Result Compare)

/-- The `Process` struct, with the fields `sortData` reads and writes. -/
structure Process (KeyOut ValueOut : Type) where
  keyComparator : Comparator KeyOut
  mappedDataKeys : List KeyOut
  mappedDataValues : List ValueOut

variable {S KeyOut ValueOut α : Type}

/-- What `reflect.Swapper` returns for a slice: exchanging two elements, with the index panic of
Go. -/
def swapper (xs : List α) (i j : Nat) : Except Failure (List α) :=
  match xs[i]?, xs[j]? with
  | some a, some b => .ok ((xs.set i b).set j a)
  | _, _ => .error .indexOutOfRange

/-- The inner loop of the library function `insertionSort`:
`for j := i; j > a && less(j, j-1); j-- { swap(j, j-1) }`. -/
def insertionSort.inner (less : S → Nat → Nat → Except Failure Bool)
    (swap : S → Nat → Nat → Except Failure S) (a : Nat) : Nat → S → Except Failure S
  | 0, s => .ok s
  | j + 1, s =>
    if j + 1 > a then
      match less s (j + 1) j with
      | .error e => .error e
      | .ok false => .ok s
      | .ok true =>
        match swap s (j + 1) j with
        | .error e => .error e
        | .ok s2 => insertionSort.inner less swap a j s2
    else .ok s

/-- The outer loop of `insertionSort`: `for i := a + 1; i < b; i++`, with one unit of fuel for
each round. -/
def insertionSort.outer (less : S → Nat → Nat → Except Failure Bool)
    (swap : S → Nat → Nat → Except Failure S) (a b : Nat) : Nat → Nat → S → Except Failure S
  | 0, i, s => if i < b then .error .outOfFuel else .ok s
  | fuel + 1, i, s =>
    if i < b then
      match insertionSort.inner less swap a i s with
      | .error e => .error e
      | .ok s2 => insertionSort.outer less swap a b fuel (i + 1) s2
    else .ok s

/-- The library function `insertionSort` on the range `a ≤ i < b`. -/
def insertionSort (less : S → Nat → Nat → Except Failure Bool)
    (swap : S → Nat → Nat → Except Failure S) (a b : Nat) (s : S) : Except Failure S :=
  insertionSort.outer less swap a b b (a + 1) s

/-- The library function `sort.SliceStable` on a slice of `n` elements.  The library sorts
blocks of 20 elements by insertion and then merges the blocks; a slice of at most 20 elements is
one block.  The merging of longer slices is left out of the model. -/
def SliceStable (less : S → Nat → Nat → Except Failure Bool)
    (swap : S → Nat → Nat → Except Failure S) (n : Nat) (s : S) : Except Failure S :=
  if n ≤ 20 then insertionSort less swap 0 n s else .error .notModelled

/-- The closure `comparator` of `sortData`: it compares the keys now at `i` and `j`. -/
def sortData.comparator (process : Process KeyOut ValueOut) (i j : Nat) :
    Except Failure Bool :=
  match process.mappedDataKeys[i]?, process.mappedDataKeys[j]? with
  | some a, some b => .ok (decide (process.keyComparator a b = .FirstSmaller))
  | _, _ => .error .indexOutOfRange

/-- Swapping in `process.mappedDataKeys`. -/
def sortData.swapKeys (process : Process KeyOut ValueOut) (i j : Nat) :
    Except Failure (Process KeyOut ValueOut) :=
  match swapper process.mappedDataKeys i j with
  | .error e => .error e
  | .ok keys => .ok { process with mappedDataKeys := keys }

/-- Swapping in `process.mappedDataValues`. -/
def sortData.swapValues (process : Process KeyOut ValueOut) (i j : Nat) :
    Except Failure (Process KeyOut ValueOut) :=
  match swapper process.mappedDataValues i j with
  | .error e => .error e
  | .ok values => .ok { process with mappedDataValues := values }

/-- `Process.sortData`: `sort.SliceStable(process.mappedDataKeys, comparator)` and then
`sort.SliceStable(process.mappedDataValues, comparator)`, with the same closure. -/
def Process.sortData (process : Process KeyOut ValueOut) :
    Except Failure (Process KeyOut ValueOut) :=
  match SliceStable sortData.comparator sortData.swapKeys process.mappedDataKeys.length
      process with
  | .error e => .error e
  | .ok process2 =>
    SliceStable sortData.comparator sortData.swapValues process2.mappedDataValues.length
      process2

end mapreduce

namespace rbt

variable {K V : Type}

/-! ## Basic facts -/

theorem toList_setBlack (t : Node K V) : t.setBlack.toList = t.toList := by
  cases t <;> rfl

theorem toList_rotateLeft (t : Node K V) : (rotateLeft t).toList = t.toList := by
  unfold rotateLeft
  split <;> simp [Node.toList, List.append_assoc]

theorem toList_rotateRight (t : Node K V) : (rotateRight t).toList = t.toList := by
  unfold rotateRight
  split <;> simp [Node.toList, List.append_assoc]

theorem toList_fill (p : Path K V) (t : Node K V) :
    (p.fill t).toList = p.before ++ t.toList ++ p.after := by
  induction p generalizing t with
  | root => simp [Path.fill, Path.before, Path.after]
  | left c up k v r ih => simp [Path.fill, Path.before, Path.after, ih, Node.toList]
  | right c l k v up ih => simp [Path.fill, Path.before, Path.after, ih, Node.toList]

theorem size_eq_length (t : Node K V) : t.size = t.toList.length := by
  induction t with
  | nil => rfl
  | node c l k v r ihl ihr => simp [Node.size, Node.toList, ihl, ihr]; omega

theorem isRed_of_bal {t : Node K V} {c : Color} {n : Nat} (h : Bal t c n) :
    t.isRed = decide (c = .red) := by
  cases h <;> simp [Node.isRed]

theorem bal_setBlack {t : Node K V} {c : Color} {n : Nat} (h : Bal t c n) :
    ∃ m, Bal t.setBlack .black m := by
  cases h with
  | leaf => exact ⟨0, .leaf⟩
  | redNode hl hr => exact ⟨_, .blackNode hl hr⟩
  | blackNode hl hr => exact ⟨_, .blackNode hl hr⟩

theorem bal_setBlack_red {t : Node K V} {n : Nat} (h : Bal t .red n) :
    Bal t.setBlack .black (n + 1) := by
  cases h with
  | redNode hl hr => exact .blackNode hl hr

/-- A hole that may hold a red subtree may hold one of any colour. -/
theorem pbal_of_red {p : Path K V} {n : Nat} (h : PBal p .red n) (c : Color) : PBal p c n := by
  cases h with
  | underBlackL hr hup => exact .underBlackL hr hup
  | underBlackR hl hup => exact .underBlackR hl hup

/-- Filling the hole of a chain with a subtree of the expected colour and black height gives a
red-black tree with a black root. -/
theorem bal_fill {p : Path K V} {t : Node K V} {c : Color} {n : Nat}
    (hp : PBal p c n) (ht : Bal t c n) : ∃ m, Bal (p.fill t) .black m := by
  induction hp generalizing t with
  | top => exact ⟨_, ht⟩
  | underRedL hr _ ih => exact ih (.redNode ht hr)
  | underRedR hl _ ih => exact ih (.redNode hl ht)
  | underBlackL hr _ ih => exact ih (.blackNode ht hr)
  | underBlackR hl _ ih => exact ih (.blackNode hl ht)

/-- A black subtree fits wherever a subtree of the same black height was expected. -/
theorem bal_fill_black {p : Path K V} {t : Node K V} {c : Color} {n : Nat}
    (hp : PBal p c n) (ht : Bal t .black n) : ∃ m, Bal (p.fill t) .black m := by
  cases c with
  | black => exact bal_fill hp ht
  | red => exact bal_fill (pbal_of_red hp .black) ht

/-! ## The colour invariants as a balance derivation -/

theorem blackCounts_ne_nil (t : Node K V) : blackCounts t ≠ [] := by
  induction t with
  | nil => simp [blackCounts]
  | node c l k v r ihl _ => simp [blackCounts, ihl]

theorem blackCounts_of_bal {t : Node K V} {c : Color} {n : Nat} (h : Bal t c n) :
    ∀ a ∈ blackCounts t, a = n := by
  induction h with
  | leaf => simp [blackCounts]
  | redNode _ _ ihl ihr =>
    intro a ha
    simp only [blackCounts, List.mem_map, List.mem_append] at ha
    obtain ⟨b, hb | hb, rfl⟩ := ha
    · simp [ihl b hb]
    · simp [ihr b hb]
  | blackNode _ _ ihl ihr =>
    intro a ha
    simp only [blackCounts, List.mem_map, List.mem_append] at ha
    obtain ⟨b, hb | hb, rfl⟩ := ha
    · simp [ihl b hb]
    · simp [ihr b hb]

theorem noRedRed_of_bal {t : Node K V} {c : Color} {n : Nat} (h : Bal t c n) : NoRedRed t := by
  induction h with
  | leaf => trivial
  | redNode hl hr ihl ihr =>
    refine ⟨fun _ => ⟨?_, ?_⟩, ihl, ihr⟩
    · simp [isRed_of_bal hl]
    · simp [isRed_of_bal hr]
  | blackNode _ _ ihl ihr => exact ⟨fun h => (by cases h), ihl, ihr⟩

theorem bal_of_invariants (t : Node K V) (n : Nat) (hrr : NoRedRed t)
    (hbc : ∀ a ∈ blackCounts t, a = n) : ∃ c, Bal t c n := by
  induction t generalizing n with
  | nil =>
    have : (0 : Nat) = n := hbc 0 (by simp [blackCounts])
    subst this
    exact ⟨_, .leaf⟩
  | node c l k v r ihl ihr =>
    obtain ⟨hc, hl, hr⟩ := hrr
    cases c with
    | red =>
      have hbl : ∀ a ∈ blackCounts l, a = n := fun a ha =>
        hbc a (by simp only [blackCounts, List.mem_map, List.mem_append]; exact ⟨a, .inl ha, by simp⟩)
      have hbr : ∀ a ∈ blackCounts r, a = n := fun a ha =>
        hbc a (by simp only [blackCounts, List.mem_map, List.mem_append]; exact ⟨a, .inr ha, by simp⟩)
      obtain ⟨cl, hbl⟩ := ihl n hl hbl
      obtain ⟨cr, hbr⟩ := ihr n hr hbr
      obtain ⟨h1, h2⟩ := hc rfl
      rw [isRed_of_bal hbl] at h1
      rw [isRed_of_bal hbr] at h2
      cases cl <;> cases cr <;> simp at h1 h2
      exact ⟨_, .redNode hbl hbr⟩
    | black =>
      obtain ⟨a, ha⟩ := List.exists_mem_of_ne_nil _ (blackCounts_ne_nil l)
      have hn : a + 1 = n :=
        hbc (a + 1) (by
          simp only [blackCounts, List.mem_map, List.mem_append]; exact ⟨a, .inl ha, by simp⟩)
      subst hn
      have hbl : ∀ b ∈ blackCounts l, b = a := fun b hb => by
        have := hbc (b + 1) (by
          simp only [blackCounts, List.mem_map, List.mem_append]; exact ⟨b, .inl hb, by simp⟩)
        omega
      have hbr : ∀ b ∈ blackCounts r, b = a := fun b hb => by
        have := hbc (b + 1) (by
          simp only [blackCounts, List.mem_map, List.mem_append]; exact ⟨b, .inr hb, by simp⟩)
        omega
      obtain ⟨cl, hbl⟩ := ihl a hl hbl
      obtain ⟨cr, hbr⟩ := ihr a hr hbr
      exact ⟨_, .blackNode hbl hbr⟩

/-- Invariants 2 to 4 hold exactly when the tree has a balance derivation with a black root. -/
theorem colourInvariants_iff (t : Node K V) : ColourInvariants t ↔ ∃ n, Bal t .black n := by
  constructor
  · rintro ⟨hroot, hrr, hbc⟩
    obtain ⟨a, ha⟩ := List.exists_mem_of_ne_nil _ (blackCounts_ne_nil t)
    obtain ⟨c, hb⟩ := bal_of_invariants t a hrr (fun b hb => hbc b hb a ha)
    refine ⟨a, ?_⟩
    cases hb with
    | leaf => exact .leaf
    | redNode _ _ => cases hroot
    | blackNode hl hr => exact .blackNode hl hr
  · rintro ⟨n, hb⟩
    refine ⟨?_, noRedRed_of_bal hb, fun a ha b hb2 => ?_⟩
    · cases hb with
      | leaf => trivial
      | blackNode _ _ => rfl
    · rw [blackCounts_of_bal hb a ha, blackCounts_of_bal hb b hb2]

/-! ## The descent -/

theorem getNode_loop_eq (cmp : Comparator K) (key : K) (t : Node K V) (p : Path K V) :
    GetNode.loop cmp key t p =
      match descend cmp key t p with
      | (.nil, _) => none
      | (.node c l k v r, q) => some ⟨c, l, k, v, r, q⟩ := by
  induction t generalizing p with
  | nil => rfl
  | node c l k v r ihl ihr =>
    unfold GetNode.loop descend
    cases h : cmp key k with
    | FirstSmaller => simpa using ihl _
    | FirstBigger => simpa using ihr _
    | Equal => rfl

theorem descend_equal {cmp : Comparator K} {key : K} {t : Node K V} {p q : Path K V}
    {c : Color} {l r : Node K V} {k : K} {v : V}
    (h : descend cmp key t p = (.node c l k v r, q)) : cmp key k = .Equal := by
  induction t generalizing p with
  | nil => simp [descend] at h
  | node c2 l2 k2 v2 r2 ihl ihr =>
    unfold descend at h
    cases hc : cmp key k2 with
    | FirstSmaller => rw [hc] at h; exact ihl h
    | FirstBigger => rw [hc] at h; exact ihr h
    | Equal =>
      rw [hc] at h
      simp only [Prod.mk.injEq, Node.node.injEq] at h
      obtain ⟨⟨-, -, rfl, -, -⟩, -⟩ := h
      exact hc

theorem descend_fill {cmp : Comparator K} {key : K} {t t2 : Node K V} {p q : Path K V}
    (h : descend cmp key t p = (t2, q)) : q.fill t2 = p.fill t := by
  induction t generalizing p with
  | nil => simp [descend] at h; obtain ⟨rfl, rfl⟩ := h; rfl
  | node c2 l2 k2 v2 r2 ihl ihr =>
    unfold descend at h
    cases hc : cmp key k2 with
    | FirstSmaller => rw [hc] at h; simpa [Path.fill] using ihl h
    | FirstBigger => rw [hc] at h; simpa [Path.fill] using ihr h
    | Equal => rw [hc] at h; simp at h; obtain ⟨rfl, rfl⟩ := h; rfl

theorem descend_bal {cmp : Comparator K} {key : K} {t t2 : Node K V} {p q : Path K V}
    {c : Color} {n : Nat} (h : descend cmp key t p = (t2, q)) (ht : Bal t c n)
    (hp : PBal p c n) : ∃ c2 n2, Bal t2 c2 n2 ∧ PBal q c2 n2 := by
  induction t generalizing p c n with
  | nil => simp [descend] at h; obtain ⟨rfl, rfl⟩ := h; exact ⟨_, _, ht, hp⟩
  | node c2 l2 k2 v2 r2 ihl ihr =>
    unfold descend at h
    cases hc : cmp key k2 with
    | FirstSmaller =>
      rw [hc] at h
      cases ht with
      | redNode hl hr => exact ihl h hl (.underRedL hr hp)
      | blackNode hl hr => exact ihl h hl (.underBlackL hr hp)
    | FirstBigger =>
      rw [hc] at h
      cases ht with
      | redNode hl hr => exact ihr h hr (.underRedR hl hp)
      | blackNode hl hr => exact ihr h hr (.underBlackR hl hp)
    | Equal => rw [hc] at h; simp at h; obtain ⟨rfl, rfl⟩ := h; exact ⟨_, _, ht, hp⟩

theorem set_loop_overwritten {cmp : Comparator K} {key : K} (value : V) {t : Node K V}
    {p q : Path K V} (prev : Option (NodeRef K V)) {c : Color} {l r : Node K V} {k : K} {v : V}
    (h : descend cmp key t p = (.node c l k v r, q)) :
    Set.loop cmp key value t p prev = .overwritten (q.fill (.node c l k value r)) := by
  induction t generalizing p prev with
  | nil => simp [descend] at h
  | node c2 l2 k2 v2 r2 ihl ihr =>
    unfold descend at h
    unfold Set.loop
    cases hc : cmp key k2 with
    | FirstSmaller => rw [hc] at h; simpa using ihl _ h
    | FirstBigger => rw [hc] at h; simpa using ihr _ h
    | Equal =>
      rw [hc] at h
      simp only [Prod.mk.injEq, Node.node.injEq] at h
      obtain ⟨⟨rfl, rfl, rfl, rfl, rfl⟩, rfl⟩ := h
      rfl

theorem set_loop_fellOff {cmp : Comparator K} {key : K} (value : V) {t : Node K V}
    {p q : Path K V} (prev : Option (NodeRef K V))
    (h : descend cmp key t p = (.nil, q))
    (hprev : t = .nil → ∃ ref, prev = some ref ∧
      (if cmp key ref.key = .FirstSmaller then
        Path.left ref.color ref.path ref.key ref.Value ref.rightChild
      else Path.right ref.color ref.leftChild ref.key ref.Value ref.path) = p) :
    ∃ ref, Set.loop cmp key value t p prev = .fellOff (some ref) ∧
      (if cmp key ref.key = .FirstSmaller then
        Path.left ref.color ref.path ref.key ref.Value ref.rightChild
      else Path.right ref.color ref.leftChild ref.key ref.Value ref.path) = q := by
  induction t generalizing p prev with
  | nil =>
    simp [descend] at h
    subst h
    obtain ⟨ref, rfl, href⟩ := hprev rfl
    exact ⟨ref, rfl, href⟩
  | node c2 l2 k2 v2 r2 ihl ihr =>
    unfold descend at h
    unfold Set.loop
    cases hc : cmp key k2 with
    | FirstSmaller =>
      rw [hc] at h
      simp only
      apply ihl _ h
      intro hl
      subst hl
      exact ⟨_, rfl, by simp [hc]⟩
    | FirstBigger =>
      rw [hc] at h
      simp only
      apply ihr _ h
      intro hr
      subst hr
      exact ⟨_, rfl, by simp [hc]⟩
    | Equal => rw [hc] at h; simp at h

/-! ## Insertion fixup -/

theorem toList_fixInsertLoop (n : Node K V) (p : Path K V) :
    (fixInsertLoop n p).toList = p.before ++ n.toList ++ p.after := by
  induction n, p using fixInsertLoop.induct with
  | case1 n gc gp gk gv uncle pk pv pr hu ih =>
    rw [fixInsertLoop, if_pos hu, ih]
    simp [Node.toList, Path.before, Path.after, toList_setBlack]
  | case2 n gc gp gk gv uncle pk pv pr hu =>
    rw [fixInsertLoop, if_neg hu, toList_fill, toList_rotateRight]
    simp [Node.toList, Path.before, Path.after, toList_setBlack, Node.setBlack]
  | case3 n pl pk pv gc gp gk gv uncle hu ih =>
    rw [fixInsertLoop, if_pos hu, ih]
    simp [Node.toList, Path.before, Path.after, toList_setBlack]
  | case4 n pl pk pv gc gp gk gv uncle hu =>
    rw [fixInsertLoop, if_neg hu, toList_fill, toList_rotateRight]
    simp [Node.toList, Path.before, Path.after, toList_setBlack, toList_rotateLeft]
  | case5 n pl pk pv gc uncle gk gv gp hu ih =>
    rw [fixInsertLoop, if_pos hu, ih]
    simp [Node.toList, Path.before, Path.after, toList_setBlack]
  | case6 n pl pk pv gc uncle gk gv gp hu =>
    rw [fixInsertLoop, if_neg hu, toList_fill, toList_rotateLeft]
    simp [Node.toList, Path.before, Path.after, toList_setBlack, Node.setBlack]
  | case7 n gc uncle gk gv gp pk pv pr hu ih =>
    rw [fixInsertLoop, if_pos hu, ih]
    simp [Node.toList, Path.before, Path.after, toList_setBlack]
  | case8 n gc uncle gk gv gp pk pv pr hu =>
    rw [fixInsertLoop, if_neg hu, toList_fill, toList_rotateLeft]
    simp [Node.toList, Path.before, Path.after, toList_setBlack, toList_rotateRight]
  | case9 n p h1 h2 h3 h4 =>
    have : fixInsertLoop n p = p.fill n := by
      unfold fixInsertLoop
      split
      · exact absurd rfl (fun h => h1 _ _ _ _ _ _ _ _ h)
      · exact absurd rfl (fun h => h2 _ _ _ _ _ _ _ _ h)
      · exact absurd rfl (fun h => h3 _ _ _ _ _ _ _ _ h)
      · exact absurd rfl (fun h => h4 _ _ _ _ _ _ _ _ h)
      · rfl
    rw [this, toList_fill]

theorem fixInsertLoop_other (n : Node K V) (p : Path K V)
    (h1 : ∀ gc gp gk gv uncle pk pv pr,
      p = Path.left Color.red (Path.left gc gp gk gv uncle) pk pv pr → False)
    (h2 : ∀ pl pk pv gc gp gk gv uncle,
      p = Path.right Color.red pl pk pv (Path.left gc gp gk gv uncle) → False)
    (h3 : ∀ pl pk pv gc uncle gk gv gp,
      p = Path.right Color.red pl pk pv (Path.right gc uncle gk gv gp) → False)
    (h4 : ∀ gc uncle gk gv gp pk pv pr,
      p = Path.left Color.red (Path.right gc uncle gk gv gp) pk pv pr → False) :
    fixInsertLoop n p = p.fill n := by
  unfold fixInsertLoop
  split
  · exact absurd rfl (fun h => h1 _ _ _ _ _ _ _ _ h)
  · exact absurd rfl (fun h => h2 _ _ _ _ _ _ _ _ h)
  · exact absurd rfl (fun h => h3 _ _ _ _ _ _ _ _ h)
  · exact absurd rfl (fun h => h4 _ _ _ _ _ _ _ _ h)
  · rfl

/-- Insertion fixup started at a red node whose subtree is in order, in a hole of its black
height, ends with a tree that is red-black below its root. -/
theorem bal_fixInsertLoop (n : Node K V) (p : Path K V) :
    ∀ (c : Color) (m : Nat), Bal n .red m → PBal p c m →
      ∃ c2 m2, Bal (fixInsertLoop n p) c2 m2 := by
  induction n, p using fixInsertLoop.induct with
  | case1 n gc gp gk gv uncle pk pv pr hu ih =>
    intro c m hn hp
    cases hp with
    | underRedL hpr hup =>
      cases hup with
      | underBlackL hun hgp =>
        rw [isRed_of_bal hun, decide_eq_true_eq] at hu
        subst hu
        rw [fixInsertLoop, if_pos (by rw [isRed_of_bal hun]; rfl)]
        exact ih _ _ (.redNode (.blackNode hn hpr) (bal_setBlack_red hun)) hgp
  | case2 n gc gp gk gv uncle pk pv pr hu =>
    intro c m hn hp
    rw [fixInsertLoop, if_neg hu]
    cases hp with
    | underRedL hpr hup =>
      cases hup with
      | underBlackL hun hgp =>
        rw [isRed_of_bal hun, decide_eq_true_eq] at hu
        rename_i cu
        cases cu with
        | red => exact absurd rfl hu
        | black =>
          obtain ⟨m2, h⟩ := bal_fill hgp (.blackNode hn (.redNode hpr hun))
          exact ⟨_, m2, by simpa [rotateRight, Node.setBlack] using h⟩
  | case3 n pl pk pv gc gp gk gv uncle hu ih =>
    intro c m hn hp
    cases hp with
    | underRedR hpl hup =>
      cases hup with
      | underBlackL hun hgp =>
        rw [isRed_of_bal hun, decide_eq_true_eq] at hu
        subst hu
        rw [fixInsertLoop, if_pos (by rw [isRed_of_bal hun]; rfl)]
        exact ih _ _ (.redNode (.blackNode hpl hn) (bal_setBlack_red hun)) hgp
  | case4 n pl pk pv gc gp gk gv uncle hu =>
    intro c m hn hp
    rw [fixInsertLoop, if_neg hu]
    cases hp with
    | underRedR hpl hup =>
      cases hup with
      | underBlackL hun hgp =>
        rw [isRed_of_bal hun, decide_eq_true_eq] at hu
        rename_i cu
        cases cu with
        | red => exact absurd rfl hu
        | black =>
          cases hn with
          | redNode hnl hnr =>
            obtain ⟨m2, h⟩ :=
              bal_fill hgp (.blackNode (.redNode hpl hnl) (.redNode hnr hun))
            exact ⟨_, m2, by simpa [rotateRight, rotateLeft, Node.setBlack] using h⟩
  | case5 n pl pk pv gc uncle gk gv gp hu ih =>
    intro c m hn hp
    cases hp with
    | underRedR hpl hup =>
      cases hup with
      | underBlackR hun hgp =>
        rw [isRed_of_bal hun, decide_eq_true_eq] at hu
        subst hu
        rw [fixInsertLoop, if_pos (by rw [isRed_of_bal hun]; rfl)]
        exact ih _ _ (.redNode (bal_setBlack_red hun) (.blackNode hpl hn)) hgp
  | case6 n pl pk pv gc uncle gk gv gp hu =>
    intro c m hn hp
    rw [fixInsertLoop, if_neg hu]
    cases hp with
    | underRedR hpl hup =>
      cases hup with
      | underBlackR hun hgp =>
        rw [isRed_of_bal hun, decide_eq_true_eq] at hu
        rename_i cu
        cases cu with
        | red => exact absurd rfl hu
        | black =>
          obtain ⟨m2, h⟩ := bal_fill hgp (.blackNode (.redNode hun hpl) hn)
          exact ⟨_, m2, by simpa [rotateLeft, Node.setBlack] using h⟩
  | case7 n gc uncle gk gv gp pk pv pr hu ih =>
    intro c m hn hp
    cases hp with
    | underRedL hpr hup =>
      cases hup with
      | underBlackR hun hgp =>
        rw [isRed_of_bal hun, decide_eq_true_eq] at hu
        subst hu
        rw [fixInsertLoop, if_pos (by rw [isRed_of_bal hun]; rfl)]
        exact ih _ _ (.redNode (bal_setBlack_red hun) (.blackNode hn hpr)) hgp
  | case8 n gc uncle gk gv gp pk pv pr hu =>
    intro c m hn hp
    rw [fixInsertLoop, if_neg hu]
    cases hp with
    | underRedL hpr hup =>
      cases hup with
      | underBlackR hun hgp =>
        rw [isRed_of_bal hun, decide_eq_true_eq] at hu
        rename_i cu
        cases cu with
        | red => exact absurd rfl hu
        | black =>
          cases hn with
          | redNode hnl hnr =>
            obtain ⟨m2, h⟩ :=
              bal_fill hgp (.blackNode (.redNode hun hnl) (.redNode hnr hpr))
            exact ⟨_, m2, by simpa [rotateRight, rotateLeft, Node.setBlack] using h⟩
  | case9 n p h1 h2 h3 h4 =>
    intro c m hn hp
    rw [fixInsertLoop_other n p h1 h2 h3 h4]
    cases hp with
    | top => exact ⟨_, _, hn⟩
    | underRedL hpr hup =>
      cases hup with
      | underBlackL hun hgp => exact absurd rfl (fun h => h1 _ _ _ _ _ _ _ _ h)
      | underBlackR hun hgp => exact absurd rfl (fun h => h4 _ _ _ _ _ _ _ _ h)
    | underRedR hpl hup =>
      cases hup with
      | underBlackL hun hgp => exact absurd rfl (fun h => h2 _ _ _ _ _ _ _ _ h)
      | underBlackR hun hgp => exact absurd rfl (fun h => h3 _ _ _ _ _ _ _ _ h)
    | underBlackL hr hup =>
      obtain ⟨m2, h⟩ := bal_fill (.underBlackL hr hup) hn
      exact ⟨_, m2, h⟩
    | underBlackR hl hup =>
      obtain ⟨m2, h⟩ := bal_fill (.underBlackR hl hup) hn
      exact ⟨_, m2, h⟩

/-! ## `Set` -/

/-- What `Tree.Set` answers, in terms of the place where the descent for the key ends. -/
theorem set_eq (tree : Tree K V) (cmp : Comparator K) (key : K) (value : V)
    (hcmp : tree.comparator = some cmp) :
    tree.Set key value = .ok
      (match descend cmp key tree.root .root with
      | (.node c l k _ r, q) => { tree with root := q.fill (.node c l k value r) }
      | (.nil, q) =>
        { tree with root := fixInsert (.node .red .nil key value .nil) q,
                    nodes := tree.nodes + 1 }) := by
  unfold Tree.Set
  cases hroot : tree.root with
  | nil => simp [descend, fixInsert, fixInsertLoop, Path.fill, Node.setBlack]
  | node c l k v r =>
    simp only [hcmp]
    cases hd : descend cmp key (Node.node c l k v r) Path.root with
    | mk t2 q =>
      cases t2 with
      | nil =>
        obtain ⟨ref, h1, h2⟩ := set_loop_fellOff value none hd (by intro h; cases h)
        simp only [h1, h2]
      | node c2 l2 k2 v2 r2 =>
        simp only [set_loop_overwritten value none hd]

/-- Putting another key and value into a node does not change the balance derivation. -/
theorem bal_setEntry {c : Color} {l r : Node K V} {k : K} {v : V} {c2 : Color} {n : Nat}
    (h : Bal (.node c l k v r) c2 n) (k2 : K) (v2 : V) : Bal (.node c l k2 v2 r) c2 n := by
  cases h with
  | redNode hl hr => exact .redNode hl hr
  | blackNode hl hr => exact .blackNode hl hr

theorem set_bal (tree : Tree K V) (cmp : Comparator K) (key : K) (value : V)
    (hcmp : tree.comparator = some cmp) {n : Nat} (hbal : Bal tree.root .black n) :
    ∃ tree2, tree.Set key value = .ok tree2 ∧ tree2.comparator = some cmp ∧
      ∃ m, Bal tree2.root .black m := by
  refine ⟨_, set_eq tree cmp key value hcmp, ?_⟩
  cases hd : descend cmp key tree.root .root with
  | mk t2 q =>
    obtain ⟨c2, n2, ht2, hq⟩ := descend_bal hd hbal .top
    cases t2 with
    | nil =>
      cases ht2
      obtain ⟨c3, m3, h3⟩ :=
        bal_fixInsertLoop (.node .red .nil key value .nil) q _ _ (.redNode .leaf .leaf) hq
      exact ⟨hcmp, bal_setBlack h3⟩
    | node c l k v r =>
      exact ⟨hcmp, bal_fill hq (bal_setEntry ht2 _ value)⟩

/-- C1: for every tree satisfying the three colour invariants (root black, no red node with a red
child, equal black-node count on every root-to-nil path) and holding a comparator, and for every
key and value, `Set(key, value)` returns and the tree again satisfies the three colour invariants.
Neither the order of the keys nor the comparator contract is needed. -/
theorem set_keeps_colour_invariants (tree : Tree K V) (cmp : Comparator K) (key : K) (value : V)
    (hcmp : tree.comparator = some cmp) (hinv : ColourInvariants tree.root) :
    ∃ tree2, tree.Set key value = .ok tree2 ∧ ColourInvariants tree2.root := by
  obtain ⟨n, hbal⟩ := (colourInvariants_iff _).1 hinv
  obtain ⟨tree2, h1, _, h2⟩ := set_bal tree cmp key value hcmp hbal
  exact ⟨tree2, h1, (colourInvariants_iff _).2 h2⟩

theorem set_keeps_colour_invariants_witness :
    ColourInvariants (Node.node .black (.node .red .nil (1 : Int) "a" .nil) 2 "b"
        (.node .red .nil 3 "c" .nil)) ∧
      ∃ tree2, (Tree.mk (Node.node .black (.node .red .nil (1 : Int) "a" .nil) 2 "b"
        (.node .red .nil 3 "c" .nil)) 3 (some Compare)).Set 4 "d" = .ok tree2 ∧
        ColourInvariants tree2.root :=
  ⟨by decide, set_keeps_colour_invariants _ Compare 4 "d" rfl (by decide)⟩

/-! ## Deletion fixup -/

theorem setBlack_of_not_red {t : Node K V} (h : t.isRed = false) : t.setBlack = t := by
  cases t with
  | nil => rfl
  | node c l k v r => cases c <;> simp_all [Node.isRed, Node.setBlack]

/-- The root of a tree built around a hole that holds what the chain expects is black. -/
theorem setBlack_fill_of_pbal {p : Path K V} {c : Color} {n : Nat} (hp : PBal p c n)
    (t : Node K V) (ht : t.isRed = decide (c = .red)) : (p.fill t).setBlack = p.fill t := by
  induction hp generalizing t with
  | top => exact setBlack_of_not_red (by simpa using ht)
  | underRedL _ _ ih => exact ih _ (by simp [Node.isRed])
  | underRedR _ _ ih => exact ih _ (by simp [Node.isRed])
  | underBlackL _ _ ih => exact ih _ (by simp [Node.isRed])
  | underBlackR _ _ ih => exact ih _ (by simp [Node.isRed])

theorem pbal_left_swap {pc : Color} {pp : Path K V} {k k2 : K} {v v2 : V} {w b : Node K V}
    {c : Color} {n : Nat} (hp : PBal (.left pc pp k v w) c n) (hb : Bal b .black n) :
    PBal (.left pc pp k2 v2 b) c n := by
  cases hp with
  | underRedL _ hup => exact .underRedL hb hup
  | underBlackL _ hup => exact .underBlackL hb hup

theorem pbal_right_swap {pc : Color} {pp : Path K V} {k k2 : K} {v v2 : V} {w b : Node K V}
    {c : Color} {n : Nat} (hp : PBal (.right pc w k v pp) c n) (hb : Bal b .black n) :
    PBal (.right pc b k2 v2 pp) c n := by
  cases hp with
  | underRedR _ hup => exact .underRedR hb hup
  | underBlackR _ hup => exact .underBlackR hb hup

/-- What the cases of a black sibling do at a left child: either the sibling turns red and the
parent is the next `x`, or the rotations end the loop with `x` under a black parent. -/
theorem blackSiblingL_spec (x : Node K V) (pc : Color) (pp : Path K V) (pk : K) (pv : V)
    {w : Node K V} {h : Nat} (hw : Bal w .black (h + 1)) :
    (∃ w2, Bal w2 .red h ∧ w2.toList = w.toList ∧ ∀ rel,
        fixRemoveBlackSiblingL x pc pp pk pv w rel =
          .ok ⟨.node pc x pk pv w2, pp, Dir.L :: rel⟩) ∨
    (∃ a ca sk sv b, Bal a ca h ∧ Bal b .black (h + 1) ∧
        a.toList ++ (sk, sv) :: b.toList = w.toList ∧ ∀ rel,
        fixRemoveBlackSiblingL x pc pp pk pv w rel =
          .ok ⟨pp.fill (.node pc (.node .black x pk pv a) sk sv b), .root,
            pp.dirs ++ Dir.L :: Dir.L :: rel⟩) := by
  cases hw with
  | @blackNode wl wr wk wv cl cr _ hl hr =>
    cases hr with
    | @redNode rl rr rk rv _ hrl hrr =>
      right
      refine ⟨wl, cl, wk, wv, .node .black rl rk rv rr, hl, .blackNode hrl hrr, ?_, fun rel => ?_⟩
      · simp [Node.toList]
      · simp [fixRemoveBlackSiblingL, Node.isBlack, Node.isRed, rotateLeft, Node.setBlack]
    | leaf =>
      cases hl with
      | leaf =>
        left
        exact ⟨.node .red .nil wk wv .nil, .redNode .leaf .leaf, rfl, fun rel => by
          simp [fixRemoveBlackSiblingL, Node.isBlack, Node.isRed]⟩
      | @redNode ll lr lk lv _ hll hlr =>
        right
        refine ⟨ll, .black, lk, lv, .node .black lr wk wv .nil, hll, .blackNode hlr .leaf, ?_,
          fun rel => ?_⟩
        · simp [Node.toList]
        · simp [fixRemoveBlackSiblingL, Node.isBlack, Node.isRed, rotateLeft, rotateRight,
            Node.setBlack]
    | @blackNode rl rr rk rv _ _ _ hrl hrr =>
      cases hl with
      | @blackNode ll lr lk lv _ _ _ hll hlr =>
        left
        exact ⟨.node .red (.node .black ll lk lv lr) wk wv (.node .black rl rk rv rr),
          .redNode (.blackNode hll hlr) (.blackNode hrl hrr), rfl, fun rel => by
          simp [fixRemoveBlackSiblingL, Node.isBlack, Node.isRed]⟩
      | @redNode ll lr lk lv _ hll hlr =>
        right
        refine ⟨ll, .black, lk, lv, .node .black lr wk wv (.node .black rl rk rv rr), hll,
          .blackNode hlr (.blackNode hrl hrr), ?_, fun rel => ?_⟩
        · simp [Node.toList]
        · simp [fixRemoveBlackSiblingL, Node.isBlack, Node.isRed, rotateLeft, rotateRight,
            Node.setBlack]

/-- The mirror image of `blackSiblingL_spec`. -/
theorem blackSiblingR_spec (x : Node K V) (pc : Color) (pp : Path K V) (pk : K) (pv : V)
    {w : Node K V} {h : Nat} (hw : Bal w .black (h + 1)) :
    (∃ w2, Bal w2 .red h ∧ w2.toList = w.toList ∧ ∀ rel,
        fixRemoveBlackSiblingR x pc pp pk pv w rel =
          .ok ⟨.node pc w2 pk pv x, pp, Dir.R :: rel⟩) ∨
    (∃ a sk sv b cb, Bal a .black (h + 1) ∧ Bal b cb h ∧
        a.toList ++ (sk, sv) :: b.toList = w.toList ∧ ∀ rel,
        fixRemoveBlackSiblingR x pc pp pk pv w rel =
          .ok ⟨pp.fill (.node pc a sk sv (.node .black b pk pv x)), .root,
            pp.dirs ++ Dir.R :: Dir.R :: rel⟩) := by
  cases hw with
  | @blackNode wl wr wk wv cl cr _ hl hr =>
    cases hl with
    | @redNode ll lr lk lv _ hll hlr =>
      right
      refine ⟨.node .black ll lk lv lr, wk, wv, wr, cr, .blackNode hll hlr, hr, ?_, fun rel => ?_⟩
      · simp [Node.toList]
      · simp [fixRemoveBlackSiblingR, Node.isBlack, Node.isRed, rotateRight, Node.setBlack]
    | leaf =>
      cases hr with
      | leaf =>
        left
        exact ⟨.node .red .nil wk wv .nil, .redNode .leaf .leaf, rfl, fun rel => by
          simp [fixRemoveBlackSiblingR, Node.isBlack, Node.isRed]⟩
      | @redNode rl rr rk rv _ hrl hrr =>
        right
        refine ⟨.node .black .nil wk wv rl, rk, rv, rr, .black, .blackNode .leaf hrl, hrr, ?_,
          fun rel => ?_⟩
        · simp [Node.toList]
        · simp [fixRemoveBlackSiblingR, Node.isBlack, Node.isRed, rotateLeft, rotateRight,
            Node.setBlack]
    | @blackNode ll lr lk lv _ _ _ hll hlr =>
      cases hr with
      | @blackNode rl rr rk rv _ _ _ hrl hrr =>
        left
        exact ⟨.node .red (.node .black ll lk lv lr) wk wv (.node .black rl rk rv rr),
          .redNode (.blackNode hll hlr) (.blackNode hrl hrr), rfl, fun rel => by
          simp [fixRemoveBlackSiblingR, Node.isBlack, Node.isRed]⟩
      | @redNode rl rr rk rv _ hrl hrr =>
        right
        refine ⟨.node .black (.node .black ll lk lv lr) wk wv rl, rk, rv, rr, .black,
          .blackNode (.blackNode hll hlr) hrl, hrr, ?_, fun rel => ?_⟩
        · simp [Node.toList]
        · simp [fixRemoveBlackSiblingR, Node.isBlack, Node.isRed, rotateLeft, rotateRight,
            Node.setBlack]

theorem fixRemoveLoop_exit (fuel : Nat) (s : FixState K V)
    (h : s.path = .root ∨ s.x.isRed = true) : fixRemoveLoop (fuel + 1) s = .ok s := by
  unfold fixRemoveLoop
  rcases h with h | h
  · rw [h]
  · split
    · rfl
    · simp [h]

/-- The loop after the cases of a black sibling at a left child, given the loop at the parent. -/
theorem afterBlackSiblingL (x : Node K V) (pc : Color) (pp : Path K V) (pk : K) (pv : V)
    {w : Node K V} {h : Nat} (fuel : Nat) (hw : Bal w .black (h + 1))
    (hp : PBal (.left pc pp pk pv w) .black (h + 1))
    (ih : pc = .black → pp ≠ .root → ∀ x2 : Node K V, x2.isRed = false →
      ∃ q2, q2 ≠ .root ∧ PBal q2 .black (h + 1) ∧ q2.before = pp.before ∧
        q2.after = pp.after ∧
        ∀ rel, FixEnds (fixRemoveLoop (fuel + 1) ⟨x2, pp, rel⟩) x2 q2 rel) :
    ∃ q, q ≠ .root ∧ PBal q .black h ∧ q.before = pp.before ∧
      q.after = (pk, pv) :: w.toList ++ pp.after ∧
      ∀ rel, FixEnds
        (match fixRemoveBlackSiblingL x pc pp pk pv w rel with
          | .error e => .error e
          | .ok s2 => fixRemoveLoop (fuel + 1) s2) x q rel := by
  rcases blackSiblingL_spec x pc pp pk pv hw with
    ⟨w2, hw2, hl, hstep⟩ | ⟨a, ca, sk, sv, b, ha, hb, hl, hstep⟩
  · cases hp with
    | underRedL _ hup =>
      refine ⟨.left .black pp pk pv w2, by simp, .underBlackL hw2 (pbal_of_red hup .black),
        rfl, by simp [Path.after, hl], fun rel => ?_⟩
      rw [hstep]
      refine ⟨_, fixRemoveLoop_exit _ _ (.inr (by simp [Node.isRed])), ?_, ?_⟩
      · simp [Path.fill, Node.setBlack]
      · simp [Path.dirs]
    | underBlackL _ hup =>
      by_cases hroot : pp = .root
      · subst hroot
        refine ⟨.left .black .root pk pv w2, by simp, .underBlackL hw2 .top,
          rfl, by simp [Path.after, hl], fun rel => ?_⟩
        rw [hstep]
        refine ⟨_, fixRemoveLoop_exit _ _ (.inl rfl), ?_, ?_⟩
        · simp [Path.fill, Node.setBlack]
        · simp [Path.dirs]
      · obtain ⟨q2, hq2, hq2b, hbef, haft, hloop⟩ :=
          ih rfl hroot (.node .black x pk pv w2) (by simp [Node.isRed])
        refine ⟨.left .black q2 pk pv w2, by simp, .underBlackL hw2 hq2b,
          by simp [Path.before, hbef], by simp [Path.after, hl, haft], fun rel => ?_⟩
        rw [hstep]
        obtain ⟨s, hs, hfill, hdirs⟩ := hloop (Dir.L :: rel)
        exact ⟨s, hs, by simpa [Path.fill] using hfill, by simpa [Path.dirs] using hdirs⟩
  · have hpp : ∃ n, PBal pp pc n := by
      cases hp with
      | underRedL _ hup => exact ⟨_, hup⟩
      | underBlackL _ hup => exact ⟨_, hup⟩
    obtain ⟨n, hpp⟩ := hpp
    refine ⟨.left .black (.left pc pp sk sv b) pk pv a, by simp,
      .underBlackL ha (pbal_left_swap hp hb), by simp [Path.before],
      by simp [Path.after, ← hl], fun rel => ?_⟩
    rw [hstep]
    refine ⟨_, fixRemoveLoop_exit _ _ (.inl rfl), ?_, ?_⟩
    · simp only [Path.fill]
      exact setBlack_fill_of_pbal hpp _ (by cases pc <;> simp [Node.isRed])
    · simp [Path.dirs]

/-- The mirror image of `afterBlackSiblingL`. -/
theorem afterBlackSiblingR (x : Node K V) (pc : Color) (pp : Path K V) (pk : K) (pv : V)
    {w : Node K V} {h : Nat} (fuel : Nat) (hw : Bal w .black (h + 1))
    (hp : PBal (.right pc w pk pv pp) .black (h + 1))
    (ih : pc = .black → pp ≠ .root → ∀ x2 : Node K V, x2.isRed = false →
      ∃ q2, q2 ≠ .root ∧ PBal q2 .black (h + 1) ∧ q2.before = pp.before ∧
        q2.after = pp.after ∧
        ∀ rel, FixEnds (fixRemoveLoop (fuel + 1) ⟨x2, pp, rel⟩) x2 q2 rel) :
    ∃ q, q ≠ .root ∧ PBal q .black h ∧ q.before = pp.before ++ w.toList ++ [(pk, pv)] ∧
      q.after = pp.after ∧
      ∀ rel, FixEnds
        (match fixRemoveBlackSiblingR x pc pp pk pv w rel with
          | .error e => .error e
          | .ok s2 => fixRemoveLoop (fuel + 1) s2) x q rel := by
  rcases blackSiblingR_spec x pc pp pk pv hw with
    ⟨w2, hw2, hl, hstep⟩ | ⟨a, sk, sv, b, cb, ha, hb, hl, hstep⟩
  · cases hp with
    | underRedR _ hup =>
      refine ⟨.right .black w2 pk pv pp, by simp, .underBlackR hw2 (pbal_of_red hup .black),
        by simp [Path.before, hl], rfl, fun rel => ?_⟩
      rw [hstep]
      refine ⟨_, fixRemoveLoop_exit _ _ (.inr (by simp [Node.isRed])), ?_, ?_⟩
      · simp [Path.fill, Node.setBlack]
      · simp [Path.dirs]
    | underBlackR _ hup =>
      by_cases hroot : pp = .root
      · subst hroot
        refine ⟨.right .black w2 pk pv .root, by simp, .underBlackR hw2 .top,
          by simp [Path.before, hl], rfl, fun rel => ?_⟩
        rw [hstep]
        refine ⟨_, fixRemoveLoop_exit _ _ (.inl rfl), ?_, ?_⟩
        · simp [Path.fill, Node.setBlack]
        · simp [Path.dirs]
      · obtain ⟨q2, hq2, hq2b, hbef, haft, hloop⟩ :=
          ih rfl hroot (.node .black w2 pk pv x) (by simp [Node.isRed])
        refine ⟨.right .black w2 pk pv q2, by simp, .underBlackR hw2 hq2b,
          by simp [Path.before, hl, hbef], by simp [Path.after, haft], fun rel => ?_⟩
        rw [hstep]
        obtain ⟨s, hs, hfill, hdirs⟩ := hloop (Dir.R :: rel)
        exact ⟨s, hs, by simpa [Path.fill] using hfill, by simpa [Path.dirs] using hdirs⟩
  · have hpp : ∃ n, PBal pp pc n := by
      cases hp with
      | underRedR _ hup => exact ⟨_, hup⟩
      | underBlackR _ hup => exact ⟨_, hup⟩
    obtain ⟨n, hpp⟩ := hpp
    refine ⟨.right .black b pk pv (.right pc a sk sv pp), by simp,
      .underBlackR hb (pbal_right_swap hp ha), by simp [Path.before, ← hl],
      by simp [Path.after], fun rel => ?_⟩
    rw [hstep]
    refine ⟨_, fixRemoveLoop_exit _ _ (.inl rfl), ?_, ?_⟩
    · simp only [Path.fill]
      exact setBlack_fill_of_pbal hpp _ (by cases pc <;> simp [Node.isRed])
    · simp [Path.dirs]

/-- Deletion fixup at a black `x` that is not the root and whose subtree is one black node short:
the loop returns within the fuel, and afterwards `x` hangs, unchanged, at a chain `q` whose hole
expects exactly the black height `x` has.  The entries before and after `x` are the same. -/
theorem fixRemoveLoop_deficient (p : Path K V) :
    ∀ (x : Node K V) (h fuel : Nat), x.isRed = false → p ≠ .root → PBal p .black (h + 1) →
      p.depth ≤ fuel →
      ∃ q, q ≠ .root ∧ PBal q .black h ∧ q.before = p.before ∧ q.after = p.after ∧
        ∀ rel, FixEnds (fixRemoveLoop (fuel + 1) ⟨x, p, rel⟩) x q rel := by
  induction p with
  | root => intro _ _ _ _ h; exact absurd rfl h
  | left pc pp pk pv w ih =>
    intro x h fuel hx _ hp hfuel
    obtain ⟨f, rfl⟩ : ∃ f, fuel = f + 1 := ⟨fuel - 1, by simp [Path.depth] at hfuel; omega⟩
    have hd : pp.depth ≤ f := by simp [Path.depth] at hfuel; omega
    cases hp with
    | underRedL hw hup =>
      obtain ⟨q, h1, h2, h3, h4, h5⟩ :=
        afterBlackSiblingL x .red pp pk pv f hw (.underRedL hw hup)
          (fun hc => by cases hc)
      refine ⟨q, h1, h2, h3, h4, fun rel => ?_⟩
      have := h5 rel
      cases hw with
      | blackNode hl hr => simpa [fixRemoveLoop, hx, fixRemoveStep] using this
    | underBlackL hw hup =>
      cases hw with
      | @redNode wl wr wk wv _ hwl hwr =>
        obtain ⟨q, h1, h2, h3, h4, h5⟩ :=
          afterBlackSiblingL x .red (.left .black pp wk wv wr) pk pv f hwl
            (.underRedL hwl (.underBlackL hwr hup)) (fun hc => by cases hc)
        refine ⟨q, h1, h2, by simpa [Path.before] using h3,
          by simpa [Path.after, Node.toList] using h4, fun rel => ?_⟩
        simpa [fixRemoveLoop, hx, fixRemoveStep] using h5 rel
      | blackNode hl hr =>
        obtain ⟨q, h1, h2, h3, h4, h5⟩ :=
          afterBlackSiblingL x .black pp pk pv f (.blackNode hl hr)
            (.underBlackL (.blackNode hl hr) hup)
            (fun _ hroot x2 hx2 => ih x2 (h + 1) f hx2 hroot hup hd)
        refine ⟨q, h1, h2, h3, h4, fun rel => ?_⟩
        simpa [fixRemoveLoop, hx, fixRemoveStep] using h5 rel
  | right pc w pk pv pp ih =>
    intro x h fuel hx _ hp hfuel
    obtain ⟨f, rfl⟩ : ∃ f, fuel = f + 1 := ⟨fuel - 1, by simp [Path.depth] at hfuel; omega⟩
    have hd : pp.depth ≤ f := by simp [Path.depth] at hfuel; omega
    cases hp with
    | underRedR hw hup =>
      obtain ⟨q, h1, h2, h3, h4, h5⟩ :=
        afterBlackSiblingR x .red pp pk pv f hw (.underRedR hw hup)
          (fun hc => by cases hc)
      refine ⟨q, h1, h2, h3, h4, fun rel => ?_⟩
      have := h5 rel
      cases hw with
      | blackNode hl hr => simpa [fixRemoveLoop, hx, fixRemoveStep] using this
    | underBlackR hw hup =>
      cases hw with
      | @redNode wl wr wk wv _ hwl hwr =>
        obtain ⟨q, h1, h2, h3, h4, h5⟩ :=
          afterBlackSiblingR x .red (.right .black wl wk wv pp) pk pv f hwr
            (.underRedR hwr (.underBlackR hwl hup)) (fun hc => by cases hc)
        refine ⟨q, h1, h2, by simpa [Path.before, Node.toList] using h3,
          by simpa [Path.after] using h4, fun rel => ?_⟩
        simpa [fixRemoveLoop, hx, fixRemoveStep] using h5 rel
      | blackNode hl hr =>
        obtain ⟨q, h1, h2, h3, h4, h5⟩ :=
          afterBlackSiblingR x .black pp pk pv f (.blackNode hl hr)
            (.underBlackR (.blackNode hl hr) hup)
            (fun _ hroot x2 hx2 => ih x2 (h + 1) f hx2 hroot hup hd)
        refine ⟨q, h1, h2, h3, h4, fun rel => ?_⟩
        simpa [fixRemoveLoop, hx, fixRemoveStep] using h5 rel

theorem fixRemove_deficient {x : Node K V} {p : Path K V} {h : Nat} (hx : x.isRed = false)
    (hroot : p ≠ .root) (hp : PBal p .black (h + 1)) :
    ∃ q, q ≠ .root ∧ PBal q .black h ∧ q.before = p.before ∧ q.after = p.after ∧
      fixRemove x p = .ok (q.fill x, q.dirs) := by
  obtain ⟨q, h1, h2, h3, h4, h5⟩ :=
    fixRemoveLoop_deficient p x h (2 * p.depth + 1) hx hroot hp (by omega)
  refine ⟨q, h1, h2, h3, h4, ?_⟩
  obtain ⟨s, hs, hfill, hdirs⟩ := h5 []
  unfold fixRemove
  rw [hs]
  simp [hfill, hdirs]

theorem fixRemove_exit (x : Node K V) (p : Path K V) (h : p = .root ∨ x.isRed = true) :
    fixRemove x p = .ok (p.fill x.setBlack, p.dirs) := by
  unfold fixRemove
  rw [fixRemoveLoop_exit _ _ h]
  simp

/-! ## Unlinking a node -/

theorem detach_fill_append (p : Path K V) (t : Node K V) (d : Dir) (ds : List Dir) :
    detach (p.fill t) (p.dirs ++ d :: ds) = p.fill (detach t (d :: ds)) := by
  induction p generalizing t d ds with
  | root => simp [Path.fill, Path.dirs]
  | left c up k v r ih =>
    simp only [Path.fill, Path.dirs, List.append_assoc, List.singleton_append]
    rw [ih]
    simp [detach]
  | right c l k v up ih =>
    simp only [Path.fill, Path.dirs, List.append_assoc, List.singleton_append]
    rw [ih]
    simp [detach]

/-- Unlinking the node at the position of a chain leaves the tree with nil in the hole. -/
theorem detach_fill (p : Path K V) (t : Node K V) (hp : p ≠ .root) :
    detach (p.fill t) p.dirs = p.fill .nil := by
  cases p with
  | root => exact absurd rfl hp
  | left c up k v r =>
    simp only [Path.fill, Path.dirs]
    rw [detach_fill_append]
    simp [detach]
  | right c l k v up =>
    simp only [Path.fill, Path.dirs]
    rw [detach_fill_append]
    simp [detach]

/-! ## `Min` and `Next` -/

theorem min_spec (t : Node K V) (p : Path K V) (ht : t.isNil = false) :
    ∃ ref, Node.Min t p = some ref ∧ ref.leftChild = .nil ∧ ref.path.before = p.before ∧
      (ref.key, ref.Value) :: ref.rightChild.toList ++ ref.path.after = t.toList ++ p.after ∧
      ref.path.fill ref.node = p.fill t ∧
      ∀ c n, Bal t c n → PBal p c n → ∃ c2 n2, Bal ref.node c2 n2 ∧ PBal ref.path c2 n2 := by
  induction t generalizing p with
  | nil => simp [Node.isNil] at ht
  | node c l k v r ihl _ =>
    cases l with
    | nil =>
      exact ⟨⟨c, .nil, k, v, r, p⟩, rfl, rfl, rfl, by simp [Node.toList], rfl,
        fun c2 n hb hp => ⟨c2, n, hb, hp⟩⟩
    | node lc ll lk lv lr =>
      obtain ⟨ref, h1, h2, h3, h4, h5, h6⟩ := ihl (.left c p k v r) rfl
      refine ⟨ref, by simpa [Node.Min] using h1, h2, by simpa [Path.before] using h3, ?_,
        by simpa [Path.fill] using h5, fun c2 n hb hp => ?_⟩
      · rw [h4]; simp [Node.toList, Path.after]
      · cases hb with
        | redNode hl hr => exact h6 _ _ hl (.underRedL hr hp)
        | blackNode hl hr => exact h6 _ _ hl (.underBlackL hr hp)

/-! ## `removeNode` -/

theorem removeNode_leaf_root (fuel : Nat) (tree : Tree K V) (mc : Color) (mk : K) (mv : V) :
    Tree.removeNode fuel tree ⟨mc, .nil, mk, mv, .nil, .root⟩ =
      .ok { tree with root := .nil, nodes := tree.nodes - 1 } := by
  unfold Tree.removeNode
  simp [Node.isNil]

theorem removeNode_leaf (fuel : Nat) (tree : Tree K V) (mc : Color) (mk : K) (mv : V)
    (mp : Path K V) (hroot : mp ≠ .root) :
    Tree.removeNode fuel tree ⟨mc, .nil, mk, mv, .nil, mp⟩ =
      if mc = .black then
        match fixRemove (.node mc .nil mk mv .nil) mp with
        | .error e => .error e
        | .ok (root, dirs) =>
          .ok { tree with root := detach root dirs, nodes := tree.nodes - 1 }
      else
        .ok { tree with root := detach (mp.fill (.node mc .nil mk mv .nil)) mp.dirs,
                        nodes := tree.nodes - 1 } := by
  unfold Tree.removeNode
  cases mp with
  | root => exact absurd rfl hroot
  | left c up k v r => simp [Node.isNil, NodeRef.node]
  | right c l k v up => simp [Node.isNil, NodeRef.node]

theorem removeNode_leftChild (fuel : Nat) (tree : Tree K V) (mc : Color) (mk : K) (mv : V)
    (mp : Path K V) (cc : Color) (cl : Node K V) (ck : K) (cv : V) (cr : Node K V) :
    Tree.removeNode fuel tree ⟨mc, .node cc cl ck cv cr, mk, mv, .nil, mp⟩ =
      if mc = .black then
        match fixRemove (.node cc cl ck cv cr) mp with
        | .error e => .error e
        | .ok (root, _) => .ok { tree with root := root, nodes := tree.nodes - 1 }
      else
        .ok { tree with root := mp.fill (.node cc cl ck cv cr), nodes := tree.nodes - 1 } := by
  unfold Tree.removeNode
  simp [Node.isNil]

theorem removeNode_rightChild (fuel : Nat) (tree : Tree K V) (mc : Color) (mk : K) (mv : V)
    (mp : Path K V) (cc : Color) (cl : Node K V) (ck : K) (cv : V) (cr : Node K V) :
    Tree.removeNode fuel tree ⟨mc, .nil, mk, mv, .node cc cl ck cv cr, mp⟩ =
      if mc = .black then
        match fixRemove (.node cc cl ck cv cr) mp with
        | .error e => .error e
        | .ok (root, _) => .ok { tree with root := root, nodes := tree.nodes - 1 }
      else
        .ok { tree with root := mp.fill (.node cc cl ck cv cr), nodes := tree.nodes - 1 } := by
  unfold Tree.removeNode
  simp [Node.isNil]

/-- The recursion of `removeNode` at a node with two children. -/
theorem removeNode_twoChildren (fuel : Nat) (tree : Tree K V) (m : NodeRef K V)
    (hl : m.leftChild.isNil = false) (hr : m.rightChild.isNil = false) :
    Tree.removeNode (fuel + 1) tree m =
      match m.Next with
      | none => .error .nilDereference
      | some next => Tree.removeNode fuel tree { next with key := m.key, Value := m.Value } := by
  rw [Tree.removeNode]
  simp [hl, hr]

/-- The physical removal of a node with at most one child, the part of `removeNode` after the
two-children branch: it returns, the counter goes down by one, the tree is again red-black with
a black root, and its entries are the old ones without the entry of the node. -/
theorem removeNode_splice (fuel : Nat) (tree : Tree K V) (m : NodeRef K V) {c : Color} {n : Nat}
    (hchild : m.leftChild.isNil = true ∨ m.rightChild.isNil = true)
    (hb : Bal m.node c n) (hp : PBal m.path c n) :
    ∃ R, Tree.removeNode fuel tree m = .ok { tree with root := R, nodes := tree.nodes - 1 } ∧
      (∃ n2, Bal R .black n2) ∧
      R.toList = m.path.before ++ m.leftChild.toList ++ m.rightChild.toList ++ m.path.after := by
  obtain ⟨mc, ml, mk, mv, mr, mp⟩ := m
  simp only [NodeRef.node] at hb hp hchild ⊢
  cases ml with
  | nil =>
    cases mr with
    | nil =>
      cases hb with
      | redNode hl _ =>
        cases hl
        have hroot : mp ≠ .root := by intro h; subst h; cases hp
        refine ⟨mp.fill .nil, ?_, bal_fill (pbal_of_red hp .black) .leaf, ?_⟩
        · rw [removeNode_leaf _ _ _ _ _ _ hroot]
          simp [detach_fill _ _ hroot]
        · simp [toList_fill, Node.toList]
      | blackNode hl hr =>
        cases hl
        by_cases hroot : mp = .root
        · subst hroot
          exact ⟨.nil, removeNode_leaf_root _ _ _ _ _, ⟨0, .leaf⟩, by
            simp [Node.toList, Path.before, Path.after]⟩
        · obtain ⟨q, hq, hqb, hbef, haft, hfix⟩ :=
            fixRemove_deficient (x := .node .black .nil mk mv .nil) (by simp [Node.isRed])
              hroot hp
          refine ⟨q.fill .nil, ?_, bal_fill hqb .leaf, ?_⟩
          · rw [removeNode_leaf _ _ _ _ _ _ hroot, hfix]
            simp [detach_fill _ _ hq]
          · simp [toList_fill, Node.toList, hbef, haft]
    | node cc cl ck cv cr =>
      cases hb with
      | redNode hl hr => cases hl; cases hr
      | blackNode hl hr =>
        cases hl
        cases hr with
        | redNode hcl hcr =>
          cases hcl
          cases hcr
          refine ⟨mp.fill (.node .black .nil ck cv .nil), ?_,
            bal_fill hp (.blackNode .leaf .leaf), ?_⟩
          · rw [removeNode_rightChild, fixRemove_exit _ _ (.inr (by simp [Node.isRed]))]
            simp [Node.setBlack]
          · simp [toList_fill, Node.toList]
  | node cc cl ck cv cr =>
    cases mr with
    | node _ _ _ _ _ => simp [Node.isNil] at hchild
    | nil =>
      cases hb with
      | redNode hl hr => cases hr; cases hl
      | blackNode hl hr =>
        cases hr
        cases hl with
        | redNode hcl hcr =>
          cases hcl
          cases hcr
          refine ⟨mp.fill (.node .black .nil ck cv .nil), ?_,
            bal_fill hp (.blackNode .leaf .leaf), ?_⟩
          · rw [removeNode_leftChild, fixRemove_exit _ _ (.inr (by simp [Node.isRed]))]
            simp [Node.setBlack]
          · simp [toList_fill, Node.toList]

/-- `removeNode` at a node of a red-black tree, with fuel for one recursive call: it returns, the
counter goes down by one, the tree is again red-black with a black root, and exactly one entry
has left the in-order sequence: the entry of the node when it has at most one child, and the
entry of its successor when it has two. -/
theorem removeNode_spec (fuel : Nat) (tree : Tree K V) (m : NodeRef K V) {c : Color} {n : Nat}
    (hfuel : 1 ≤ fuel) (hb : Bal m.node c n) (hp : PBal m.path c n) :
    ∃ R, Tree.removeNode fuel tree m = .ok { tree with root := R, nodes := tree.nodes - 1 } ∧
      (∃ n2, Bal R .black n2) ∧
      ((m.leftChild.isNil = true ∨ m.rightChild.isNil = true) →
        R.toList =
          m.path.before ++ m.leftChild.toList ++ m.rightChild.toList ++ m.path.after) ∧
      ((m.leftChild.isNil = false ∧ m.rightChild.isNil = false) →
        ∃ e rest, m.rightChild.toList = e :: rest ∧
          R.toList = m.path.before ++ m.leftChild.toList ++ (m.key, m.Value) :: rest ++
            m.path.after) := by
  obtain ⟨mc, ml, mk, mv, mr, mp⟩ := m
  generalize hm : NodeRef.mk mc ml mk mv mr mp = m at *
  have e1 : m.color = mc := by rw [← hm]
  have e2 : m.leftChild = ml := by rw [← hm]
  have e3 : m.key = mk := by rw [← hm]
  have e4 : m.Value = mv := by rw [← hm]
  have e5 : m.rightChild = mr := by rw [← hm]
  have e6 : m.path = mp := by rw [← hm]
  by_cases hchild : m.leftChild.isNil = true ∨ m.rightChild.isNil = true
  · obtain ⟨R, h1, h2, h3⟩ := removeNode_splice fuel tree m hchild hb hp
    refine ⟨R, h1, h2, fun _ => h3, fun h => ?_⟩
    rcases hchild with h4 | h4 <;> simp [h4] at h
  · have hl : m.leftChild.isNil = false := by
      cases h : m.leftChild.isNil <;> simp_all
    have hr : m.rightChild.isNil = false := by
      cases h : m.rightChild.isNil <;> simp_all
    obtain ⟨f, rfl⟩ : ∃ f, fuel = f + 1 := ⟨fuel - 1, by omega⟩
    obtain ⟨next, hmin, hnl, hbef, hlist, -, hbal⟩ :=
      min_spec m.rightChild (.right m.color m.leftChild m.key m.Value m.path) hr
    have hnext : m.Next = some next := by simp [NodeRef.Next, hr, hmin]
    have hmb : ∃ c2 n2, Bal m.rightChild c2 n2 ∧
        PBal (.right m.color m.leftChild m.key m.Value m.path) c2 n2 := by
      unfold NodeRef.node at hb
      rw [e1, e2, e3, e4, e5] at hb ⊢
      rw [e6] at hp ⊢
      cases hb with
      | redNode hbl hbr => exact ⟨_, _, hbr, .underRedR hbl hp⟩
      | blackNode hbl hbr => exact ⟨_, _, hbr, .underBlackR hbl hp⟩
    obtain ⟨c2, n2, hrb, hrp⟩ := hmb
    obtain ⟨c3, n3, hnb, hnp⟩ := hbal c2 n2 hrb hrp
    obtain ⟨R, h1, h2, h3⟩ :=
      removeNode_splice f tree { next with key := m.key, Value := m.Value }
        (.inl (by simp [hnl, Node.isNil])) (bal_setEntry hnb m.key m.Value) hnp
    refine ⟨R, ?_, h2, fun h => absurd h hchild, fun _ => ?_⟩
    · rw [removeNode_twoChildren _ _ _ hl hr, hnext]
      exact h1
    · cases hrl : m.rightChild.toList with
      | nil =>
        rw [hrl] at hlist
        simp at hlist
        cases hmr : m.rightChild with
        | nil => simp [hmr, Node.isNil] at hr
        | node _ _ _ _ _ => simp [hmr, Node.toList] at hrl
      | cons e rest =>
        refine ⟨e, rest, rfl, ?_⟩
        rw [hrl] at hlist
        simp only [Path.after, List.cons_append, List.cons.injEq] at hlist
        rw [h3]
        simp only [hbef, hnl, Path.before, Node.toList, hlist.2, List.append_assoc,
          List.nil_append, List.singleton_append, List.cons_append]

/-! ## `GetNode` and `Remove` -/

theorem getNode_eq (tree : Tree K V) (cmp : Comparator K) (key : K)
    (hcmp : tree.comparator = some cmp) :
    tree.GetNode key = .ok (GetNode.loop cmp key tree.root .root) := by
  unfold Tree.GetNode
  cases h : tree.root with
  | nil => rfl
  | node c l k v r => simp [hcmp]

/-- A node found by the descent, with its place in a red-black tree. -/
theorem getNode_loop_some {cmp : Comparator K} {key : K} {t : Node K V} {m : NodeRef K V}
    (h : GetNode.loop cmp key t .root = some m) :
    descend cmp key t .root = (m.node, m.path) ∧ cmp key m.key = .Equal ∧
      m.path.fill m.node = t ∧ t.isNil = false ∧
      ∀ n, Bal t .black n → ∃ c2 n2, Bal m.node c2 n2 ∧ PBal m.path c2 n2 := by
  rw [getNode_loop_eq] at h
  cases hd : descend cmp key t .root with
  | mk t2 q =>
    rw [hd] at h
    cases t2 with
    | nil => simp at h
    | node c l k v r =>
      simp only [Option.some.injEq] at h
      subst h
      refine ⟨rfl, descend_equal hd, descend_fill hd, ?_, fun n hb => descend_bal hd hb .top⟩
      cases t with
      | nil => simp [descend] at hd
      | node _ _ _ _ _ => rfl

theorem size_pos_of_not_nil {t : Node K V} (h : t.isNil = false) : 1 ≤ t.size := by
  cases t with
  | nil => simp [Node.isNil] at h
  | node c l k v r => simp [Node.size]; omega

/-- What `Tree.Remove` answers on a red-black tree: nothing changes when the descent finds no
node; otherwise the call returns, the counter goes down by one, the tree is again red-black with
a black root, and one entry has left the in-order sequence. -/
theorem remove_spec (tree : Tree K V) (cmp : Comparator K) (key : K)
    (hcmp : tree.comparator = some cmp) {n : Nat} (hbal : Bal tree.root .black n) :
    (GetNode.loop cmp key tree.root .root = none ∧ tree.Remove key = .ok tree) ∨
    (∃ m R, GetNode.loop cmp key tree.root .root = some m ∧
      tree.Remove key = .ok { tree with root := R, nodes := tree.nodes - 1 } ∧
      (∃ n2, Bal R .black n2) ∧
      ((m.leftChild.isNil = true ∨ m.rightChild.isNil = true) →
        R.toList =
          m.path.before ++ m.leftChild.toList ++ m.rightChild.toList ++ m.path.after) ∧
      ((m.leftChild.isNil = false ∧ m.rightChild.isNil = false) →
        ∃ e rest, m.rightChild.toList = e :: rest ∧
          R.toList = m.path.before ++ m.leftChild.toList ++ (m.key, m.Value) :: rest ++
            m.path.after)) := by
  cases hg : GetNode.loop cmp key tree.root .root with
  | none =>
    left
    refine ⟨rfl, ?_⟩
    unfold Tree.Remove
    rw [getNode_eq tree cmp key hcmp, hg]
  | some m =>
    right
    obtain ⟨-, -, -, hnil, hb⟩ := getNode_loop_some hg
    obtain ⟨c2, n2, hmb, hmp⟩ := hb n hbal
    obtain ⟨R, h1, h2, h3, h4⟩ :=
      removeNode_spec tree.root.size tree m (size_pos_of_not_nil hnil) hmb hmp
    refine ⟨m, R, rfl, ?_, h2, h3, h4⟩
    unfold Tree.Remove
    rw [getNode_eq tree cmp key hcmp, hg]
    exact h1

/-- After a removal that found a node, the entries are the old ones with one taken out. -/
theorem remove_toList {m : NodeRef K V} {t R : Node K V} (hfill : m.path.fill m.node = t)
    (h3 : (m.leftChild.isNil = true ∨ m.rightChild.isNil = true) →
        R.toList =
          m.path.before ++ m.leftChild.toList ++ m.rightChild.toList ++ m.path.after)
    (h4 : (m.leftChild.isNil = false ∧ m.rightChild.isNil = false) →
        ∃ e rest, m.rightChild.toList = e :: rest ∧
          R.toList = m.path.before ++ m.leftChild.toList ++ (m.key, m.Value) :: rest ++
            m.path.after) :
    ∃ A e B, t.toList = A ++ e :: B ∧ R.toList = A ++ B := by
  have ht : t.toList = m.path.before ++
      (m.leftChild.toList ++ (m.key, m.Value) :: m.rightChild.toList) ++ m.path.after := by
    rw [← hfill, toList_fill]
    rfl
  by_cases hchild : m.leftChild.isNil = true ∨ m.rightChild.isNil = true
  · refine ⟨m.path.before ++ m.leftChild.toList, (m.key, m.Value),
      m.rightChild.toList ++ m.path.after, ?_, ?_⟩
    · rw [ht]; simp
    · rw [h3 hchild]; simp
  · have hl : m.leftChild.isNil = false := by
      cases h : m.leftChild.isNil <;> simp_all
    have hr : m.rightChild.isNil = false := by
      cases h : m.rightChild.isNil <;> simp_all
    obtain ⟨e, rest, he, hR⟩ := h4 ⟨hl, hr⟩
    refine ⟨m.path.before ++ m.leftChild.toList ++ [(m.key, m.Value)], e,
      rest ++ m.path.after, ?_, ?_⟩
    · rw [ht, he]; simp
    · rw [hR]; simp

/-- C2: for every tree satisfying the three colour invariants and holding a comparator, and for
every key, `Remove(key)` returns and the tree again satisfies root-black, no-red-red and equal
black-node count on every root-to-nil path, whether the located node has zero, one or two
children and whether it is red or black.  The order of the keys is not needed. -/
theorem remove_keeps_colour_invariants (tree : Tree K V) (cmp : Comparator K) (key : K)
    (hcmp : tree.comparator = some cmp) (hinv : ColourInvariants tree.root) :
    ∃ tree2, tree.Remove key = .ok tree2 ∧ ColourInvariants tree2.root := by
  obtain ⟨n, hbal⟩ := (colourInvariants_iff _).1 hinv
  rcases remove_spec tree cmp key hcmp hbal with ⟨-, h⟩ | ⟨m, R, -, h, hR, -, -⟩
  · exact ⟨tree, h, hinv⟩
  · exact ⟨_, h, (colourInvariants_iff _).2 hR⟩

theorem remove_keeps_colour_invariants_witness :
    ColourInvariants (Node.node .black (.node .black .nil (1 : Int) "a" .nil) 2 "b"
        (.node .black .nil 3 "c" .nil)) ∧
      ∃ tree2, (Tree.mk (Node.node .black (.node .black .nil (1 : Int) "a" .nil) 2 "b"
        (.node .black .nil 3 "c" .nil)) 3 (some Compare)).Remove 1 = .ok tree2 ∧
        ColourInvariants tree2.root :=
  ⟨by decide, remove_keeps_colour_invariants _ Compare 1 rfl (by decide)⟩

/-! ## The comparator contract and the order of the keys -/

theorem cmp_refl {cmp : Comparator K} (h : StrictTotalOrder cmp) (a : K) : cmp a a = .Equal := by
  cases hc : cmp a a with
  | Equal => rfl
  | FirstSmaller => have := (h.swap a a).1 hc; rw [hc] at this; cases this
  | FirstBigger => have := (h.swap a a).2 hc; rw [hc] at this; cases this

theorem cmp_equal_symm {cmp : Comparator K} (h : StrictTotalOrder cmp) {a b : K}
    (hab : cmp a b = .Equal) : cmp b a = .Equal := by
  cases hc : cmp b a with
  | Equal => rfl
  | FirstSmaller => have := (h.swap b a).1 hc; rw [hab] at this; cases this
  | FirstBigger => have := (h.swap a b).2 hc; rw [hab] at this; cases this

theorem cmp_equal_right {cmp : Comparator K} (h : StrictTotalOrder cmp) {a b : K} (c : K)
    (hab : cmp a b = .Equal) : cmp c a = cmp c b := by
  have h1 := h.equal a b c hab
  cases hc : cmp c a with
  | FirstSmaller =>
    have := (h.swap c a).1 hc
    rw [h1] at this
    exact ((h.swap c b).2 this).symm
  | FirstBigger =>
    have := (h.swap a c).2 hc
    rw [h1] at this
    exact ((h.swap b c).1 this).symm
  | Equal =>
    have := cmp_equal_symm h hc
    rw [h1] at this
    exact (cmp_equal_symm h this).symm

theorem entriesAscending_iff (cmp : Comparator K) (entries : List (K × V)) :
    EntriesAscending cmp entries ↔ StrictlyAscending cmp (entries.map Prod.fst) := by
  unfold EntriesAscending StrictlyAscending
  rw [List.pairwise_map]

/-- Invariant 1 says that the in-order keys are strictly ascending. -/
theorem bst_iff {cmp : Comparator K} (h : StrictTotalOrder cmp) (t : Node K V) :
    BST cmp t ↔ EntriesAscending cmp t.toList := by
  induction t with
  | nil => simp [BST, EntriesAscending, Node.toList]
  | node c l k v r ihl ihr =>
    unfold EntriesAscending at ihl ihr ⊢
    simp only [BST, Node.toList, Node.keys, List.pairwise_append, List.pairwise_cons,
      List.mem_cons, List.mem_map, ihl, ihr]
    constructor
    · rintro ⟨h1, h2, h3, h4⟩
      refine ⟨h3, ⟨fun e he => (h.swap _ _).2 (h2 e.1 ⟨e, he, rfl⟩), h4⟩, ?_⟩
      rintro a ha b (rfl | hb)
      · exact h1 a.1 ⟨a, ha, rfl⟩
      · exact h.trans _ _ _ (h1 a.1 ⟨a, ha, rfl⟩) ((h.swap _ _).2 (h2 b.1 ⟨b, hb, rfl⟩))
    · rintro ⟨h1, ⟨h2, h3⟩, h4⟩
      refine ⟨?_, ?_, h1, h3⟩
      · rintro x ⟨e, he, rfl⟩
        exact h4 e he (k, v) (.inl rfl)
      · rintro x ⟨e, he, rfl⟩
        exact (h.swap _ _).1 (h2 e he)

theorem descend_zoomed {cmp : Comparator K} {key : K} {t t2 : Node K V} {p q : Path K V}
    (h : descend cmp key t p = (t2, q)) (hp : Path.Zoomed cmp key p) :
    Path.Zoomed cmp key q := by
  induction t generalizing p with
  | nil => simp [descend] at h; obtain ⟨-, rfl⟩ := h; exact hp
  | node c2 l2 k2 v2 r2 ihl ihr =>
    unfold descend at h
    cases hc : cmp key k2 with
    | FirstSmaller => rw [hc] at h; exact ihl h ⟨hc, hp⟩
    | FirstBigger => rw [hc] at h; exact ihr h ⟨hc, hp⟩
    | Equal => rw [hc] at h; simp at h; obtain ⟨-, rfl⟩ := h; exact hp

/-- In an ordered tree the entries left of the place where the descent for `key` stands are
smaller than `key` and the entries right of it are bigger. -/
theorem zoomed_bounds {cmp : Comparator K} (h : StrictTotalOrder cmp) {key : K}
    {q : Path K V} (hz : Path.Zoomed cmp key q)
    (hs : EntriesAscending cmp (q.before ++ q.after)) :
    (∀ e ∈ q.before, cmp e.1 key = .FirstSmaller) ∧
      (∀ e ∈ q.after, cmp key e.1 = .FirstSmaller) := by
  induction q with
  | root => simp [Path.before, Path.after]
  | left c up k v r ih =>
    obtain ⟨hk, hup⟩ := hz
    have hsub : (up.before ++ up.after).Sublist
        (up.before ++ ((k, v) :: (r.toList ++ up.after))) :=
      (List.Sublist.refl _).append ((List.sublist_append_right _ _).cons _)
    obtain ⟨i1, i2⟩ := ih hup (List.Pairwise.sublist hsub hs)
    obtain ⟨-, hB, -⟩ := List.pairwise_append.1 hs
    have hkr := (List.pairwise_cons.1 hB).1
    refine ⟨i1, fun e he => ?_⟩
    have he2 : e = (k, v) ∨ e ∈ r.toList ∨ e ∈ up.after := by
      simpa [Path.after] using he
    rcases he2 with rfl | he2 | he2
    · exact hk
    · exact h.trans _ _ _ hk (hkr e (List.mem_append_left _ he2))
    · exact i2 e he2
  | right c l k v up ih =>
    obtain ⟨hk, hup⟩ := hz
    have hk2 : cmp k key = .FirstSmaller := (h.swap _ _).2 hk
    have hsub : (up.before ++ up.after).Sublist
        ((up.before ++ l.toList ++ [(k, v)]) ++ up.after) := by
      refine List.Sublist.append ?_ (List.Sublist.refl _)
      rw [List.append_assoc]
      exact List.sublist_append_left _ _
    obtain ⟨i1, i2⟩ := ih hup (List.Pairwise.sublist hsub hs)
    obtain ⟨hA, -, -⟩ := List.pairwise_append.1 hs
    have hlk := (List.pairwise_append.1 hA).2.2
    refine ⟨fun e he => ?_, i2⟩
    have he2 : e ∈ up.before ∨ e ∈ l.toList ∨ e = (k, v) := by
      simpa [Path.before, or_assoc] using he
    rcases he2 with he2 | he2 | rfl
    · exact i1 e he2
    · exact h.trans _ _ _
        (hlk e (List.mem_append_right _ he2) (k, v) (List.mem_singleton.2 rfl)) hk2
    · exact hk2

/-! ## Looking a key up in the in-order sequence -/

theorem lookup_append_of_ne {cmp : Comparator K} {key : K} {A : List (K × V)}
    (h : ∀ e ∈ A, cmp key e.1 ≠ .Equal) (B : List (K × V)) :
    lookup cmp key (A ++ B) = lookup cmp key B := by
  induction A with
  | nil => rfl
  | cons a A ih =>
    obtain ⟨k, v⟩ := a
    have h1 : cmp key k ≠ .Equal := h (k, v) (List.mem_cons_self _ _)
    simp only [List.cons_append, lookup, h1, if_false]
    exact ih fun e he => h e (List.mem_cons_of_mem _ he)

theorem lookup_eq_none {cmp : Comparator K} {key : K} {A : List (K × V)}
    (h : ∀ e ∈ A, cmp key e.1 ≠ .Equal) : lookup cmp key A = none := by
  have := lookup_append_of_ne h []
  simpa [lookup] using this

theorem lookup_cons_equal {cmp : Comparator K} {key k : K} (v : V) (B : List (K × V))
    (h : cmp key k = .Equal) : lookup cmp key ((k, v) :: B) = some v := by
  simp [lookup, h]

/-- Keys smaller than a key that compares equal to `key` do not compare equal to `key`. -/
theorem ne_equal_of_smaller {cmp : Comparator K} (h : StrictTotalOrder cmp) {key k x : K}
    (hk : cmp key k = .Equal) (hx : cmp x k = .FirstSmaller) : cmp key x ≠ .Equal := by
  rw [h.equal key k x hk, (h.swap x k).1 hx]
  simp

theorem ne_equal_of_bigger {cmp : Comparator K} (h : StrictTotalOrder cmp) {key k x : K}
    (hk : cmp key k = .Equal) (hx : cmp k x = .FirstSmaller) : cmp key x ≠ .Equal := by
  rw [h.equal key k x hk, hx]
  simp

/-- In an ascending sequence the lookup of a key finds the one entry that compares equal. -/
theorem lookup_mid {cmp : Comparator K} (h : StrictTotalOrder cmp) {key k : K} (v : V)
    {A B : List (K × V)} (hs : EntriesAscending cmp (A ++ (k, v) :: B))
    (hk : cmp key k = .Equal) : lookup cmp key (A ++ (k, v) :: B) = some v := by
  rw [lookup_append_of_ne, lookup_cons_equal v B hk]
  intro e he
  exact ne_equal_of_smaller h hk
    ((List.pairwise_append.1 hs).2.2 e he (k, v) (List.mem_cons_self _ _))

/-- An entry whose key does not compare equal to `key` is invisible to the lookup of `key`. -/
theorem lookup_skip {cmp : Comparator K} {key : K} (e : K × V) (A B : List (K × V))
    (he : cmp key e.1 ≠ .Equal) : lookup cmp key (A ++ e :: B) = lookup cmp key (A ++ B) := by
  induction A with
  | nil => obtain ⟨k, v⟩ := e; simp [lookup, he]
  | cons a A ih =>
    obtain ⟨k, v⟩ := a
    show (if cmp key k = .Equal then some v else lookup cmp key (A ++ e :: B)) =
      if cmp key k = .Equal then some v else lookup cmp key (A ++ B)
    rw [ih]

/-- In an ordered tree `GetNode` finds the node the lookup in the in-order sequence finds. -/
theorem getNode_lookup {cmp : Comparator K} (h : StrictTotalOrder cmp) (key : K)
    (t : Node K V) (hs : EntriesAscending cmp t.toList) :
    (GetNode.loop cmp key t .root).map (fun m => m.Value) = lookup cmp key t.toList := by
  rw [getNode_loop_eq]
  cases hd : descend cmp key t .root with
  | mk t2 q =>
    have hfill := descend_fill hd
    have hl : t.toList = q.before ++ t2.toList ++ q.after := by
      rw [← toList_fill, hfill]; rfl
    cases t2 with
    | nil =>
      simp only [Option.map_none']
      have hz : Path.Zoomed cmp key q := descend_zoomed hd trivial
      rw [hl] at hs ⊢
      simp only [Node.toList, List.append_nil] at hs ⊢
      obtain ⟨b1, b2⟩ := zoomed_bounds h hz hs
      symm
      apply lookup_eq_none
      intro e he
      rcases List.mem_append.1 he with he | he
      · rw [(h.swap _ _).1 (b1 e he)]; simp
      · rw [b2 e he]; simp
    | node c l k v r =>
      simp only [Option.map_some']
      have hk := descend_equal hd
      rw [hl] at hs ⊢
      simp only [Node.toList, List.append_assoc, List.cons_append] at hs ⊢
      rw [← List.append_assoc] at hs ⊢
      exact (lookup_mid h v hs hk).symm

/-! ## `Set` and the in-order sequence -/

/-- What `Tree.Set` does to the in-order sequence and to the counter: either the descent finds a
node whose key compares equal and only its value changes, or it finds none and the new entry
comes in at the place where the descent ended, between the smaller and the bigger keys. -/
theorem set_spec (tree : Tree K V) (cmp : Comparator K) (key : K) (value : V)
    (hcmp : tree.comparator = some cmp) :
    ∃ tree2, tree.Set key value = .ok tree2 ∧ tree2.comparator = some cmp ∧
      ((∃ A k v B, cmp key k = .Equal ∧ (GetNode.loop cmp key tree.root .root).isSome = true ∧
          tree.root.toList = A ++ (k, v) :: B ∧ tree2.root.toList = A ++ (k, value) :: B ∧
          tree2.nodes = tree.nodes) ∨
       (∃ A B, GetNode.loop cmp key tree.root .root = none ∧
          tree.root.toList = A ++ B ∧ tree2.root.toList = A ++ (key, value) :: B ∧
          tree2.nodes = tree.nodes + 1 ∧
          (StrictTotalOrder cmp → EntriesAscending cmp tree.root.toList →
            (∀ e ∈ A, cmp e.1 key = .FirstSmaller) ∧
              (∀ e ∈ B, cmp key e.1 = .FirstSmaller)))) := by
  refine ⟨_, set_eq tree cmp key value hcmp, ?_⟩
  have hg := getNode_loop_eq cmp key tree.root .root
  cases hd : descend cmp key tree.root .root with
  | mk t2 q =>
    have hfill := descend_fill hd
    have hl : tree.root.toList = q.before ++ t2.toList ++ q.after := by
      rw [← toList_fill, hfill]; rfl
    rw [hd] at hg
    cases t2 with
    | nil =>
      refine ⟨hcmp, .inr ⟨q.before, q.after, hg, by simpa [Node.toList] using hl, ?_, rfl,
        fun ho hs => ?_⟩⟩
      · simp [fixInsert, toList_setBlack, toList_fixInsertLoop, Node.toList]
      · refine zoomed_bounds ho (descend_zoomed hd trivial) ?_
        rw [hl] at hs
        simpa [Node.toList] using hs
    | node c l k v r =>
      refine ⟨hcmp, .inl ⟨q.before ++ l.toList, k, v, r.toList ++ q.after, descend_equal hd,
        by rw [hg]; rfl, ?_, ?_, rfl⟩⟩
      · rw [hl]; simp [Node.toList]
      · simp [toList_fill, Node.toList]

theorem entriesAscending_of_keys_eq {cmp : Comparator K} {A B : List (K × V)}
    (h : A.map Prod.fst = B.map Prod.fst) (hA : EntriesAscending cmp A) :
    EntriesAscending cmp B := by
  rw [entriesAscending_iff] at hA ⊢
  rw [← h]
  exact hA

theorem entriesAscending_insert {cmp : Comparator K} {A B : List (K × V)} {e : K × V}
    (hs : EntriesAscending cmp (A ++ B)) (hA : ∀ a ∈ A, cmp a.1 e.1 = .FirstSmaller)
    (hB : ∀ b ∈ B, cmp e.1 b.1 = .FirstSmaller) : EntriesAscending cmp (A ++ e :: B) := by
  unfold EntriesAscending at hs ⊢
  obtain ⟨h1, h2, h3⟩ := List.pairwise_append.1 hs
  refine List.pairwise_append.2 ⟨h1, List.pairwise_cons.2 ⟨hB, h2⟩, fun a ha b hb => ?_⟩
  rcases List.mem_cons.1 hb with rfl | hb
  · exact hA a ha
  · exact h3 a ha b hb

theorem entriesAscending_erase {cmp : Comparator K} {A B : List (K × V)} {e : K × V}
    (hs : EntriesAscending cmp (A ++ e :: B)) : EntriesAscending cmp (A ++ B) :=
  List.Pairwise.sublist ((List.Sublist.refl _).append (List.sublist_cons_self _ _)) hs

/-- `Set` on an ordered tree: the call returns, the keys stay strictly ascending, and the lookup
of the key in the new in-order sequence gives the value just written. -/
theorem set_ordered (tree : Tree K V) (cmp : Comparator K) (key : K) (value : V)
    (hcmp : tree.comparator = some cmp) (ho : StrictTotalOrder cmp)
    (hs : EntriesAscending cmp tree.root.toList) :
    ∃ tree2, tree.Set key value = .ok tree2 ∧ tree2.comparator = some cmp ∧
      EntriesAscending cmp tree2.root.toList ∧
      lookup cmp key tree2.root.toList = some value ∧
      ∀ key2, cmp key2 key ≠ .Equal →
        lookup cmp key2 tree2.root.toList = lookup cmp key2 tree.root.toList := by
  obtain ⟨tree2, h1, h2, h3⟩ := set_spec tree cmp key value hcmp
  refine ⟨tree2, h1, h2, ?_⟩
  rcases h3 with ⟨A, k, v, B, hk, -, hl, hl2, -⟩ | ⟨A, B, -, hl, hl2, -, hb⟩
  · have hs2 : EntriesAscending cmp tree2.root.toList :=
      entriesAscending_of_keys_eq (by rw [hl, hl2]; simp) hs
    refine ⟨hs2, ?_, fun key2 hne => ?_⟩
    · rw [hl2] at hs2 ⊢
      exact lookup_mid ho value hs2 hk
    · have hne2 : cmp key2 k ≠ .Equal := by
        rw [← cmp_equal_right ho key2 hk]; exact hne
      rw [hl, hl2, lookup_skip (k, value) A B hne2, lookup_skip (k, v) A B hne2]
  · obtain ⟨b1, b2⟩ := hb ho hs
    rw [hl] at hs
    have hs2 : EntriesAscending cmp (A ++ (key, value) :: B) :=
      entriesAscending_insert hs b1 b2
    rw [hl2]
    refine ⟨hs2, lookup_mid ho value hs2 (cmp_refl ho key), fun key2 hne => ?_⟩
    rw [hl, lookup_skip (key, value) A B hne]

/-! ## The iterator and `Keys` -/

theorem remaining_min (t : Node K V) (p : Path K V) (ht : t.isNil = false) :
    remaining (Node.Min t p) = t.toList ++ p.after := by
  obtain ⟨ref, h1, -, -, h4, -⟩ := min_spec t p ht
  rw [h1]
  exact h4

theorem remaining_min_root (t : Node K V) : remaining (Node.Min t .root) = t.toList := by
  cases t with
  | nil => rfl
  | node c l k v r => simpa [Path.after] using remaining_min (.node c l k v r) .root rfl

theorem remaining_firstLeftAncestor (t : Node K V) (p : Path K V) :
    remaining (Path.firstLeftAncestor t p) = p.after := by
  induction p generalizing t with
  | root => rfl
  | left c up k v r _ => rfl
  | right c l k v up ih => simpa [Path.firstLeftAncestor, Path.after] using ih _

/-- `Next` moves to the node holding the next entry of the in-order sequence. -/
theorem remaining_next (m : NodeRef K V) :
    remaining m.Next = m.rightChild.toList ++ m.path.after := by
  unfold NodeRef.Next
  cases h : m.rightChild.isNil with
  | true =>
    simp only [if_true]
    rw [remaining_firstLeftAncestor]
    cases hr : m.rightChild with
    | nil => rfl
    | node _ _ _ _ _ => simp [hr, Node.isNil] at h
  | false =>
    simp only [Bool.false_eq_true, if_false]
    rw [remaining_min _ _ h]
    rfl

theorem set_append_replicate (pre : List K) (n : Nat) (d x : K) :
    (pre ++ List.replicate (n + 1) d).set pre.length x =
      (pre ++ [x]) ++ List.replicate n d := by
  induction pre with
  | nil => simp [List.replicate_succ]
  | cons a pre ih => simpa using ih

/-- The loop of `Keys` writes the keys still to visit into the slice, from index `i` on, and
returns as soon as the fuel exceeds their number and the slice has room for them. -/
theorem keys_loop (fuel : Nat) (it : Iterator K V) (pre : List K) (pad : Nat) (d : K)
    (hfuel : (remaining it.current).length < fuel) (hpad : (remaining it.current).length ≤ pad) :
    Keys.loop fuel it (pre ++ List.replicate pad d) pre.length =
      .ok (pre ++ (remaining it.current).map Prod.fst ++
        List.replicate (pad - (remaining it.current).length) d) := by
  induction fuel generalizing it pre pad with
  | zero => omega
  | succ fuel ih =>
    obtain ⟨tree, current⟩ := it
    cases current with
    | none => simp [Keys.loop, remaining]
    | some m =>
      simp only [remaining, List.cons_append, List.length_cons, List.length_append] at hfuel hpad
      obtain ⟨pad, rfl⟩ : ∃ n, pad = n + 1 := ⟨pad - 1, by omega⟩
      have hlen : pre.length < (pre ++ List.replicate (pad + 1) d).length := by simp
      simp only [Keys.loop, hlen, if_true]
      rw [set_append_replicate]
      have hmove : (Iterator.Move ⟨tree, some m⟩).current = m.Next := rfl
      have hrem := remaining_next m
      have := ih (Iterator.Move ⟨tree, some m⟩) (pre ++ [m.key]) pad
        (by rw [hmove, hrem]; simpa using hfuel) (by rw [hmove, hrem]; simpa using hpad)
      simp only [List.length_append, List.length_singleton] at this
      rw [this, hmove, hrem]
      simp [remaining]

/-- When the counter is the number of reachable nodes, `Keys` returns the in-order keys. -/
theorem keys_eq [Inhabited K] (tree : Tree K V) (hn : tree.nodes = tree.root.size) :
    tree.Keys = .ok tree.root.keys := by
  unfold Tree.Keys
  have h0 : ¬ tree.nodes < 0 := by omega
  have hrem : remaining tree.MapIterator.current = tree.root.toList :=
    remaining_min_root tree.root
  have := keys_loop (tree.root.size + 1) tree.MapIterator [] tree.nodes.toNat default
    (by rw [hrem, size_eq_length]; omega) (by rw [hrem, hn, size_eq_length]; simp)
  simp only [List.nil_append, List.length_nil] at this
  rw [if_neg h0, this, hrem, hn, size_eq_length]
  simp [Node.keys]

/-! ## Trees built from the empty tree -/

theorem compare_strictTotalOrder : StrictTotalOrder Compare := by
  refine ⟨fun a b => ?_, fun a b c => ?_, fun a b c => ?_⟩
  · unfold Compare
    constructor <;> intro h <;> split_ifs at h ⊢ <;> first | rfl | omega
  · unfold Compare
    intro h1 h2
    split_ifs at h1 h2 ⊢ <;> first | rfl | omega
  · unfold Compare
    intro h
    split_ifs at h ⊢ <;> first | rfl | omega

theorem reached_new (cmp : Comparator K) : Reached cmp (NewWithComparator cmp : Tree K V) :=
  ⟨rfl, ⟨0, .leaf⟩, rfl⟩

theorem reached_set {cmp : Comparator K} {tree : Tree K V} (h : Reached cmp tree) (key : K)
    (value : V) :
    ∃ tree2, tree.Set key value = .ok tree2 ∧ Reached cmp tree2 ∧
      (StrictTotalOrder cmp → EntriesAscending cmp tree.root.toList →
        EntriesAscending cmp tree2.root.toList) := by
  obtain ⟨hcmp, ⟨n, hbal⟩, hn⟩ := h
  obtain ⟨tree2, h1, h2, h3⟩ := set_bal tree cmp key value hcmp hbal
  obtain ⟨tree3, g1, -, g3⟩ := set_spec tree cmp key value hcmp
  obtain rfl : tree2 = tree3 := Except.ok.inj (h1.symm.trans g1)
  refine ⟨tree2, h1, ⟨h2, h3, ?_⟩, fun ho hs => ?_⟩
  · rcases g3 with ⟨A, k, v, B, -, -, hl, hl2, hnodes⟩ | ⟨A, B, -, hl, hl2, hnodes, -⟩
    · rw [hnodes, hn, size_eq_length, size_eq_length, hl, hl2]; simp
    · rw [hnodes, hn, size_eq_length, size_eq_length, hl, hl2]
      simp only [List.length_append, List.length_cons]
      push_cast
      omega
  · obtain ⟨tree4, k1, -, k3, -⟩ := set_ordered tree cmp key value hcmp ho hs
    obtain rfl : tree2 = tree4 := Except.ok.inj (h1.symm.trans k1)
    exact k3

theorem reached_remove {cmp : Comparator K} {tree : Tree K V} (h : Reached cmp tree) (key : K) :
    ∃ tree2, tree.Remove key = .ok tree2 ∧ Reached cmp tree2 ∧
      (EntriesAscending cmp tree.root.toList → EntriesAscending cmp tree2.root.toList) ∧
      ((GetNode.loop cmp key tree.root .root).isSome = true →
        tree2.nodes = tree.nodes - 1) := by
  obtain ⟨hcmp, ⟨n, hbal⟩, hn⟩ := h
  rcases remove_spec tree cmp key hcmp hbal with ⟨hg, h1⟩ | ⟨m, R, hg, h1, hR, h3, h4⟩
  · exact ⟨tree, h1, ⟨hcmp, ⟨n, hbal⟩, hn⟩, id, by simp [hg]⟩
  · obtain ⟨-, -, hfill, -, -⟩ := getNode_loop_some hg
    obtain ⟨A, e, B, hl, hl2⟩ := remove_toList hfill h3 h4
    refine ⟨_, h1, ⟨hcmp, hR, ?_⟩, fun hs => ?_, fun _ => rfl⟩
    · show tree.nodes - 1 = (R.size : Int)
      rw [hn, size_eq_length, size_eq_length, hl, hl2]
      simp only [List.length_append, List.length_cons]
      push_cast
      omega
    · show EntriesAscending cmp R.toList
      rw [hl] at hs
      rw [hl2]
      exact entriesAscending_erase hs

theorem reached_run {cmp : Comparator K} (ops : List (Op K V)) {tree : Tree K V}
    (h : Reached cmp tree) :
    ∃ tree2, tree.run ops = .ok tree2 ∧ Reached cmp tree2 ∧
      (StrictTotalOrder cmp → EntriesAscending cmp tree.root.toList →
        EntriesAscending cmp tree2.root.toList) := by
  induction ops generalizing tree with
  | nil => exact ⟨tree, rfl, h, fun _ hs => hs⟩
  | cons op ops ih =>
    cases op with
    | Set key value =>
      obtain ⟨t1, h1, h2, h3⟩ := reached_set h key value
      obtain ⟨t2, g1, g2, g3⟩ := ih h2
      exact ⟨t2, by simp [Tree.run, Tree.apply, h1, g1], g2, fun ho hs => g3 ho (h3 ho hs)⟩
    | Remove key =>
      obtain ⟨t1, h1, h2, h3, -⟩ := reached_remove h key
      obtain ⟨t2, g1, g2, g3⟩ := ih h2
      exact ⟨t2, by simp [Tree.run, Tree.apply, h1, g1], g2, fun ho hs => g3 ho (h3 hs)⟩

/-! ## The lookups of the map interface -/

theorem tryGet_eq [Inhabited V] {cmp : Comparator K} (ho : StrictTotalOrder cmp)
    (tree : Tree K V) (key : K) (hcmp : tree.comparator = some cmp)
    (hs : EntriesAscending cmp tree.root.toList) :
    tree.TryGet key = .ok
      (match lookup cmp key tree.root.toList with
      | some v => (v, true)
      | none => (default, false)) := by
  unfold Tree.TryGet
  rw [getNode_eq tree cmp key hcmp, ← getNode_lookup ho key tree.root hs]
  cases GetNode.loop cmp key tree.root .root <;> rfl

theorem contains_eq {cmp : Comparator K} (ho : StrictTotalOrder cmp)
    (tree : Tree K V) (key : K) (hcmp : tree.comparator = some cmp)
    (hs : EntriesAscending cmp tree.root.toList) :
    tree.Contains key = .ok (lookup cmp key tree.root.toList).isSome := by
  unfold Tree.Contains
  rw [getNode_eq tree cmp key hcmp, ← getNode_lookup ho key tree.root hs]
  cases GetNode.loop cmp key tree.root .root <;> rfl

/-! ## The claims about order, lookup and size -/

/-- C3: for every sequence of `Set` and `Remove` calls applied to an empty tree whose comparator
is a strict total order, every call returns, the tree reached satisfies the binary-search-tree
property and `Keys()` returns a strictly ascending sequence; and `Set` of 10, 20, 30, 40, 50, 25
into an empty tree of integers gives `Keys() = [10, 20, 25, 30, 40, 50]`. -/
theorem keys_strictly_ascending :
    (∀ (K V : Type) [Inhabited K] (cmp : Comparator K), StrictTotalOrder cmp →
      ∀ ops : List (Op K V), ∃ tree, (NewWithComparator cmp).run ops = .ok tree ∧
        BST cmp tree.root ∧ ∃ keys, tree.Keys = .ok keys ∧ StrictlyAscending cmp keys) ∧
    (∃ tree, (New : Tree Int String).run [.Set 10 "", .Set 20 "", .Set 30 "", .Set 40 "",
        .Set 50 "", .Set 25 ""] = .ok tree ∧ tree.Keys = .ok [10, 20, 25, 30, 40, 50]) := by
  refine ⟨fun K V _ cmp ho ops => ?_, ⟨_, rfl, rfl⟩⟩
  obtain ⟨tree, h1, ⟨-, -, hn⟩, h3⟩ := reached_run ops (reached_new (V := V) cmp)
  have hs : EntriesAscending cmp tree.root.toList :=
    h3 ho (by simp [NewWithComparator, Node.toList, EntriesAscending])
  exact ⟨tree, h1, (bst_iff ho _).2 hs, tree.root.keys, keys_eq tree hn,
    (entriesAscending_iff _ _).1 hs⟩

theorem keys_strictly_ascending_witness :
    StrictTotalOrder Compare ∧
      ∃ tree, (NewWithComparator Compare : Tree Int String).run
          [.Set 10 "x", .Set 30 "y", .Remove 10, .Set 20 "z"] = .ok tree ∧
        BST Compare tree.root ∧ ∃ keys, tree.Keys = .ok keys ∧ StrictlyAscending Compare keys :=
  ⟨compare_strictTotalOrder,
    keys_strictly_ascending.1 Int String Compare compare_strictTotalOrder _⟩

/-- C6: for every tree that holds a comparator satisfying the comparator contract and satisfies
the binary-search-tree property, and for every key `k` and value `v`, `Set(k, v)` returns and
afterwards `TryGet(k)` returns `(v, true)` and `Contains(k)` is true, whether `k` was absent or
already present. -/
theorem set_then_lookup [Inhabited V] (tree : Tree K V) (cmp : Comparator K) (key : K)
    (value : V) (ho : StrictTotalOrder cmp) (hcmp : tree.comparator = some cmp)
    (hbst : BST cmp tree.root) :
    ∃ tree2, tree.Set key value = .ok tree2 ∧ tree2.TryGet key = .ok (value, true) ∧
      tree2.Contains key = .ok true := by
  obtain ⟨tree2, h1, h2, h3, h4, -⟩ :=
    set_ordered tree cmp key value hcmp ho ((bst_iff ho _).1 hbst)
  refine ⟨tree2, h1, ?_, ?_⟩
  · rw [tryGet_eq ho tree2 key h2 h3, h4]
  · rw [contains_eq ho tree2 key h2 h3, h4]
    rfl

theorem set_then_lookup_witness :
    StrictTotalOrder Compare ∧
      BST Compare (Node.node .black (.node .red .nil (1 : Int) "a" .nil) 2 "b"
        (.node .red .nil 3 "c" .nil)) ∧
      ∃ tree2, (Tree.mk (Node.node .black (.node .red .nil (1 : Int) "a" .nil) 2 "b"
          (.node .red .nil 3 "c" .nil)) 3 (some Compare)).Set 3 "z" = .ok tree2 ∧
        tree2.TryGet 3 = .ok ("z", true) ∧ tree2.Contains 3 = .ok true :=
  ⟨compare_strictTotalOrder, by decide,
    set_then_lookup _ Compare 3 "z" compare_strictTotalOrder rfl (by decide)⟩

theorem contains_iff {cmp : Comparator K} (tree : Tree K V) (key : K)
    (hcmp : tree.comparator = some cmp) (b : Bool) :
    tree.Contains key = .ok b ↔ (GetNode.loop cmp key tree.root .root).isSome = b := by
  unfold Tree.Contains
  rw [getNode_eq tree cmp key hcmp]
  simp

theorem run_sets_size {cmp : Comparator K} (ho : StrictTotalOrder cmp)
    (entries : List (K × V)) :
    ∀ tree : Tree K V, tree.comparator = some cmp →
      (∀ e ∈ tree.root.toList, ∀ x ∈ entries, cmp e.1 x.1 ≠ .Equal) →
      (entries.map Prod.fst).Pairwise (fun a b => cmp a b ≠ .Equal) →
      ∃ tree2, tree.run (entries.map fun e => Op.Set e.1 e.2) = .ok tree2 ∧
        tree2.nodes = tree.nodes + entries.length := by
  induction entries with
  | nil => intro tree _ _ _; exact ⟨tree, rfl, by simp⟩
  | cons x entries ih =>
    intro tree hcmp hdis hpw
    obtain ⟨t1, h1, h2, h3⟩ := set_spec tree cmp x.1 x.2 hcmp
    rw [List.map_cons, List.pairwise_cons] at hpw
    rcases h3 with ⟨A, k, v, B, hk, -, hl, -, -⟩ | ⟨A, B, -, hl, hl2, hnodes, -⟩
    · exact absurd (cmp_equal_symm ho hk)
        (hdis (k, v) (by rw [hl]; simp) x (List.mem_cons_self _ _))
    · obtain ⟨t2, g1, g2⟩ := ih t1 h2 (fun e he y hy => by
        rw [hl2] at he
        rcases List.mem_append.1 he with he | he
        · exact hdis e (by rw [hl]; exact List.mem_append_left _ he) y
            (List.mem_cons_of_mem _ hy)
        · rcases List.mem_cons.1 he with rfl | he
          · exact hpw.1 y.1 (List.mem_map_of_mem _ hy)
          · exact hdis e (by rw [hl]; exact List.mem_append_right _ he) y
              (List.mem_cons_of_mem _ hy)) hpw.2
      refine ⟨t2, by simp [Tree.run, Tree.apply, h1, g1], ?_⟩
      rw [g2, hnodes]
      simp only [List.length_cons]
      push_cast
      omega

/-- C7: with a comparator satisfying the comparator contract, calling `Set` for each entry of a
list whose keys are pairwise distinct under the comparator, on an empty tree, returns every time
and leaves `Size()` equal to the length of the list; and on every tree that contains the key
(`Contains` is true), `Set` returns and leaves `Size()` unchanged. -/
theorem size_after_sets (cmp : Comparator K) (ho : StrictTotalOrder cmp) :
    (∀ entries : List (K × V),
      (entries.map Prod.fst).Pairwise (fun a b => cmp a b ≠ .Equal) →
      ∃ tree, (NewWithComparator cmp).run (entries.map fun e => Op.Set e.1 e.2) = .ok tree ∧
        tree.Size = entries.length) ∧
    (∀ (tree : Tree K V) (key : K) (value : V), tree.comparator = some cmp →
      tree.Contains key = .ok true →
      ∃ tree2, tree.Set key value = .ok tree2 ∧ tree2.Size = tree.Size) := by
  constructor
  · intro entries hpw
    obtain ⟨tree, h1, h2⟩ := run_sets_size ho entries (NewWithComparator cmp) rfl
      (by simp [NewWithComparator, Node.toList]) hpw
    exact ⟨tree, h1, by simpa [Tree.Size, NewWithComparator] using h2⟩
  · intro tree key value hcmp hc
    obtain ⟨tree2, h1, -, h3⟩ := set_spec tree cmp key value hcmp
    refine ⟨tree2, h1, ?_⟩
    rcases h3 with ⟨_, _, _, _, -, -, -, -, hnodes⟩ | ⟨_, _, hg, -⟩
    · exact hnodes
    · rw [contains_iff tree key hcmp, hg] at hc
      cases hc

theorem size_after_sets_witness :
    StrictTotalOrder Compare ∧
      ([((3 : Int), "c"), (1, "a"), (2, "b")].map Prod.fst).Pairwise
        (fun a b => Compare a b ≠ .Equal) ∧
      (∃ tree, (NewWithComparator Compare).run
          ([((3 : Int), "c"), (1, "a"), (2, "b")].map fun e => Op.Set e.1 e.2) = .ok tree ∧
        tree.Size = ([((3 : Int), "c"), (1, "a"), (2, "b")] : List (Int × String)).length) ∧
      (Tree.mk (Node.node .black .nil (1 : Int) "a" .nil) 1 (some Compare)).Contains 1 =
        .ok true ∧
      ∃ tree2, (Tree.mk (Node.node .black .nil (1 : Int) "a" .nil) 1 (some Compare)).Set 1 "z" =
          .ok tree2 ∧
        tree2.Size = (Tree.mk (Node.node .black .nil (1 : Int) "a" .nil) 1 (some Compare)).Size :=
  ⟨compare_strictTotalOrder, by decide,
    (size_after_sets Compare compare_strictTotalOrder).1 _ (by decide), rfl,
    (size_after_sets Compare compare_strictTotalOrder).2 _ 1 "z" rfl rfl⟩

/-- C8: for every tree reached from the empty tree by a sequence of `Set` and `Remove` calls,
`Size()` is the number of nodes reachable from the root; and `Remove` of a key the tree contains
returns and lowers `Size()` by exactly one, the counter still being the number of reachable
nodes, whatever the number of children of the located node. -/
theorem size_counts_nodes (cmp : Comparator K) (ops : List (Op K V)) :
    ∃ tree, (NewWithComparator cmp).run ops = .ok tree ∧ tree.Size = tree.root.size ∧
      ∀ key, tree.Contains key = .ok true →
        ∃ tree2, tree.Remove key = .ok tree2 ∧ tree2.Size = tree.Size - 1 ∧
          tree2.Size = tree2.root.size := by
  obtain ⟨tree, h1, h2, -⟩ := reached_run ops (reached_new (V := V) cmp)
  refine ⟨tree, h1, h2.2.2, fun key hc => ?_⟩
  obtain ⟨tree2, g1, g2, -, g4⟩ := reached_remove h2 key
  exact ⟨tree2, g1, g4 ((contains_iff tree key h2.1 true).1 hc), g2.2.2⟩

theorem size_counts_nodes_witness :
    ∃ tree, (NewWithComparator Compare : Tree Int String).run
        [.Set 2 "b", .Set 1 "a", .Set 3 "c", .Remove 1, .Set 1 "z"] = .ok tree ∧
      tree.Size = tree.root.size ∧
      ∀ key, tree.Contains key = .ok true →
        ∃ tree2, tree.Remove key = .ok tree2 ∧ tree2.Size = tree.Size - 1 ∧
          tree2.Size = tree2.root.size :=
  size_counts_nodes Compare _

/-- C10: `Remove(key)` on a tree with a nil root, and `Remove(key)` on a tree for which
`Contains(key)` is false, return the tree they were given: root, every node with its key, value,
colour and links, the counter and the comparator are the same, and the call does not fail.  In a
tree that satisfies the binary-search-tree property under a comparator satisfying the contract,
`Contains(key)` is false as soon as no key of the tree compares equal to `key`. -/
theorem remove_absent_is_noop (tree : Tree K V) (key : K) :
    (tree.root = .nil → tree.Remove key = .ok tree) ∧
    (tree.Contains key = .ok false → tree.Remove key = .ok tree) ∧
    (∀ cmp, StrictTotalOrder cmp → tree.comparator = some cmp → BST cmp tree.root →
      (∀ k ∈ tree.root.keys, cmp key k ≠ .Equal) →
      tree.Contains key = .ok false ∧ tree.Remove key = .ok tree) := by
  have hc : tree.Contains key = .ok false → tree.Remove key = .ok tree := by
    intro h
    unfold Tree.Contains at h
    unfold Tree.Remove
    cases hg : tree.GetNode key with
    | error e => rw [hg] at h; cases h
    | ok node =>
      rw [hg] at h
      cases node with
      | none => rfl
      | some m => simp at h
  refine ⟨fun h => ?_, hc, fun cmp ho hcmp hbst hne => ?_⟩
  · unfold Tree.Remove Tree.GetNode
    rw [h]
  · have hcf : tree.Contains key = .ok false := by
      rw [contains_eq ho tree key hcmp ((bst_iff ho _).1 hbst),
        lookup_eq_none (fun e he => hne e.1 (List.mem_map_of_mem _ he))]
      rfl
    exact ⟨hcf, hc hcf⟩

theorem remove_absent_is_noop_witness :
    (Tree.mk (Node.nil : Node Int String) 0 none).root = .nil ∧
      (Tree.mk (Node.nil : Node Int String) 0 none).Remove 5 =
        .ok (Tree.mk (Node.nil : Node Int String) 0 none) ∧
      (Tree.mk (Node.node .black (.node .red .nil (1 : Int) "a" .nil) 2 "b" .nil) 2
        (some Compare)).Contains 3 = .ok false ∧
      (Tree.mk (Node.node .black (.node .red .nil (1 : Int) "a" .nil) 2 "b" .nil) 2
        (some Compare)).Remove 3 =
        .ok (Tree.mk (Node.node .black (.node .red .nil (1 : Int) "a" .nil) 2 "b" .nil) 2
          (some Compare)) ∧
      StrictTotalOrder Compare ∧
      BST Compare (Node.node .black (.node .red .nil (1 : Int) "a" .nil) 2 "b" .nil) ∧
      (∀ k ∈ (Node.node .black (.node .red .nil (1 : Int) "a" .nil) 2 "b" .nil).keys,
        Compare 3 k ≠ .Equal) :=
  ⟨rfl, (remove_absent_is_noop (Tree.mk (Node.nil : Node Int String) 0 none) 5).1 rfl, rfl,
    (remove_absent_is_noop (Tree.mk (Node.node .black (.node .red .nil (1 : Int) "a" .nil) 2 "b"
      .nil) 2 (some Compare)) 3).2.1 rfl,
    compare_strictTotalOrder, by decide, by decide⟩

/-! ## Where the code departs from the specification -/

/-- C4 (the code at the failing input): in the tree built by `Set` of 1:"a", 2:"b", 3:"c" the
node holding 2 has two children; `Remove(2)` copies its key and value into its successor, the
node holding 3, and unlinks that successor, so that afterwards `Contains(2)` is still true and
`TryGet(2)` still finds "b". -/
theorem remove_two_children_keeps_key :
    ∃ tree tree2, (New : Tree Int String).run [.Set 1 "a", .Set 2 "b", .Set 3 "c"] = .ok tree ∧
      tree.Remove 2 = .ok tree2 ∧ tree2.Contains 2 = .ok true ∧
      tree2.TryGet 2 = .ok ("b", true) :=
  ⟨_, _, rfl, rfl, rfl, rfl⟩

/-- C5 (the code at the failing input): in the tree built by `Set` of 1:"a", 2:"b", 3:"c",
`TryGet(3)` finds "c"; after `Remove(2)` it reports not found, and `Keys()` is `[1, 2]`: the
entry of the successor is the one that left the tree. -/
theorem remove_two_children_drops_successor :
    ∃ tree tree2, (New : Tree Int String).run [.Set 1 "a", .Set 2 "b", .Set 3 "c"] = .ok tree ∧
      tree.TryGet 3 = .ok ("c", true) ∧ tree.Remove 2 = .ok tree2 ∧
      tree2.TryGet 3 = .ok ("", false) ∧ tree2.Keys = .ok [1, 2] :=
  ⟨_, _, rfl, rfl, rfl, rfl, rfl⟩

/-- C9 (the code at the failing input): `Clear` drops the root and leaves the counter alone, so
that after `Set(1, "a")` and `Clear()` the tree is empty and `Size()` is still 1; on every tree
`Size()` after `Clear()` is `Size()` before it. -/
theorem clear_keeps_size :
    (∀ (K V : Type) (tree : Tree K V), tree.Clear.root = .nil ∧ tree.Clear.Size = tree.Size) ∧
    ∃ tree, (New : Tree Int String).Set 1 "a" = .ok tree ∧ tree.Clear.root = .nil ∧
      tree.Clear.Size = 1 :=
  ⟨fun _ _ _ => ⟨rfl, rfl⟩, _, rfl, rfl, rfl⟩

/-! ## `Get` and `GetRef` -/

/-- C11: for every tree and key, `Get(key)` and `GetRef(key)` fail with the missing-key failure
exactly when `Contains(key)` is false; when `Contains(key)` is true, `GetRef` returns the node
`GetNode` finds and `Get` returns the value `TryGet` returns with found = true.  `Get` and
`GetRef` assign to no field of the tree or of a node: a call, failing or not, is a function of
the tree and leaves it as it was. -/
theorem get_fails_iff_absent [Inhabited V] (tree : Tree K V) (key : K) :
    (tree.Get key = .error .missingKey ↔ tree.Contains key = .ok false) ∧
    (tree.GetRef key = .error .missingKey ↔ tree.Contains key = .ok false) ∧
    (tree.Contains key = .ok true ↔
      ∃ node, tree.GetRef key = .ok node ∧ tree.GetNode key = .ok (some node) ∧
        tree.Get key = .ok node.Value ∧ tree.TryGet key = .ok (node.Value, true)) := by
  unfold Tree.Get Tree.GetRef Tree.Contains Tree.TryGet PanicOnMissingKey
  cases hg : tree.GetNode key with
  | error e =>
    have hne : e ≠ .missingKey := by
      intro he
      subst he
      unfold Tree.GetNode at hg
      split at hg
      · cases hg
      · split at hg <;> cases hg
    simp [hne]
  | ok node =>
    cases node with
    | none => simp
    | some m => simp

/-! ## The contents of `Keys` -/

theorem lookup_isSome_iff (cmp : Comparator K) (key : K) (entries : List (K × V)) :
    (lookup cmp key entries).isSome = true ↔ ∃ e ∈ entries, cmp key e.1 = .Equal := by
  induction entries with
  | nil => simp [lookup]
  | cons a entries ih =>
    obtain ⟨k, v⟩ := a
    unfold lookup
    by_cases h : cmp key k = .Equal
    · simp [h]
    · simp [h, ih]

/-- C12: for every tree built from the empty tree by `Set` and `Remove` calls (none included),
under a comparator satisfying the contract, `Keys()` returns without indexing past the end of the
slice; the slice holds exactly the keys of the nodes in order, so its length is `Size()` and no
slot is left unfilled; `Contains(k)` is true exactly when the slice holds a key comparing equal to
`k`; and no two keys of the slice compare equal. -/
theorem keys_complete (K V : Type) [Inhabited K] (cmp : Comparator K)
    (ho : StrictTotalOrder cmp) (ops : List (Op K V)) :
    ∃ tree, (NewWithComparator cmp).run ops = .ok tree ∧
      ∃ keys, tree.Keys = .ok keys ∧ keys = tree.root.keys ∧
        (keys.length : Int) = tree.Size ∧
        (∀ k, tree.Contains k = .ok true ↔ ∃ k2 ∈ keys, cmp k k2 = .Equal) ∧
        keys.Pairwise (fun a b => cmp a b ≠ .Equal) := by
  obtain ⟨tree, h1, ⟨hcmp, -, hn⟩, h3⟩ := reached_run ops (reached_new (V := V) cmp)
  have hs : EntriesAscending cmp tree.root.toList :=
    h3 ho (by simp [NewWithComparator, Node.toList, EntriesAscending])
  refine ⟨tree, h1, tree.root.keys, keys_eq tree hn, rfl, ?_, fun k => ?_, ?_⟩
  · rw [Tree.Size, hn, size_eq_length]
    simp [Node.keys]
  · rw [contains_eq ho tree k hcmp hs]
    simp only [Except.ok.injEq, lookup_isSome_iff, Node.keys, List.mem_map]
    constructor
    · rintro ⟨e, he, h⟩
      exact ⟨e.1, ⟨e, he, rfl⟩, h⟩
    · rintro ⟨k2, ⟨e, he, rfl⟩, h⟩
      exact ⟨e, he, h⟩
  · have := (entriesAscending_iff _ _).1 hs
    exact List.Pairwise.imp (fun h => by rw [h]; simp) this

theorem keys_complete_witness :
    StrictTotalOrder Compare ∧
      ∃ tree, (NewWithComparator Compare : Tree Int String).run
          [.Set 2 "b", .Set 1 "a", .Set 3 "c", .Remove 1] = .ok tree ∧
        ∃ keys, tree.Keys = .ok keys ∧ keys = tree.root.keys ∧
          (keys.length : Int) = tree.Size ∧
          (∀ k, tree.Contains k = .ok true ↔ ∃ k2 ∈ keys, Compare k k2 = .Equal) ∧
          keys.Pairwise (fun a b => Compare a b ≠ .Equal) :=
  ⟨compare_strictTotalOrder, keys_complete Int String Compare compare_strictTotalOrder _⟩

/-! ## The height of the tree -/

/-- A subtree with a balance derivation of black height `n` has at least `2 ^ n - 1` nodes and
at most `2 * n` nodes on a path, one more when its root is red. -/
theorem bal_size_height {t : Node K V} {c : Color} {n : Nat} (h : Bal t c n) :
    2 ^ n ≤ t.size + 1 ∧ t.height ≤ 2 * n + (if c = .red then 1 else 0) := by
  induction h with
  | leaf => simp [Node.size, Node.height]
  | redNode _ _ ihl ihr =>
    simp only [Node.size, Node.height, if_true] at ihl ihr ⊢
    simp only [if_neg (show ¬ Color.black = Color.red by decide)] at ihl ihr
    refine ⟨by omega, ?_⟩
    have := max_le ihl.2 ihr.2
    omega
  | @blackNode l r k v cl cr n _ _ ihl ihr =>
    simp only [Node.size, Node.height] at ihl ihr ⊢
    simp only [if_neg (show ¬ Color.black = Color.red by decide)]
    refine ⟨by rw [pow_succ]; omega, ?_⟩
    have h1 : l.height ≤ 2 * n + 1 := by
      have := ihl.2; split at this <;> omega
    have h2 : r.height ≤ 2 * n + 1 := by
      have := ihr.2; split at this <;> omega
    have := max_le h1 h2
    omega

/-- C15: for every tree reached from the empty tree by a sequence of `Set` and `Remove` calls,
with `N` nodes and height `h` (the number of nodes on the longest path from the root down to a
nil link), `2 ^ h ≤ (N + 1) ^ 2`, which is `h ≤ 2 * log2 (N + 1)`. -/
theorem height_bound (cmp : Comparator K) (ops : List (Op K V)) :
    ∃ tree, (NewWithComparator cmp).run ops = .ok tree ∧
      2 ^ tree.root.height ≤ (tree.root.size + 1) ^ 2 := by
  obtain ⟨tree, h1, ⟨-, ⟨n, hbal⟩, -⟩, -⟩ := reached_run ops (reached_new (V := V) cmp)
  refine ⟨tree, h1, ?_⟩
  obtain ⟨hs, hh⟩ := bal_size_height hbal
  simp only [if_neg (show ¬ Color.black = Color.red by decide), Nat.add_zero] at hh
  calc 2 ^ tree.root.height ≤ 2 ^ (2 * n) := Nat.pow_le_pow_right (by omega) hh
    _ = (2 ^ n) ^ 2 := by rw [Nat.mul_comm, Nat.pow_mul]
    _ ≤ (tree.root.size + 1) ^ 2 := Nat.pow_le_pow_left hs 2

/-! ## `Next` as the in-order successor -/

theorem firstLeftAncestor_tree {t : Node K V} {p : Path K V} {n : NodeRef K V}
    (h : Path.firstLeftAncestor t p = some n) : n.tree = p.fill t := by
  induction p generalizing t with
  | root => simp [Path.firstLeftAncestor] at h
  | left c up k v r _ =>
    simp only [Path.firstLeftAncestor, Option.some.injEq] at h
    subst h
    rfl
  | right c l k v up ih =>
    simp only [Path.firstLeftAncestor] at h
    exact ih h

/-- `Next` answers a node of the same tree. -/
theorem next_tree {m n : NodeRef K V} (h : m.Next = some n) : n.tree = m.tree := by
  unfold NodeRef.Next at h
  cases hr : m.rightChild.isNil with
  | true =>
    rw [hr] at h
    simp only [if_true] at h
    exact firstLeftAncestor_tree h
  | false =>
    rw [hr] at h
    simp only [Bool.false_eq_true, if_false] at h
    obtain ⟨ref, h1, -, -, -, h5, -⟩ :=
      min_spec m.rightChild (.right m.color m.leftChild m.key m.Value m.path) hr
    rw [h1, Option.some.injEq] at h
    subst h
    exact h5

theorem tree_toList (m : NodeRef K V) :
    m.tree.toList = m.passed ++ (m.key, m.Value) :: remaining m.Next := by
  rw [remaining_next]
  simp [NodeRef.tree, NodeRef.node, NodeRef.passed, toList_fill, Node.toList]

theorem remaining_eq_nil {cur : Option (NodeRef K V)} : remaining cur = [] ↔ cur = none := by
  cases cur <;> simp [remaining]

theorem remaining_head (cur : Option (NodeRef K V)) :
    cur.map (fun m => (m.key, m.Value)) = (remaining cur).head? := by
  cases cur <;> simp [remaining]

theorem min_tree {t : Node K V} {m : NodeRef K V} (h : Node.Min t .root = some m) :
    m.tree = t := by
  cases t with
  | nil => simp [Node.Min] at h
  | node c l k v r =>
    obtain ⟨ref, h1, -, -, -, h5, -⟩ := min_spec (.node c l k v r) .root rfl
    rw [h1, Option.some.injEq] at h
    subst h
    exact h5

/-- The iterator after `i` moves has the entries from the `i`-th on still to visit, and stands
on a node of the tree. -/
theorem remaining_iterate (tree : Tree K V) (i : Nat) :
    remaining (Nat.iterate Iterator.Move i tree.MapIterator).current = tree.root.toList.drop i ∧
      ∀ m, (Nat.iterate Iterator.Move i tree.MapIterator).current = some m →
        m.tree = tree.root := by
  induction i with
  | zero =>
    exact ⟨by simpa using remaining_min_root tree.root, fun m h => min_tree h⟩
  | succ i ih =>
    rw [Function.iterate_succ_apply']
    obtain ⟨ih1, ih2⟩ := ih
    cases hc : (Nat.iterate Iterator.Move i tree.MapIterator).current with
    | none =>
      rw [hc] at ih1
      have hd : tree.root.toList.drop (i + 1) = [] := by
        have h0 : tree.root.toList.drop i = [] := by rw [← ih1]; rfl
        rw [List.drop_eq_nil_iff] at h0 ⊢
        omega
      simp [Iterator.Move, hc, hd, remaining]
    | some m =>
      rw [hc] at ih1
      have hmove : (Iterator.Move (Nat.iterate Iterator.Move i tree.MapIterator)).current =
          m.Next := by simp [Iterator.Move, hc]
      rw [hmove]
      refine ⟨?_, fun n hn => (next_tree hn).trans (ih2 m hc)⟩
      rw [remaining_next]
      have : tree.root.toList.drop (i + 1) = (tree.root.toList.drop i).tail := by simp
      rw [this, ← ih1]
      simp [remaining]

/-- C16: in a tree that satisfies the binary-search-tree property under a comparator satisfying
the contract, for every node `m` of the tree: `m.Next()` is nil exactly when no key of the tree
is bigger than the key of `m`; otherwise it is a node of the same tree whose key is bigger than
the key of `m` and not bigger than any other key of the tree that is bigger than the key of `m`.
Starting at `root.Min()`, the iterator after `i` moves stands on the node holding the `i`-th entry
of the in-order sequence, whose keys are strictly ascending, and is exhausted from the number of
nodes on. -/
theorem next_is_successor (cmp : Comparator K) (ho : StrictTotalOrder cmp) (tree : Tree K V)
    (hbst : BST cmp tree.root) :
    (∀ m : NodeRef K V, m.tree = tree.root →
      (m.Next = none ↔ ∀ k ∈ tree.root.keys, cmp k m.key ≠ .FirstBigger) ∧
      (∀ n, m.Next = some n → n.tree = tree.root ∧ cmp m.key n.key = .FirstSmaller ∧
        ∀ k ∈ tree.root.keys, cmp m.key k = .FirstSmaller → cmp n.key k ≠ .FirstBigger)) ∧
    StrictlyAscending cmp tree.root.keys ∧
    (∀ i, ((Nat.iterate Iterator.Move i tree.MapIterator).current.map
        fun m => (m.key, m.Value)) = tree.root.toList[i]?) ∧
    (∀ i, tree.root.size ≤ i →
      (Nat.iterate Iterator.Move i tree.MapIterator).Valid = false) := by
  have hs : EntriesAscending cmp tree.root.toList := (bst_iff ho _).1 hbst
  refine ⟨fun m hm => ?_, (entriesAscending_iff _ _).1 hs, fun i => ?_, fun i hi => ?_⟩
  · have hl := tree_toList m
    rw [hm] at hl
    rw [hl] at hs
    obtain ⟨hP, hR, hPR⟩ := List.pairwise_append.1 hs
    have hkeys : ∀ k, k ∈ tree.root.keys ↔
        ∃ e, (e ∈ m.passed ∨ e = (m.key, m.Value) ∨ e ∈ remaining m.Next) ∧ e.1 = k := by
      intro k
      simp only [Node.keys, hl, List.mem_map, List.mem_append, List.mem_cons]
    have hpassed : ∀ e ∈ m.passed, cmp e.1 m.key = .FirstSmaller :=
      fun e he => hPR e he (m.key, m.Value) (List.mem_cons_self _ _)
    constructor
    · constructor
      · intro hnone k hk
        obtain ⟨e, he, rfl⟩ := (hkeys k).1 hk
        rw [hnone] at he
        rcases he with he | rfl | he
        · rw [hpassed e he]; simp
        · rw [cmp_refl ho]; simp
        · simp [remaining] at he
      · intro hmax
        cases hn : m.Next with
        | none => rfl
        | some n =>
          exfalso
          rw [hn] at hR
          have h1 : cmp m.key n.key = .FirstSmaller :=
            (List.pairwise_cons.1 hR).1 (n.key, n.Value) (by simp [remaining])
          exact hmax n.key ((hkeys n.key).2 ⟨(n.key, n.Value), by simp [hn, remaining], rfl⟩)
            ((ho.swap _ _).1 h1)
    · intro n hn
      rw [hn] at hR hkeys
      have hlt := List.pairwise_cons.1 hR
      have hR2 : EntriesAscending cmp (remaining (some n)) := hlt.2
      refine ⟨(next_tree hn).trans hm, hlt.1 (n.key, n.Value) (by simp [remaining]),
        fun k hk hbig => ?_⟩
      obtain ⟨e, he, rfl⟩ := (hkeys k).1 hk
      rcases he with he | rfl | he
      · have := (ho.swap _ _).1 (hpassed e he)
        rw [hbig] at this
        cases this
      · rw [cmp_refl ho] at hbig
        cases hbig
      · have he2 : e = (n.key, n.Value) ∨ e ∈ n.rightChild.toList ++ n.path.after := by
          simpa [remaining] using he
        rcases he2 with rfl | he2
        · rw [cmp_refl ho]; simp
        · have : cmp n.key e.1 = .FirstSmaller :=
            (List.pairwise_cons.1 hR2).1 e (by simpa using he2)
          rw [this]
          simp
  · rw [remaining_head, (remaining_iterate tree i).1]
    simp [List.head?_drop]
  · have h1 := (remaining_iterate tree i).1
    have hd : tree.root.toList.drop i = [] := by
      rw [List.drop_eq_nil_iff, ← size_eq_length]
      exact hi
    rw [hd, remaining_eq_nil] at h1
    simp [Iterator.Valid, h1]

theorem next_is_successor_witness :
    StrictTotalOrder Compare ∧
      BST Compare (Tree.mk (Node.node .black (.node .red .nil (1 : Int) "a" .nil) 2 "b"
        (.node .red .nil 3 "c" .nil)) 3 (some Compare)).root ∧
      ((∀ m : NodeRef Int String,
        m.tree = (Tree.mk (Node.node .black (.node .red .nil (1 : Int) "a" .nil) 2 "b"
          (.node .red .nil 3 "c" .nil)) 3 (some Compare)).root →
        (m.Next = none ↔
          ∀ k ∈ (Tree.mk (Node.node .black (.node .red .nil (1 : Int) "a" .nil) 2 "b"
            (.node .red .nil 3 "c" .nil)) 3 (some Compare)).root.keys,
            Compare k m.key ≠ .FirstBigger) ∧
        (∀ n, m.Next = some n →
          n.tree = (Tree.mk (Node.node .black (.node .red .nil (1 : Int) "a" .nil) 2 "b"
            (.node .red .nil 3 "c" .nil)) 3 (some Compare)).root ∧
          Compare m.key n.key = .FirstSmaller ∧
          ∀ k ∈ (Tree.mk (Node.node .black (.node .red .nil (1 : Int) "a" .nil) 2 "b"
            (.node .red .nil 3 "c" .nil)) 3 (some Compare)).root.keys,
            Compare m.key k = .FirstSmaller → Compare n.key k ≠ .FirstBigger)) ∧
      StrictlyAscending Compare
        (Tree.mk (Node.node .black (.node .red .nil (1 : Int) "a" .nil) 2 "b"
          (.node .red .nil 3 "c" .nil)) 3 (some Compare)).root.keys ∧
      (∀ i, ((Nat.iterate Iterator.Move i
          (Tree.mk (Node.node .black (.node .red .nil (1 : Int) "a" .nil) 2 "b"
            (.node .red .nil 3 "c" .nil)) 3 (some Compare)).MapIterator).current.map
          fun m => (m.key, m.Value)) =
        (Tree.mk (Node.node .black (.node .red .nil (1 : Int) "a" .nil) 2 "b"
          (.node .red .nil 3 "c" .nil)) 3 (some Compare)).root.toList[i]?) ∧
      (∀ i, (Tree.mk (Node.node .black (.node .red .nil (1 : Int) "a" .nil) 2 "b"
          (.node .red .nil 3 "c" .nil)) 3 (some Compare)).root.size ≤ i →
        (Nat.iterate Iterator.Move i
          (Tree.mk (Node.node .black (.node .red .nil (1 : Int) "a" .nil) 2 "b"
            (.node .red .nil 3 "c" .nil)) 3 (some Compare)).MapIterator).Valid = false)) :=
  ⟨compare_strictTotalOrder, by decide,
    next_is_successor Compare compare_strictTotalOrder _ (by decide)⟩

/-! ## The zero value and the scenario of section 8 -/

/-- C17 (the code at the failing input): on the zero value of `Tree` the first `Set` returns,
since it does not call the comparator; the tree then has a root and no comparator, and a second
`Set`, `Contains`, `TryGet` and `Remove` all call the nil comparator and fail. -/
theorem zero_value_second_set_fails :
    ∃ tree, (ZeroValue : Tree Int String).Set 1 "a" = .ok tree ∧
      tree.Set 2 "b" = .error .nilDereference ∧
      tree.Contains 1 = .error .nilDereference ∧
      tree.TryGet 1 = .error .nilDereference ∧
      tree.Remove 1 = .error .nilDereference :=
  ⟨_, rfl, rfl, rfl, rfl, rfl⟩

/-- C18 (the claim at its input): after `Set` of 10, 20, 30, 40, 50, 25 into an empty tree with
the ascending comparator, `Root()` holds the key 20. -/
theorem root_holds_20 :
    ∃ tree, (New : Tree Int String).run [.Set 10 "", .Set 20 "", .Set 30 "", .Set 40 "",
        .Set 50 "", .Set 25 ""] = .ok tree ∧
      ∃ c l v r, tree.Root = .node c l 20 v r :=
  ⟨_, rfl, _, _, _, _, rfl⟩

/-- C18, amended: in the run of `Set` of 10, 20, 30, 40, 50, 25 on an empty tree with the
ascending comparator, the node holding 20 is not the root after the first two calls (the root
holds 10 and 20 is its right child); the fixup triggered by inserting 30 rotates it into the
root, and it is the root after the six calls, with the keys in order. -/
theorem insert_30_rotates_20_into_root :
    ∃ tree2 tree3 tree6,
      (New : Tree Int String).run [.Set 10 "", .Set 20 ""] = .ok tree2 ∧
      tree2.Root = .node .black .nil 10 "" (.node .red .nil 20 "" .nil) ∧
      tree2.run [.Set 30 ""] = .ok tree3 ∧
      tree3.Root = .node .black (.node .red .nil 10 "" .nil) 20 "" (.node .red .nil 30 "" .nil) ∧
      tree3.run [.Set 40 "", .Set 50 "", .Set 25 ""] = .ok tree6 ∧
      (∃ c l v r, tree6.Root = .node c l 20 v r) ∧
      tree6.Keys = .ok [10, 20, 25, 30, 40, 50] :=
  ⟨_, _, _, rfl, rfl, rfl, rfl, rfl, ⟨_, _, _, _, rfl⟩, rfl⟩

/-! ## The recursion of `removeNode` and termination -/

theorem removeNode_fuel (fuel : Nat) (tree : Tree K V) (m : NodeRef K V)
    (h : m.leftChild.isNil = true ∨ m.rightChild.isNil = true) :
    Tree.removeNode fuel tree m = Tree.removeNode 0 tree m := by
  have hc : (!m.leftChild.isNil && !m.rightChild.isNil) = false := by
    rcases h with h | h <;> simp [h]
  cases fuel with
  | zero => rfl
  | succ f =>
    conv_lhs => rw [Tree.removeNode]
    conv_rhs => rw [Tree.removeNode]
    simp only [hc, Bool.false_eq_true, if_false]

/-- C19: for every node with two children, in any tree, its in-order successor `Next()` exists,
is a node of the same tree and has no left child; so the recursive call of `removeNode` is on a
node with at most one child and recurses no further: whatever fuel is left, it does what the
call without any fuel for recursion does.  The binary-search-tree property is not needed. -/
theorem successor_has_no_left_child (tree : Tree K V) (m : NodeRef K V)
    (hl : m.leftChild.isNil = false) (hr : m.rightChild.isNil = false) :
    ∃ next, m.Next = some next ∧ next.leftChild = .nil ∧ next.tree = m.tree ∧
      ∀ fuel, Tree.removeNode (fuel + 1) tree m =
        Tree.removeNode 0 tree { next with key := m.key, Value := m.Value } := by
  obtain ⟨next, hmin, hnl, -, -, -, -⟩ :=
    min_spec m.rightChild (.right m.color m.leftChild m.key m.Value m.path) hr
  have hnext : m.Next = some next := by simp [NodeRef.Next, hr, hmin]
  refine ⟨next, hnext, hnl, next_tree hnext, fun fuel => ?_⟩
  rw [removeNode_twoChildren _ _ _ hl hr, hnext]
  exact removeNode_fuel _ _ _ (.inl (by simp [hnl, Node.isNil]))

theorem successor_has_no_left_child_witness :
    (NodeRef.mk .black (.node .red .nil (1 : Int) "a" .nil) 2 "b" (.node .red .nil 3 "c" .nil)
        .root).leftChild.isNil = false ∧
      (NodeRef.mk .black (.node .red .nil (1 : Int) "a" .nil) 2 "b" (.node .red .nil 3 "c" .nil)
        .root).rightChild.isNil = false ∧
      ∃ next, (NodeRef.mk .black (.node .red .nil (1 : Int) "a" .nil) 2 "b"
          (.node .red .nil 3 "c" .nil) .root).Next = some next ∧ next.leftChild = .nil ∧
        next.tree = (NodeRef.mk .black (.node .red .nil (1 : Int) "a" .nil) 2 "b"
          (.node .red .nil 3 "c" .nil) .root).tree ∧
        ∀ fuel, Tree.removeNode (fuel + 1) (New : Tree Int String)
            (NodeRef.mk .black (.node .red .nil (1 : Int) "a" .nil) 2 "b"
              (.node .red .nil 3 "c" .nil) .root) =
          Tree.removeNode 0 (New : Tree Int String)
            { next with
              key := (NodeRef.mk .black (.node .red .nil (1 : Int) "a" .nil) 2 "b"
                (.node .red .nil 3 "c" .nil) .root).key,
              Value := (NodeRef.mk .black (.node .red .nil (1 : Int) "a" .nil) 2 "b"
                (.node .red .nil 3 "c" .nil) .root).Value } :=
  ⟨rfl, rfl, successor_has_no_left_child _ _ rfl rfl⟩

theorem descend_depth {cmp : Comparator K} {key : K} {t t2 : Node K V} {p q : Path K V}
    (h : descend cmp key t p = (t2, q)) : q.depth + t2.height ≤ p.depth + t.height := by
  induction t generalizing p with
  | nil => simp [descend] at h; obtain ⟨rfl, rfl⟩ := h; exact le_refl _
  | node c2 l2 k2 v2 r2 ihl ihr =>
    unfold descend at h
    cases hc : cmp key k2 with
    | FirstSmaller =>
      rw [hc] at h
      have := ihl h
      simp only [Path.depth, Node.height] at this ⊢
      have := le_max_left l2.height r2.height
      omega
    | FirstBigger =>
      rw [hc] at h
      have := ihr h
      simp only [Path.depth, Node.height] at this ⊢
      have := le_max_right l2.height r2.height
      omega
    | Equal => rw [hc] at h; simp at h; obtain ⟨rfl, rfl⟩ := h; exact le_refl _

/-- C20: on every tree that holds a comparator (whose answers are the three values of `Result`)
and satisfies the colour invariants, `GetNode`, `Contains`, `TryGet`, `Set` and `Remove` return,
and `Get` returns a value or fails with the missing-key failure: no loop runs out of the fuel of
the model (the deletion fixup loop has two rounds for each ancestor and two more, the recursion
of `removeNode` one level for each node).  The node `GetNode` finds has fewer ancestors than the
tree has levels: the descent visits at most one node on each level. -/
theorem operations_terminate [Inhabited V] (tree : Tree K V) (cmp : Comparator K) (key : K)
    (value : V) (hcmp : tree.comparator = some cmp) (hinv : ColourInvariants tree.root) :
    (∃ node, tree.GetNode key = .ok node ∧
      ∀ m, node = some m → m.path.depth < tree.root.height) ∧
    (∃ b, tree.Contains key = .ok b) ∧
    (∃ r, tree.TryGet key = .ok r) ∧
    (tree.Get key = .error .missingKey ∨ ∃ v, tree.Get key = .ok v) ∧
    (∃ tree2, tree.Set key value = .ok tree2) ∧
    (∃ tree2, tree.Remove key = .ok tree2) := by
  have hg := getNode_eq tree cmp key hcmp
  refine ⟨⟨_, hg, fun m hm => ?_⟩, ?_, ?_, ?_, ⟨_, set_eq tree cmp key value hcmp⟩, ?_⟩
  · obtain ⟨hd, -, -, -, -⟩ := getNode_loop_some hm
    have := descend_depth hd
    simp only [NodeRef.node, Node.height, Path.depth] at this
    omega
  · unfold Tree.Contains
    rw [hg]
    exact ⟨_, rfl⟩
  · unfold Tree.TryGet
    rw [hg]
    cases GetNode.loop cmp key tree.root .root with
    | none => exact ⟨_, rfl⟩
    | some m => exact ⟨_, rfl⟩
  · unfold Tree.Get Tree.GetRef PanicOnMissingKey
    rw [hg]
    cases GetNode.loop cmp key tree.root .root with
    | none => exact .inl rfl
    | some m => exact .inr ⟨_, rfl⟩
  · obtain ⟨n, hbal⟩ := (colourInvariants_iff _).1 hinv
    rcases remove_spec tree cmp key hcmp hbal with ⟨-, h⟩ | ⟨m, R, -, h, -⟩
    · exact ⟨_, h⟩
    · exact ⟨_, h⟩

theorem operations_terminate_witness :
    (Tree.mk (Node.node .black (.node .red .nil (1 : Int) "a" .nil) 2 "b"
        (.node .red .nil 3 "c" .nil)) 3 (some Compare)).comparator = some Compare ∧
      ColourInvariants (Tree.mk (Node.node .black (.node .red .nil (1 : Int) "a" .nil) 2 "b"
        (.node .red .nil 3 "c" .nil)) 3 (some Compare)).root ∧
      (∃ node, (Tree.mk (Node.node .black (.node .red .nil (1 : Int) "a" .nil) 2 "b"
          (.node .red .nil 3 "c" .nil)) 3 (some Compare)).GetNode 3 = .ok node ∧
        ∀ m, node = some m → m.path.depth <
          (Tree.mk (Node.node .black (.node .red .nil (1 : Int) "a" .nil) 2 "b"
            (.node .red .nil 3 "c" .nil)) 3 (some Compare)).root.height) ∧
      (∃ b, (Tree.mk (Node.node .black (.node .red .nil (1 : Int) "a" .nil) 2 "b"
          (.node .red .nil 3 "c" .nil)) 3 (some Compare)).Contains 3 = .ok b) ∧
      (∃ r, (Tree.mk (Node.node .black (.node .red .nil (1 : Int) "a" .nil) 2 "b"
          (.node .red .nil 3 "c" .nil)) 3 (some Compare)).TryGet 3 = .ok r) ∧
      ((Tree.mk (Node.node .black (.node .red .nil (1 : Int) "a" .nil) 2 "b"
          (.node .red .nil 3 "c" .nil)) 3 (some Compare)).Get 3 = .error .missingKey ∨
        ∃ v, (Tree.mk (Node.node .black (.node .red .nil (1 : Int) "a" .nil) 2 "b"
          (.node .red .nil 3 "c" .nil)) 3 (some Compare)).Get 3 = .ok v) ∧
      (∃ tree2, (Tree.mk (Node.node .black (.node .red .nil (1 : Int) "a" .nil) 2 "b"
          (.node .red .nil 3 "c" .nil)) 3 (some Compare)).Set 3 "z" = .ok tree2) ∧
      (∃ tree2, (Tree.mk (Node.node .black (.node .red .nil (1 : Int) "a" .nil) 2 "b"
          (.node .red .nil 3 "c" .nil)) 3 (some Compare)).Remove 3 = .ok tree2) :=
  ⟨rfl, by decide, operations_terminate _ Compare 3 "z" rfl (by decide)⟩

/-! ## `Clone` -/

/-- C13 (the code at the failing input): the loop of `Clone` pops the deque of the new tree in
every round and pushes on it only once, before the loop.  In the tree built by `Set` of 10, 20,
30, 40 (root 20 with children 10 and 30, and 40 under 30) the second round pops it empty: when
`PopFront` panics on an empty deque `Clone` fails there, and when it answers nil `Clone` fails
one round later, linking the copy of 40 under a nil node.  On a tree with a single node `Clone`
returns the copy with the same counter and comparator. -/
theorem clone_fails_below_the_root :
    (∃ tree, (New : Tree Int String).run [.Set 10 "", .Set 20 "", .Set 30 "", .Set 40 ""] =
        .ok tree ∧
      tree.root = .node .black (.node .black .nil 10 "" .nil) 20 ""
        (.node .black .nil 30 "" (.node .red .nil 40 "" .nil)) ∧
      (∀ e, tree.Clone (.panics e) = .error e) ∧
      tree.Clone .answersNil = .error .nilDereference) ∧
    (∀ emptyPop, (Tree.mk (Node.node .black .nil (1 : Int) "a" .nil) 1 (some Compare)).Clone
        emptyPop = .ok (Tree.mk (Node.node .black .nil (1 : Int) "a" .nil) 1 (some Compare))) :=
  ⟨⟨_, rfl, rfl, fun _ => rfl, rfl⟩, fun _ => rfl⟩

/-! ## `Set` and the other entries -/

/-- C21: for every tree that holds a comparator satisfying the contract and satisfies the
binary-search-tree property, every key `k`, value `v` and every key `k2` that does not compare
equal to `k`, `Set(k, v)` returns and `TryGet(k2)` returns afterwards the same (value, found)
pair as before: inserting or overwriting one key, with the rotations and recolourings of
insertion fixup, neither loses nor adds nor changes any other entry. -/
theorem set_keeps_other_entries [Inhabited V] (tree : Tree K V) (cmp : Comparator K)
    (key : K) (value : V) (key2 : K) (ho : StrictTotalOrder cmp)
    (hcmp : tree.comparator = some cmp) (hbst : BST cmp tree.root)
    (hne : cmp key2 key ≠ .Equal) :
    ∃ tree2, tree.Set key value = .ok tree2 ∧ tree2.TryGet key2 = tree.TryGet key2 := by
  have hs := (bst_iff ho _).1 hbst
  obtain ⟨tree2, h1, h2, h3, -, h5⟩ := set_ordered tree cmp key value hcmp ho hs
  refine ⟨tree2, h1, ?_⟩
  rw [tryGet_eq ho tree2 key2 h2 h3, tryGet_eq ho tree key2 hcmp hs, h5 key2 hne]

theorem set_keeps_other_entries_witness :
    StrictTotalOrder Compare ∧
      BST Compare (Node.node .black (.node .red .nil (1 : Int) "a" .nil) 2 "b"
        (.node .red .nil 3 "c" .nil)) ∧
      Compare 1 4 ≠ .Equal ∧
      ∃ tree2, (Tree.mk (Node.node .black (.node .red .nil (1 : Int) "a" .nil) 2 "b"
          (.node .red .nil 3 "c" .nil)) 3 (some Compare)).Set 4 "d" = .ok tree2 ∧
        tree2.TryGet 1 = (Tree.mk (Node.node .black (.node .red .nil (1 : Int) "a" .nil) 2 "b"
          (.node .red .nil 3 "c" .nil)) 3 (some Compare)).TryGet 1 :=
  ⟨compare_strictTotalOrder, by decide, by decide,
    set_keeps_other_entries _ Compare 4 "d" 1 compare_strictTotalOrder rfl (by decide)
      (by decide)⟩

end rbt

/-! ## The linked list: `GetNode`, `Reverse`, `Join` -/

namespace linkedlist

open rbt (Failure)

variable {T : Type}

theorem chain_length {link : Node T → Option Nat} {heap : Heap T} {curr : Option Nat}
    {addrs : List Nat} {values : List T} (h : Chain link heap curr addrs values) :
    addrs.length = values.length := by
  induction addrs generalizing curr values with
  | nil => cases values <;> simp_all [Chain]
  | cons a addrs ih =>
    cases values with
    | nil => simp [Chain] at h
    | cons x values =>
      simp only [Chain] at h
      obtain ⟨-, h⟩ := h
      split at h
      · exact h.elim
      · simpa using ih h.2

theorem chain_head {link : Node T → Option Nat} {heap : Heap T} {curr : Option Nat}
    {addrs : List Nat} {values : List T} (h : Chain link heap curr addrs values) :
    curr = addrs[0]? := by
  cases addrs with
  | nil => cases values <;> simp_all [Chain]
  | cons a addrs =>
    cases values with
    | nil => simp [Chain] at h
    | cons x values => simpa using h.1

/-- The `i`-th cell of a chain is a cell of the heap and holds the `i`-th value. -/
theorem chain_get {link : Node T → Option Nat} {heap : Heap T} {curr : Option Nat}
    {addrs : List Nat} {values : List T} (h : Chain link heap curr addrs values) (i : Nat)
    (hi : i < addrs.length) :
    ∃ a node, addrs[i]? = some a ∧ heap[a]? = some node ∧ values[i]? = some node.Value := by
  induction addrs generalizing curr values i with
  | nil => simp at hi
  | cons a addrs ih =>
    cases values with
    | nil => simp [Chain] at h
    | cons x values =>
      simp only [Chain] at h
      obtain ⟨-, h⟩ := h
      cases hn : heap[a]? with
      | none => rw [hn] at h; exact h.elim
      | some node =>
        rw [hn] at h
        cases i with
        | zero => exact ⟨a, node, by simp, hn, by simp [h.1]⟩
        | succ i =>
          obtain ⟨b, node2, h1, h2, h3⟩ := ih h.2 i (by simpa using hi)
          exact ⟨b, node2, by simpa using h1, h2, by simpa using h3⟩

theorem walkNext_chain {heap : Heap T} {curr : Option Nat} {addrs : List Nat}
    {values : List T} (h : Chain Node.next heap curr addrs values) (k : Nat)
    (hk : k ≤ addrs.length) : walkNext heap k curr = .ok addrs[k]? := by
  induction k generalizing curr addrs values with
  | zero => rw [walkNext, chain_head h]
  | succ k ih =>
    cases addrs with
    | nil => simp at hk
    | cons a addrs =>
      cases values with
      | nil => simp [Chain] at h
      | cons x values =>
        simp only [Chain] at h
        obtain ⟨rfl, h⟩ := h
        cases hn : heap[a]? with
        | none => rw [hn] at h; exact h.elim
        | some node =>
          rw [hn] at h
          have := ih h.2 (by simpa using hk)
          simpa [walkNext, Heap.read, hn] using this

theorem walkPrev_chain {heap : Heap T} {curr : Option Nat} {addrs : List Nat}
    {values : List T} (h : Chain Node.prev heap curr addrs values) (k : Nat)
    (hk : k ≤ addrs.length) : walkPrev heap k curr = .ok addrs[k]? := by
  induction k generalizing curr addrs values with
  | zero => rw [walkPrev, chain_head h]
  | succ k ih =>
    cases addrs with
    | nil => simp at hk
    | cons a addrs =>
      cases values with
      | nil => simp [Chain] at h
      | cons x values =>
        simp only [Chain] at h
        obtain ⟨rfl, h⟩ := h
        cases hn : heap[a]? with
        | none => rw [hn] at h; exact h.elim
        | some node =>
          rw [hn] at h
          have := ih h.2 (by simpa using hk)
          simpa [walkPrev, Heap.read, hn] using this

/-- C24: for every well-formed linked list of `n` cells and every index `i`: `GetNode(i)` fails
with the index-out-of-bounds error exactly when `i ≥ n` or `i < -n`; for `0 ≤ i < n` it returns
the `i`-th cell counted from the head, which holds the `i`-th value; and for `-n ≤ i < 0` it
returns what `GetNode(n + i)` returns, so that `-1` is the tail. -/
theorem getNode_by_index (heap : Heap T) (list : LinkedList) (addrs : List Nat)
    (values : List T) (h : Represents heap list addrs values) (index : Int) :
    (list.GetNode heap index = .error .indexOutOfBounds ↔
      (index ≥ values.length ∨ index < -(values.length : Int))) ∧
    (0 ≤ index → index < values.length →
      list.GetNode heap index = .ok addrs[index.toNat]? ∧
      ∃ a node, addrs[index.toNat]? = some a ∧ heap[a]? = some node ∧
        values[index.toNat]? = some node.Value) ∧
    (-(values.length : Int) ≤ index → index < 0 →
      list.GetNode heap index = list.GetNode heap (values.length + index) ∧
      (index = -1 → list.GetNode heap index = .ok list.tail)) := by
  obtain ⟨hsize, -, hnext, hprev⟩ := h
  have hlen := chain_length hnext
  have hpos : ∀ i : Int, 0 ≤ i → i < values.length →
      list.GetNode heap i = .ok addrs[i.toNat]? := by
    intro i h0 h1
    unfold LinkedList.GetNode
    rw [if_neg (by rw [hsize]; omega)]
    by_cases hz : i = 0
    · subst hz
      simp [chain_head hnext]
    · rw [if_neg hz, if_pos (by omega)]
      exact walkNext_chain hnext _ (by omega)
  have hneg : ∀ i : Int, -(values.length : Int) ≤ i → i < 0 →
      list.GetNode heap i = .ok addrs.reverse[(-1 - i).toNat]? := by
    intro i h0 h1
    unfold LinkedList.GetNode
    rw [if_neg (by rw [hsize]; omega), if_neg (by omega), if_neg (by omega)]
    exact walkPrev_chain hprev _ (by simp; omega)
  refine ⟨?_, fun h0 h1 => ⟨hpos index h0 h1, chain_get hnext _ (by omega)⟩,
    fun h0 h1 => ⟨?_, fun hm => ?_⟩⟩
  · constructor
    · intro he
      by_contra hc
      by_cases h0 : 0 ≤ index
      · rw [hpos index h0 (by omega)] at he
        cases he
      · rw [hneg index (by omega) (by omega)] at he
        cases he
    · intro hc
      unfold LinkedList.GetNode
      rw [if_pos (by rw [hsize]; omega)]
      rfl
  · rw [hneg index h0 h1, hpos _ (by omega) (by omega),
      List.getElem?_reverse (by omega)]
    congr 2
    omega
  · subst hm
    rw [hneg _ h0 h1, chain_head hprev]
    rfl

theorem getNode_by_index_witness :
    Represents ([⟨10, none, some 1⟩, ⟨20, some 0, some 2⟩, ⟨30, some 1, none⟩] : Heap Int)
        ⟨some 0, some 2, 3⟩ [0, 1, 2] [10, 20, 30] ∧
      LinkedList.GetNode
          ([⟨10, none, some 1⟩, ⟨20, some 0, some 2⟩, ⟨30, some 1, none⟩] : Heap Int)
          ⟨some 0, some 2, 3⟩ (-1) =
        LinkedList.GetNode
          ([⟨10, none, some 1⟩, ⟨20, some 0, some 2⟩, ⟨30, some 1, none⟩] : Heap Int)
          ⟨some 0, some 2, 3⟩ (([10, 20, 30] : List Int).length + -1) ∧
      LinkedList.GetNode
          ([⟨10, none, some 1⟩, ⟨20, some 0, some 2⟩, ⟨30, some 1, none⟩] : Heap Int)
          ⟨some 0, some 2, 3⟩ (-1) = .ok (some 2) :=
  ⟨by decide,
    ((getNode_by_index _ _ [0, 1, 2] [10, 20, 30] (by decide) (-1)).2.2 (by decide)
      (by decide)).1, rfl⟩

/-- Cells that agree on the value and on the link followed carry a chain over to another heap
and another link. -/
theorem chain_transfer {link link2 : Node T → Option Nat} {heap heap2 : Heap T}
    {curr : Option Nat} {addrs : List Nat} {values : List T}
    (h : Chain link heap curr addrs values)
    (hcells : ∀ a ∈ addrs, ∀ node, heap[a]? = some node →
      ∃ node2, heap2[a]? = some node2 ∧ node2.Value = node.Value ∧ link2 node2 = link node) :
    Chain link2 heap2 curr addrs values := by
  induction addrs generalizing curr values with
  | nil => cases values <;> simp_all [Chain]
  | cons a addrs ih =>
    cases values with
    | nil => simp [Chain] at h
    | cons x values =>
      simp only [Chain] at h ⊢
      obtain ⟨hc, h⟩ := h
      cases hn : heap[a]? with
      | none => rw [hn] at h; exact h.elim
      | some node =>
        rw [hn] at h
        obtain ⟨node2, h1, h2, h3⟩ := hcells a (List.mem_cons_self _ _) node hn
        rw [h1]
        refine ⟨hc, h2.trans h.1, ?_⟩
        rw [h3]
        exact ih h.2 (fun b hb => hcells b (List.mem_cons_of_mem _ hb))

theorem chain_mem {link : Node T → Option Nat} {heap : Heap T} {curr : Option Nat}
    {addrs : List Nat} {values : List T} (h : Chain link heap curr addrs values) {a : Nat}
    (ha : a ∈ addrs) : ∃ node, heap[a]? = some node := by
  induction addrs generalizing curr values with
  | nil => simp at ha
  | cons b addrs ih =>
    cases values with
    | nil => simp [Chain] at h
    | cons x values =>
      simp only [Chain] at h
      obtain ⟨-, h⟩ := h
      cases hn : heap[b]? with
      | none => rw [hn] at h; exact h.elim
      | some node =>
        rw [hn] at h
        rcases List.mem_cons.mp ha with rfl | hm
        · exact ⟨node, hn⟩
        · exact ih h.2 hm

/-- The cells of a chain without repetition are no more than the cells of the heap. -/
theorem chain_length_le {link : Node T → Option Nat} {heap : Heap T} {curr : Option Nat}
    {addrs : List Nat} {values : List T} (h : Chain link heap curr addrs values)
    (hnd : addrs.Nodup) : addrs.length ≤ heap.length := by
  have hsub : addrs ⊆ List.range heap.length := by
    intro a ha
    obtain ⟨node, hn⟩ := chain_mem h ha
    rw [List.mem_range]
    by_contra hc
    rw [List.getElem?_eq_none (by omega)] at hn
    cases hn
  simpa using (List.subperm_of_subset hnd hsub).length_le

/-- The loop of `Reverse` ends, and what it does to the heap is to swap the two links of
every cell of the list. -/
theorem reverse_loop {heap : Heap T} {curr : Option Nat} {addrs : List Nat}
    {values : List T} (h : Chain Node.next heap curr addrs values) (hnd : addrs.Nodup)
    (fuel : Nat) (hfuel : addrs.length < fuel) :
    ∃ heap2, Reverse.loop fuel heap curr = .ok heap2 ∧ heap2.length = heap.length ∧
      (∀ a, a ∉ addrs → heap2[a]? = heap[a]?) ∧
      (∀ a ∈ addrs, ∀ node, heap[a]? = some node →
        heap2[a]? = some { node with prev := node.next, next := node.prev }) := by
  induction addrs generalizing heap curr values fuel with
  | nil =>
    cases values with
    | nil =>
      simp only [Chain] at h
      subst h
      cases fuel with
      | zero => simp at hfuel
      | succ f => exact ⟨heap, by rw [Reverse.loop], rfl, fun _ _ => rfl, by simp⟩
    | cons x values => simp [Chain] at h
  | cons a addrs ih =>
    cases values with
    | nil => simp [Chain] at h
    | cons x values =>
      simp only [Chain] at h
      obtain ⟨rfl, h⟩ := h
      cases hn : heap[a]? with
      | none => rw [hn] at h; exact h.elim
      | some node =>
        rw [hn] at h
        obtain ⟨hna, hnd2⟩ := List.nodup_cons.mp hnd
        cases fuel with
        | zero => simp at hfuel
        | succ f =>
          have halt : a < heap.length := by
            by_contra hc
            rw [List.getElem?_eq_none (by omega)] at hn
            cases hn
          have hne : ∀ b ∈ addrs, a ≠ b := fun b hb hab => hna (hab ▸ hb)
          have hch : Chain Node.next
              (heap.set a { node with prev := node.next, next := node.prev })
              node.next addrs values :=
            chain_transfer h.2 (fun b hb n hbn =>
              ⟨n, by rw [List.getElem?_set_ne (hne b hb)]; exact hbn, rfl, rfl⟩)
          obtain ⟨heap3, h1, h2, h3, h4⟩ := ih hch hnd2 f (by simpa using hfuel)
          refine ⟨heap3, ?_, by simpa using h2, ?_, ?_⟩
          · rw [Reverse.loop]
            simp only [Heap.read, hn, List.getElem?_set_self halt]
            exact h1
          · intro b hb
            rw [List.mem_cons, not_or] at hb
            rw [h3 b hb.2, List.getElem?_set_ne (Ne.symm hb.1)]
          · intro b hb n hbn
            rcases List.mem_cons.mp hb with rfl | hm
            · rw [h3 b hna, List.getElem?_set_self halt]
              rw [hn] at hbn
              cases hbn
              rfl
            · exact h4 b hm n (by rw [List.getElem?_set_ne (hne b hm)]; exact hbn)

/-- One call of `Reverse` on a well-formed list: it returns, swaps head and tail, swaps the two
links of every cell of the list and touches no other cell. -/
theorem reverse_cells (heap : Heap T) (list : LinkedList) (addrs : List Nat)
    (values : List T) (h : Represents heap list addrs values) :
    ∃ heap2, list.Reverse heap =
        .ok (heap2, { list with head := list.tail, tail := list.head }) ∧
      (∀ a, a ∉ addrs → heap2[a]? = heap[a]?) ∧
      (∀ a ∈ addrs, ∀ node, heap[a]? = some node →
        heap2[a]? = some { node with prev := node.next, next := node.prev }) ∧
      Represents heap2 { list with head := list.tail, tail := list.head }
        addrs.reverse values.reverse := by
  obtain ⟨hsize, hnd, hnext, hprev⟩ := h
  obtain ⟨heap2, h1, -, h3, h4⟩ := reverse_loop hnext hnd (heap.length + 1)
    (by have := chain_length_le hnext hnd; omega)
  refine ⟨heap2, by rw [LinkedList.Reverse, h1], h3, h4, by simpa using hsize,
    List.nodup_reverse.mpr hnd, ?_, ?_⟩
  · exact chain_transfer hprev (fun a ha node hn =>
      ⟨_, h4 a (List.mem_reverse.mp ha) node hn, rfl, rfl⟩)
  · rw [List.reverse_reverse, List.reverse_reverse]
    exact chain_transfer hnext (fun a ha node hn => ⟨_, h4 a ha node hn, rfl, rfl⟩)

/-- C23: on every well-formed linked list `Reverse` returns and leaves the list holding the same
cells and values in reversed order: walking `next` from the head gives the old sequence
backwards, walking `prev` from the tail gives the old sequence forwards; `Size` is unchanged;
and a second `Reverse` gives back the heap and the list of the start. -/
theorem reverse_reverses (heap : Heap T) (list : LinkedList) (addrs : List Nat)
    (values : List T) (h : Represents heap list addrs values) :
    ∃ heap2 list2, list.Reverse heap = .ok (heap2, list2) ∧
      Represents heap2 list2 addrs.reverse values.reverse ∧
      Chain Node.next heap2 list2.head addrs.reverse values.reverse ∧
      Chain Node.prev heap2 list2.tail addrs values ∧
      list2.Size = list.Size ∧
      list2.Reverse heap2 = .ok (heap, list) := by
  obtain ⟨heap2, e1, o1, s1, r1⟩ := reverse_cells heap list addrs values h
  obtain ⟨heap3, e2, o2, s2, -⟩ := reverse_cells heap2 _ addrs.reverse values.reverse r1
  have hback : heap3 = heap := by
    apply List.ext_getElem?
    intro a
    by_cases ha : a ∈ addrs
    · obtain ⟨node, hn⟩ := chain_mem h.2.2.1 ha
      rw [s2 a (List.mem_reverse.mpr ha) _ (s1 a ha node hn), hn]
    · rw [o2 a (by simpa using ha), o1 a ha]
  have hprev := r1.2.2.2
  rw [List.reverse_reverse, List.reverse_reverse] at hprev
  refine ⟨heap2, _, e1, r1, r1.2.2.1, hprev, rfl, ?_⟩
  rw [e2, hback]

theorem reverse_reverses_witness :
    Represents ([⟨10, none, some 1⟩, ⟨20, some 0, some 2⟩, ⟨30, some 1, none⟩] : Heap Int)
        ⟨some 0, some 2, 3⟩ [0, 1, 2] [10, 20, 30] ∧
      ∃ heap2 list2,
        LinkedList.Reverse
            ([⟨10, none, some 1⟩, ⟨20, some 0, some 2⟩, ⟨30, some 1, none⟩] : Heap Int)
            ⟨some 0, some 2, 3⟩ = .ok (heap2, list2) ∧
          Represents heap2 list2 [2, 1, 0] [30, 20, 10] ∧
          Chain Node.next heap2 list2.head [2, 1, 0] [30, 20, 10] ∧
          Chain Node.prev heap2 list2.tail [0, 1, 2] [10, 20, 30] ∧
          list2.Size = 3 ∧
          list2.Reverse heap2 =
            .ok ([⟨10, none, some 1⟩, ⟨20, some 0, some 2⟩, ⟨30, some 1, none⟩],
              ⟨some 0, some 2, 3⟩) :=
  ⟨by decide, reverse_reverses _ _ [0, 1, 2] [10, 20, 30] (by decide)⟩

/-- A chain whose last cell is relinked to `mid` goes on with the chain that starts at `mid`. -/
theorem chain_append {link : Node T → Option Nat} {heap heap2 : Heap T}
    {curr mid : Option Nat} {front rest : List Nat} {t : Nat} {values values2 : List T}
    (h : Chain link heap curr (front ++ [t]) values)
    (hcells : ∀ a ∈ front, ∀ node, heap[a]? = some node →
      ∃ node2, heap2[a]? = some node2 ∧ node2.Value = node.Value ∧ link node2 = link node)
    (hlast : ∀ node, heap[t]? = some node →
      ∃ node2, heap2[t]? = some node2 ∧ node2.Value = node.Value ∧ link node2 = mid)
    (h2 : Chain link heap2 mid rest values2) :
    Chain link heap2 curr (front ++ [t] ++ rest) (values ++ values2) := by
  induction front generalizing curr values with
  | nil =>
    cases values with
    | nil => simp [Chain] at h
    | cons x values =>
      simp only [List.nil_append, Chain] at h
      obtain ⟨hc, h⟩ := h
      cases hn : heap[t]? with
      | none => rw [hn] at h; exact h.elim
      | some node =>
        rw [hn] at h
        obtain ⟨hx, hend⟩ := h
        cases values with
        | cons y values => simp [Chain] at hend
        | nil =>
          obtain ⟨node2, h1, h3, h4⟩ := hlast node hn
          simp only [List.nil_append, List.singleton_append, List.cons_append, Chain, h1]
          exact ⟨hc, h3.trans hx, h4 ▸ h2⟩
  | cons a front ih =>
    cases values with
    | nil => simp [Chain] at h
    | cons x values =>
      simp only [List.cons_append, Chain] at h ⊢
      obtain ⟨hc, h⟩ := h
      cases hn : heap[a]? with
      | none => rw [hn] at h; exact h.elim
      | some node =>
        rw [hn] at h
        obtain ⟨node2, h1, h3, h4⟩ := hcells a (List.mem_cons_self _ _) node hn
        rw [h1]
        refine ⟨hc, h3.trans h.1, ?_⟩
        rw [h4]
        have := ih h.2 (fun b hb => hcells b (List.mem_cons_of_mem _ hb))
        simpa using this

/-- On two well-formed non-empty lists without a common cell `Join` returns and does what a
join is to do: the receiver holds its former values followed by those of the other list, the
sizes add up, the tail is the tail of the other list and the other list is empty. -/
theorem join_nonempty (heap : Heap T) (list second : LinkedList) (addrs addrs2 : List Nat)
    (values values2 : List T) (h : Represents heap list addrs values)
    (h2 : Represents heap second addrs2 values2) (hne : addrs ≠ []) (hne2 : addrs2 ≠ [])
    (hdis : addrs.Disjoint addrs2) :
    ∃ heap2 list2, list.Join heap second = .ok (heap2, list2, ⟨none, none, 0⟩) ∧
      Represents heap2 list2 (addrs ++ addrs2) (values ++ values2) ∧
      list2.Size = list.Size + second.Size ∧ list2.tail = second.tail := by
  obtain ⟨hsize, hnd, hnext, hprev⟩ := h
  obtain ⟨hsize2, hnd2, hnext2, hprev2⟩ := h2
  rcases List.eq_nil_or_concat addrs with rfl | ⟨front, t, rfl⟩
  · exact absurd rfl hne
  cases addrs2 with
  | nil => exact absurd rfl hne2
  | cons hd back =>
    rw [List.concat_eq_append] at *
    have htail : list.tail = some t := by rw [chain_head hprev]; simp
    have hhead : second.head = some hd := by rw [chain_head hnext2]; simp
    obtain ⟨tailNode, htn⟩ := chain_mem hnext (a := t) (by simp)
    obtain ⟨headNode, hhn⟩ := chain_mem hnext2 (a := hd) (by simp)
    have hth : t ≠ hd := fun e => hdis (a := t) (by simp) (by simp [e])
    have htlt : t < heap.length := by
      by_contra hc
      rw [List.getElem?_eq_none (by omega)] at htn
      cases htn
    have hhlt : hd < heap.length := by
      by_contra hc
      rw [List.getElem?_eq_none (by omega)] at hhn
      cases hhn
    have hother : ∀ c, c ≠ t → c ≠ hd → ∀ n1 n2 : Node T,
        ((heap.set t n1).set hd n2)[c]? = heap[c]? := fun c h1 h3 n1 n2 => by
      rw [List.getElem?_set_ne (Ne.symm h3), List.getElem?_set_ne (Ne.symm h1)]
    have hatT : ∀ n1 n2 : Node T, ((heap.set t n1).set hd n2)[t]? = some n1 := fun n1 n2 => by
      rw [List.getElem?_set_ne (Ne.symm hth), List.getElem?_set_self htlt]
    have hatH : ∀ n1 n2 : Node T, ((heap.set t n1).set hd n2)[hd]? = some n2 := fun n1 n2 =>
      List.getElem?_set_self (by simpa using hhlt)
    have hfront : ∀ a ∈ front, a ≠ t ∧ a ≠ hd := fun a ha =>
      ⟨fun e => by
        have := (List.nodup_append.mp hnd).2.2 ha
        exact this (by simp [e]),
       fun e => hdis (a := a) (by simp [ha]) (by simp [e])⟩
    have hback : ∀ a ∈ back, a ≠ t ∧ a ≠ hd := fun a ha =>
      ⟨fun e => hdis (a := t) (by simp) (by simp [← e, ha]),
       fun e => (List.nodup_cons.mp hnd2).1 (e ▸ ha)⟩
    refine ⟨(heap.set t { tailNode with next := some hd }).set hd
        { headNode with prev := some t },
      { list with tail := second.tail, size := list.size + second.size }, ?_, ⟨?_, ?_, ?_, ?_⟩,
      rfl, rfl⟩
    · simp only [LinkedList.Join, htail, hhead, Heap.read, htn,
        List.getElem?_set_ne hth, hhn, LinkedList.Clear]
    · show list.size + second.size = _
      rw [hsize, hsize2]
      simp
    · exact hnd.append hnd2 hdis
    · refine chain_append hnext (fun a ha node hn => ?_) (fun node hn => ?_)
        (chain_transfer hnext2 (fun a ha node hn => ?_))
      · exact ⟨node, by rw [hother a (hfront a ha).1 (hfront a ha).2]; exact hn, rfl, rfl⟩
      · rw [htn] at hn
        cases hn
        exact ⟨_, hatT _ _, rfl, hhead.symm⟩
      · rcases List.mem_cons.mp ha with rfl | hm
        · rw [hhn] at hn
          cases hn
          exact ⟨_, hatH _ _, rfl, rfl⟩
        · exact ⟨node, by rw [hother a (hback a hm).1 (hback a hm).2]; exact hn, rfl, rfl⟩
    · have e1 : (front ++ [t] ++ hd :: back).reverse =
          back.reverse ++ [hd] ++ (front ++ [t]).reverse := by simp
      have e2 : (values ++ values2).reverse = values2.reverse ++ values.reverse := by simp
      rw [e1, e2]
      rw [List.reverse_cons] at hprev2
      refine chain_append hprev2 (fun a ha node hn => ?_) (fun node hn => ?_)
        (chain_transfer hprev (fun a ha node hn => ?_))
      · have hb := hback a (List.mem_reverse.mp ha)
        exact ⟨node, by rw [hother a hb.1 hb.2]; exact hn, rfl, rfl⟩
      · rw [hhn] at hn
        cases hn
        exact ⟨_, hatH _ _, rfl, htail.symm⟩
      · rcases List.mem_append.mp (List.mem_reverse.mp ha) with hm | hm
        · exact ⟨node, by rw [hother a (hfront a hm).1 (hfront a hm).2]; exact hn, rfl, rfl⟩
        · rw [List.mem_singleton] at hm
          subst hm
          rw [htn] at hn
          cases hn
          exact ⟨_, hatT _ _, rfl, rfl⟩

/-- C22: `Join` with another linked list fails with a nil dereference whenever the receiver is
empty (at `list.tail.next = second.head`) and fails whenever the other list is empty (at
`second.head.prev = list.tail`); so it does on the empty list and a one-cell list, either way
round.  On two one-cell lists it gives the two values in order. -/
theorem join_fails_on_empty_list :
    (∀ (heap : Heap Int) (head : Option Nat) (size : Int) (second : LinkedList),
      LinkedList.Join heap ⟨head, none, size⟩ second = .error .nilDereference) ∧
    (∀ (heap : Heap Int) (list : LinkedList) (tail : Option Nat) (size : Int),
      ∃ e, LinkedList.Join heap list ⟨none, tail, size⟩ = .error e) ∧
    LinkedList.Join ([⟨7, none, none⟩] : Heap Int) ⟨none, none, 0⟩ ⟨some 0, some 0, 1⟩ =
      .error .nilDereference ∧
    LinkedList.Join ([⟨7, none, none⟩] : Heap Int) ⟨some 0, some 0, 1⟩ ⟨none, none, 0⟩ =
      .error .nilDereference ∧
    Represents ([⟨7, none, none⟩] : Heap Int) ⟨none, none, 0⟩ [] [] ∧
    Represents ([⟨7, none, none⟩] : Heap Int) ⟨some 0, some 0, 1⟩ [0] [7] ∧
    LinkedList.Join ([⟨7, none, none⟩, ⟨8, none, none⟩] : Heap Int) ⟨some 0, some 0, 1⟩
        ⟨some 1, some 1, 1⟩ =
      .ok ([⟨7, none, some 1⟩, ⟨8, some 0, none⟩], ⟨some 0, some 1, 2⟩, ⟨none, none, 0⟩) ∧
    Represents ([⟨7, none, some 1⟩, ⟨8, some 0, none⟩] : Heap Int) ⟨some 0, some 1, 2⟩
      [0, 1] [7, 8] := by
  refine ⟨fun _ _ _ _ => rfl, fun heap list tail size => ?_, rfl, rfl, by decide, by decide,
    rfl, by decide⟩
  unfold LinkedList.Join
  cases list.tail with
  | none => exact ⟨_, rfl⟩
  | some t =>
    dsimp only
    cases Heap.read heap (some t) with
    | error e => exact ⟨e, rfl⟩
    | ok node => exact ⟨_, rfl⟩

end linkedlist

/-! ## The sorting step of `mapreduce` -/

namespace mapreduce

open rbt (Failure Comparator Result Compare)

/-- C25: `sortData` on the keys `[2, 1]` with the values `["b", "a"]`, compared as integers,
returns with the keys sorted to `[1, 2]` and the values left as `["b", "a"]`: the second sort
compares the keys, which are sorted by then, and moves nothing, so the value `"b"` mapped with
key 2 ends at the index of key 1. -/
theorem sortData_leaves_values_behind :
    ∃ process2, Process.sortData (Process.mk Compare [2, 1] ["b", "a"]) = .ok process2 ∧
      process2.mappedDataKeys = [1, 2] ∧ process2.mappedDataValues = ["b", "a"] ∧
      process2.mappedDataKeys.zip process2.mappedDataValues = [(1, "b"), (2, "a")] ∧
      (([2, 1] : List Int).zip ["b", "a"]).Perm [(1, "a"), (2, "b")] ∧
      ¬ (process2.mappedDataKeys.zip process2.mappedDataValues).Perm
        (([2, 1] : List Int).zip ["b", "a"]) :=
  ⟨Process.mk Compare [1, 2] ["b", "a"], rfl, rfl, rfl, rfl, by decide, by decide⟩

end mapreduce
